import Mathlib

set_option maxHeartbeats 1000000

/-!
Verification of the on-disk table layer of `whoosh/filedb/filetables.py`
(a CDB-derived immutable hash-table file format), via a shallow embedding.

Files are modelled as lists of bytes (`List Nat`, each element < 256).
Sequential writers become pure state-passing functions; the memory-mapped
reader becomes pure functions over the byte list.  All multi-byte integers
are big-endian, matching the `struct` format strings in the source.
-/

namespace Whoosh

/-- A file is a list of bytes (each `< 256` for well-formed files). -/
abbrev ByteSeq := List Nat

/-- Big-endian encoding of `n` into `w` bytes (`struct.pack` on `!I`/`!q`
for nonnegative values). -/
def beBytes : Nat → Nat → ByteSeq
  | 0, _ => []
  | w + 1, n => beBytes w (n / 256) ++ [n % 256]

/-- Big-endian decoding of a byte sequence (`struct.unpack`). -/
def decBE (l : ByteSeq) : Nat := l.foldl (fun a b => a * 256 + b) 0

/-- Read `len` bytes at offset `pos` from a file: `map[pos:pos+len]`. -/
def readAt (f : ByteSeq) (pos len : Nat) : ByteSeq := (f.drop pos).take len

/-- `dbfile.get_uint pos`: big-endian u32 at `pos`. -/
def getU32 (f : ByteSeq) (pos : Nat) : Nat := decBE (readAt f pos 4)

/-- `dbfile.get_long pos` for nonnegative stored values: big-endian 8-byte
integer at `pos`. -/
def getU64 (f : ByteSeq) (pos : Nat) : Nat := decBE (readAt f pos 8)

/-- `cdb_hash(key)`: the DJB-XOR hash from the source,
`h = ((h + (h << 5)) & 0xffffffff) ^ ord(c)` starting from `5381`. -/
def cdb_hash (key : ByteSeq) : Nat :=
  key.foldl (fun h c => ((h + (h <<< 5)) % 4294967296) ^^^ c) 5381

/-- `lengths_size`: size of the packed `!II` record-length header. -/
def lengths_size : Nat := 8

/-- `header_entry_size`: size of a packed `!qI` directory entry. -/
def header_entry_size : Nat := 12

/-- `pointer_size` of the current format (`!Iq`: u32 hash, i64 position). -/
def pointer_size : Nat := 12

/-- Header size of the current format: `16 + 256 * header_entry_size`. -/
def header_size : Nat := 16 + 256 * header_entry_size

/-- `pack_lengths(keylen, datalen)`: two big-endian u32 values. -/
def pack_lengths (keylen datalen : Nat) : ByteSeq :=
  beBytes 4 keylen ++ beBytes 4 datalen

/-- The bytes one `(key, value)` record occupies on disk:
`<u32 keylen><u32 datalen><key bytes><value bytes>` (what `add_all` writes). -/
def recordBytes (key value : ByteSeq) : ByteSeq :=
  pack_lengths key.length value.length ++ key ++ value

/-- `pack_pointer(hashval, position)` in the current (`!Iq`) format. -/
def pack_pointer (hashval position : Nat) : ByteSeq :=
  beBytes 4 hashval ++ beBytes 8 position

/-- `pack_header_entry(position, numslots)` (`!qI`). -/
def pack_header_entry (position numslots : Nat) : ByteSeq :=
  beBytes 8 position ++ beBytes 4 numslots

/-- The byte string `"HASH"`. -/
def hashMagic : ByteSeq := [72, 65, 83, 72]

/-- State of a `HashWriter` (current format, `old_format=False`): the file
written so far, plus the in-memory directory of hashed values.  The source
stores a `defaultdict(list)` keyed by `h & 255`; we keep the single list of
`(hash, position)` pairs in insertion order, bucket `i`'s list being
`bucketEntries hashes i` (the order within each bucket is unchanged). -/
structure HashWriter where
  file : ByteSeq
  hashes : List (Nat × Nat)

/-- A fresh writer: `dbfile.seek(self.header_size)` on an empty file leaves
a hole of `header_size` zero bytes to be overwritten at close. -/
def HashWriter.init : HashWriter :=
  { file := List.replicate header_size 0, hashes := [] }

/-- `HashWriter.add_all(items)`: append each record at the current offset
and record `(hash, position)` under bucket `hash & 255`. -/
def HashWriter.add_all (w : HashWriter) (items : List (ByteSeq × ByteSeq)) : HashWriter :=
  items.foldl (fun w kv =>
    { file := w.file ++ recordBytes kv.1 kv.2,
      hashes := w.hashes ++ [(cdb_hash kv.1, w.file.length)] }) w

/-- `HashWriter.add(key, value) = add_all([(key, value)])`. -/
def HashWriter.add (w : HashWriter) (key value : ByteSeq) : HashWriter :=
  w.add_all [(key, value)]

/-- The entries of bucket `i`: `self.hashes[i]`, in insertion order. -/
def bucketEntries (hashes : List (Nat × Nat)) (i : Nat) : List (Nat × Nat) :=
  hashes.filter (fun e => e.1 % 256 == i)

/-- Linear probe for a free slot, mirroring
`while hashtable[n] != null: n = (n + 1) % numslots`.  The source's loop
has no fuel; with fuel equal to the table size the two agree whenever a
free slot exists (proved below), and `none` models divergence. -/
def findSlot (table : List (Nat × Nat)) : Nat → Nat → Option Nat
  | _, 0 => none
  | j, fuel + 1 =>
    if table.getD j (0, 0) = (0, 0) then some j
    else findSlot table ((j + 1) % table.length) fuel

/-- Build one bucket's slot table in `_write_hashes`: `numslots = 2 * len(entries)`
null-initialised slots, each entry inserted at `(hashval >> 8) % numslots`
with linear probing. -/
def buildTable (entries : List (Nat × Nat)) : Option (List (Nat × Nat)) :=
  let numslots := 2 * entries.length
  entries.foldlM
    (fun table e =>
      (findSlot table ((e.1 >>> 8) % numslots) numslots).map (fun j => table.set j e))
    (List.replicate numslots ((0 : Nat), (0 : Nat)))

/-- The bytes of one bucket's slot table as written by `_write_hashes`. -/
def slotBytes (table : List (Nat × Nat)) : ByteSeq :=
  (table.map (fun e => pack_pointer e.1 e.2)).flatten

/-- The per-bucket loop of `HashWriter._write_hashes`: for each bucket
number, append its slot table and record `(position, numslots)` in the
directory.  The running file length plays the role of `pos`. -/
def writeHashesLoop (hashes : List (Nat × Nat)) :
    List Nat → ByteSeq × List (Nat × Nat) → Option (ByteSeq × List (Nat × Nat))
  | [], st => some st
  | i :: rest, (f, dir) =>
    match buildTable (bucketEntries hashes i) with
    | none => none
    | some table =>
      writeHashesLoop hashes rest
        (f ++ slotBytes table, dir ++ [(f.length, 2 * (bucketEntries hashes i).length)])

/-- `HashWriter._write_hashes`: run the bucket loop over buckets `0..255`
and record `_end_of_hashes = dbfile.tell()`.  Returns
`(file, directory, end_of_hashes)`. -/
def write_hashes (w : HashWriter) : Option (ByteSeq × List (Nat × Nat) × Nat) :=
  (writeHashesLoop w.hashes (List.range 256) (w.file, [])).map
    (fun st => (st.1, st.2, st.1.length))

/-- `HashWriter._write_directory`: seek to 0 and overwrite the header zone
with `"HASH"`, an unused u32, `_end_of_hashes` and the 256 directory
entries; the rest of the file is unchanged. -/
def write_directory (f : ByteSeq) (endOfHashes : Nat) (directory : List (Nat × Nat)) : ByteSeq :=
  (hashMagic ++ beBytes 4 0 ++ beBytes 8 endOfHashes
      ++ (directory.map (fun e => pack_header_entry e.1 e.2)).flatten)
    ++ f.drop header_size

/-- `HashWriter.close`: `_write_hashes` then `_write_directory`, producing
the final file contents. -/
def HashWriter.close (w : HashWriter) : Option ByteSeq :=
  (write_hashes w).map (fun r => write_directory r.1 r.2.2 r.2.1)

/-! ### HashReader

The reader memory-maps a frozen file; we model its methods as pure
functions of the byte list (new `"HASH"` format). -/

/-- `HashReader.buckets`: the 256 `(position, numslots)` directory entries,
parsed from the header after the 16-byte prefix. -/
def buckets (f : ByteSeq) : List (Nat × Nat) :=
  (List.range 256).map (fun i =>
    (getU64 f (16 + i * header_entry_size), getU32 f (16 + i * header_entry_size + 8)))

/-- `HashReader._start_of_hashes = self.buckets[0][0]`. -/
def start_of_hashes (f : ByteSeq) : Nat := ((buckets f).getD 0 (0, 0)).1

/-- `HashReader.end_of_hashes()` (new format): the i64 stored at offset 8. -/
def end_of_hashes (f : ByteSeq) : Nat := getU64 f 8

/-- `HashReader._hashtable_info(keyhash) = self.buckets[keyhash & 255]`. -/
def hashtable_info (f : ByteSeq) (keyhash : Nat) : Nat × Nat :=
  (buckets f).getD (keyhash % 256) (0, 0)

/-- `HashReader._ranges(pos)`: sequential walk of the record region up to
`eod = _start_of_hashes`, yielding `(keypos, keylen, datapos, datalen)`. -/
def rangesAux (f : ByteSeq) (eod : Nat) (pos : Nat) : List (Nat × Nat × Nat × Nat) :=
  if pos < eod then
    let keylen := getU32 f pos
    let datalen := getU32 f (pos + 4)
    (pos + lengths_size, keylen, pos + lengths_size + keylen, datalen)
      :: rangesAux f eod (pos + lengths_size + keylen + datalen)
  else []
termination_by eod - pos
decreasing_by simp only [lengths_size]; omega

/-- `HashReader._ranges()` with the default start `pos = header_size`. -/
def ranges (f : ByteSeq) : List (Nat × Nat × Nat × Nat) :=
  rangesAux f (start_of_hashes f) header_size

/-- `HashReader.items()`. -/
def itemsOf (f : ByteSeq) : List (ByteSeq × ByteSeq) :=
  (ranges f).map (fun r => (readAt f r.1 r.2.1, readAt f r.2.2.1 r.2.2.2))

/-- `HashReader.keys()`. -/
def keysOf (f : ByteSeq) : List ByteSeq :=
  (ranges f).map (fun r => readAt f r.1 r.2.1)

/-- `HashReader.values()`. -/
def valuesOf (f : ByteSeq) : List ByteSeq :=
  (ranges f).map (fun r => readAt f r.2.2.1 r.2.2.2)

/-- The probe loop of `HashReader.ranges_for_key`: up to `hslots` slots,
stop at an empty slot (`pos == 0`), advance with wrap-around, and yield
`(datapos, datalen)` for each slot whose hash and record key match. -/
def probeLoop (f : ByteSeq) (hpos hslots keyhash : Nat) (key : ByteSeq) :
    Nat → Nat → List (Nat × Nat)
  | _, 0 => []
  | slotpos, fuel + 1 =>
    let slothash := getU32 f slotpos
    let pos := getU64 f (slotpos + 4)
    if pos = 0 then []
    else
      let slotpos' :=
        if slotpos + pointer_size = hpos + hslots * pointer_size then hpos
        else slotpos + pointer_size
      let rest := probeLoop f hpos hslots keyhash key slotpos' fuel
      if slothash = keyhash then
        let keylen := getU32 f pos
        let datalen := getU32 f (pos + 4)
        if keylen = key.length ∧ readAt f (pos + lengths_size) keylen = key then
          (pos + lengths_size + keylen, datalen) :: rest
        else rest
      else rest

/-- `HashReader.ranges_for_key(key)`. -/
def ranges_for_key (f : ByteSeq) (key : ByteSeq) : List (Nat × Nat) :=
  let keyhash := cdb_hash key
  let info := hashtable_info f keyhash
  if info.2 = 0 then []
  else
    probeLoop f info.1 info.2 keyhash key
      (info.1 + ((keyhash >>> 8) % info.2) * pointer_size) info.2

/-- `HashReader.all(key)`: the data slice of every matching range. -/
def allOf (f key : ByteSeq) : List ByteSeq :=
  (ranges_for_key f key).map (fun r => readAt f r.1 r.2)

/-- `HashReader.__getitem__`: first value, `none` models `KeyError`. -/
def getItemOf (f key : ByteSeq) : Option ByteSeq := (allOf f key).head?

/-- `HashReader.get(key, default)`. -/
def getOf (f key default : ByteSeq) : ByteSeq := (allOf f key).headD default

/-- `HashReader.__contains__`. -/
def containsOf (f key : ByteSeq) : Bool := !(ranges_for_key f key).isEmpty

/-! ### OrderedHashWriter / OrderedHashReader -/

/-- Python 2 lexicographic `<` on byte strings. -/
def lexLt : ByteSeq → ByteSeq → Bool
  | [], [] => false
  | [], _ :: _ => true
  | _ :: _, [] => false
  | a :: as, b :: bs => if a < b then true else if b < a then false else lexLt as bs

/-- The test `key <= lk` in `OrderedHashWriter.add_all`: `lastkey` starts
as `None`, and in Python 2 every byte string compares greater than `None`,
so the first key is always accepted. -/
def leLastkey (key : ByteSeq) (lastkey : Option ByteSeq) : Bool :=
  match lastkey with
  | none => false
  | some lk => !(lexLt lk key)

/-- State of an `OrderedHashWriter`: a `HashWriter` plus the offset index
and the last accepted key. -/
structure OrderedHashWriter where
  file : ByteSeq
  hashes : List (Nat × Nat)
  index : List Nat
  lastkey : Option ByteSeq

/-- A fresh ordered writer. -/
def OrderedHashWriter.init : OrderedHashWriter :=
  { file := List.replicate header_size 0, hashes := [], index := [], lastkey := none }

/-- Result of `OrderedHashWriter.add_all`: either the updated writer, or
the `ValueError("Keys must increase")` raise.  The error carries the
writer state at the moment of the raise: records accepted earlier in the
same batch are already written, and `self.lastkey` has not been
reassigned (that happens only after a completed loop). -/
inductive AddAllResult where
  | ok (w : OrderedHashWriter)
  | keysOutOfOrder (w : OrderedHashWriter)

/-- Extract the writer from a successful `add_all`, with a default. -/
def AddAllResult.getOk (d : OrderedHashWriter) : AddAllResult → OrderedHashWriter
  | .ok w => w
  | .keysOutOfOrder _ => d

/-- The loop of `OrderedHashWriter.add_all`, with the local `lk`. -/
def orderedAddLoop (w : OrderedHashWriter) (lk : Option ByteSeq) :
    List (ByteSeq × ByteSeq) → AddAllResult
  | [] => .ok { w with lastkey := lk }
  | kv :: rest =>
    if leLastkey kv.1 lk then .keysOutOfOrder w
    else
      orderedAddLoop
        { w with
          index := w.index ++ [w.file.length],
          file := w.file ++ recordBytes kv.1 kv.2,
          hashes := w.hashes ++ [(cdb_hash kv.1, w.file.length)] }
        (some kv.1) rest

/-- `OrderedHashWriter.add_all(items)`. -/
def OrderedHashWriter.add_all (w : OrderedHashWriter) (items : List (ByteSeq × ByteSeq)) :
    AddAllResult :=
  orderedAddLoop w w.lastkey items

/-- `OrderedHashWriter.close`: hash zone, then `<u32 len(index)>` and the
recorded record offsets as i64, then the header (`_end_of_hashes` was
captured before the index was written). -/
def OrderedHashWriter.close (w : OrderedHashWriter) : Option ByteSeq :=
  (writeHashesLoop w.hashes (List.range 256) (w.file, [])).map fun st =>
    write_directory
      (st.1 ++ beBytes 4 w.index.length ++ (w.index.map (beBytes 8)).flatten)
      st.1.length st.2

/-- `OrderedHashReader.length`: the u32 read at `end_of_hashes()`. -/
def indexLength (f : ByteSeq) : Nat := getU32 f (end_of_hashes f)

/-- `OrderedHashReader.indexbase`: the file position after that u32. -/
def indexbase (f : ByteSeq) : Nat := end_of_hashes f + 4

/-- `HashReader._key_at(pos)`: the key bytes of the record at `pos`. -/
def key_at (f : ByteSeq) (pos : Nat) : ByteSeq :=
  readAt f (pos + lengths_size) (getU32 f pos)

/-- The binary-search loop of `OrderedHashReader._closest_key`. -/
def closestKeyLoop (f : ByteSeq) (key : ByteSeq) (lo hi : Nat) : Nat :=
  if lo < hi then
    let mid := (lo + hi) / 2
    let midkey := key_at f (getU64 f (indexbase f + mid * 8))
    if lexLt midkey key then closestKeyLoop f key (mid + 1) hi
    else closestKeyLoop f key lo mid
  else lo
termination_by hi - lo
decreasing_by all_goals omega

/-- `OrderedHashReader._closest_key(key)`: offset of the first indexed
record whose key is not less than `key`, or `none`. -/
def closest_key_pos (f : ByteSeq) (key : ByteSeq) : Option Nat :=
  let lo := closestKeyLoop f key 0 (indexLength f)
  if lo = indexLength f then none
  else some (getU64 f (indexbase f + lo * 8))

/-- `OrderedHashReader._ranges_from(key)`. -/
def rangesFrom (f key : ByteSeq) : List (Nat × Nat × Nat × Nat) :=
  match closest_key_pos f key with
  | none => []
  | some pos => rangesAux f (start_of_hashes f) pos

/-- `OrderedHashReader.items_from(key)`. -/
def itemsFrom (f key : ByteSeq) : List (ByteSeq × ByteSeq) :=
  (rangesFrom f key).map (fun r => (readAt f r.1 r.2.1, readAt f r.2.2.1 r.2.2.2))

/-! ### A serialization model for `cPickle`

`cPickle` is Python-standard-library code, not part of this repository;
the spec (§9) says only that the source uses a language-specific
serialization of small mappings and tuples, whose relevant properties are
self-delimitation (`load` consumes exactly one object, streams end with
`'.'`, protocol-2 dumps start with a 2-byte prefix) and
`loads(dumps(x)) == x`.  We model it with an executable self-delimiting
codec having exactly those properties. -/

/-- Little-endian base-128 varint with continuation bit, structurally
recursive on a fuel argument (`n` itself is always enough fuel). -/
def natEncAux : Nat → Nat → ByteSeq
  | 0, n => [n]
  | fuel + 1, n => if n < 128 then [n] else (n % 128 + 128) :: natEncAux fuel (n / 128)

/-- The serialized atom for natural numbers. -/
def natEnc (n : Nat) : ByteSeq := natEncAux n n

/-- Decode one varint, returning the value and the remaining bytes. -/
def natDec : ByteSeq → Option (Nat × ByteSeq)
  | [] => none
  | b :: rest =>
    if b < 128 then some (b, rest)
    else (natDec rest).map (fun r => (b - 128 + 128 * r.1, r.2))

/-- Length-prefixed byte string. -/
def bytesEnc (s : ByteSeq) : ByteSeq := natEnc s.length ++ s

/-- Decode one length-prefixed byte string. -/
def bytesDec (l : ByteSeq) : Option (ByteSeq × ByteSeq) :=
  (natDec l).bind fun r =>
    if r.1 ≤ r.2.length then some (r.2.take r.1, r.2.drop r.1) else none

/-- Body of `dumps(tuple_of_ints, -1)[2:-1]` for an inline postings tuple. -/
def tupleBody (l : List Nat) : ByteSeq := natEnc l.length ++ (l.map natEnc).flatten

/-- Decode `count` varints. -/
def natListDec : Nat → ByteSeq → Option (List Nat × ByteSeq)
  | 0, s => some ([], s)
  | k + 1, s =>
    (natDec s).bind fun r => (natListDec k r.2).map (fun q => (r.1 :: q.1, q.2))

/-- `loads(pstr + ".")` for an inline postings tuple: the stream must end
at the `'.'` terminator. -/
def tupleLoads (s : ByteSeq) : Option (List Nat) :=
  (natDec s).bind fun r => (natListDec r.1 r.2).bind fun q =>
    match q.2 with
    | [46] => some q.1
    | _ => none

/-- Full pickle of a name → number mapping (`write_pickle`):
protocol prefix, entry count, entries, `'.'` terminator. -/
def dictBody (m : List (ByteSeq × Nat)) : ByteSeq :=
  natEnc m.length ++ (m.map (fun e => bytesEnc e.1 ++ natEnc e.2)).flatten

/-- `dumps(mapping, -1)` in full (as written by `write_pickle`). -/
def dictPickle (m : List (ByteSeq × Nat)) : ByteSeq :=
  128 :: 2 :: (dictBody m ++ [46])

/-- Decode `count` mapping entries. -/
def dictEntriesDec : Nat → ByteSeq → Option (List (ByteSeq × Nat) × ByteSeq)
  | 0, s => some ([], s)
  | k + 1, s =>
    (bytesDec s).bind fun r => (natDec r.2).bind fun q =>
      (dictEntriesDec k q.2).map (fun t => ((r.1, q.1) :: t.1, t.2))

/-- `read_pickle` of a mapping: parse one pickled mapping, returning it
and the remaining bytes of the stream. -/
def dictLoads (s : ByteSeq) : Option (List (ByteSeq × Nat) × ByteSeq) :=
  match s with
  | 128 :: 2 :: rest =>
    (natDec rest).bind fun r => (dictEntriesDec r.1 r.2).bind fun q =>
      match q.2 with
      | 46 :: rest2 => some (q.1, rest2)
      | _ => none
  | _ => none

/-- `dbfile.seek(pos); read_pickle()` of a mapping: the mapping and the
file position after the pickle (`dbfile.tell()`). -/
def dictLoadsAt (f : ByteSeq) (pos : Nat) : Option (List (ByteSeq × Nat) × Nat) :=
  (dictLoads (f.drop pos)).map (fun r => (r.1, f.length - r.2.length))

/-- First-match association lookup (`dict.get` for maps with unique keys). -/
def assocFind (m : List (ByteSeq × Nat)) (k : ByteSeq) : Option Nat :=
  (m.find? (fun e => e.1 == k)).map (·.2)

/-! ### The field-length codec and `LengthWriter` / `LengthReader` -/

/-- Modelled from the spec: `whoosh.util.byte_to_length` is repository
code that is not under `src/`.  The spec describes the pair only as a
"lossy 1-byte codec ... invertible only approximately"; we model a codec
with exactly those properties: `byte_to_length` is injective on bytes and
`length_to_byte` is its lossy left inverse. -/
def byte_to_length (b : Nat) : Nat := b * 4

/-- Modelled from the spec: `whoosh.util.length_to_byte` (see
`byte_to_length`); lossy, clamped to one byte. -/
def length_to_byte (n : Nat) : Nat := min (n / 4) 255

/-- Shared state of `LengthWriter` / `LengthReader`: `doccount` and the
per-field dense byte arrays (`{fieldname: array("B")}`, modelled as an
association list in first-insertion order). -/
structure LengthState where
  doccount : Nat
  lengths : List (ByteSeq × List Nat)

/-- `fieldname in lengths` / `lengths[fieldname]`. -/
def lookupLengths (lengths : List (ByteSeq × List Nat)) (fieldname : ByteSeq) :
    Option (List Nat) :=
  (lengths.find? (fun e => e.1 == fieldname)).map (·.2)

/-- `LengthWriter.add(docnum, fieldname, byte)`: zero bytes are not
stored; a first write to a field allocates a zero-filled array. -/
def LengthState.add (st : LengthState) (docnum : Nat) (fieldname : ByteSeq) (byte : Nat) :
    LengthState :=
  if byte ≠ 0 then
    let lengths :=
      match lookupLengths st.lengths fieldname with
      | some _ => st.lengths
      | none => st.lengths ++ [(fieldname, List.replicate st.doccount 0)]
    { st with
      lengths := lengths.map (fun e =>
        if e.1 == fieldname then (e.1, e.2.set docnum byte) else e) }
  else st

/-- `LengthReader.get(docnum, fieldname, default)`.  Note the source's
`byte = lengths[fieldname][docnum] or default`: a stored zero byte falls
back to `default` *before* decoding.  (For `docnum < doccount` the `getD`
matches Python's in-range indexing.) -/
def LengthState.get (st : LengthState) (docnum : Nat) (fieldname : ByteSeq) (default : Nat) :
    Nat :=
  match lookupLengths st.lengths fieldname with
  | none => default
  | some arr =>
    let byte := if arr.getD docnum 0 = 0 then default else arr.getD docnum 0
    byte_to_length byte

/-! ### TermInfo and its binary codec -/

/-- `pack_long` (`!q`): signed 64-bit big-endian, two's complement. -/
def packInt64 (p : Int) : ByteSeq := beBytes 8 (p % ((2 : Int) ^ 64)).toNat

/-- `unpack_long`: decode a signed big-endian 64-bit integer. -/
def decInt64 (l : ByteSeq) : Int :=
  let u := decBE l
  if u < 2 ^ 63 then (u : Int) else (u : Int) - 2 ^ 64

/-- The `postings` attribute of a `TermInfo`: `None`, an integer offset
into the postings file, or an inline tuple (modelled as naturals). -/
inductive Postings where
  | pnone
  | poffset (p : Int)
  | ptuple (l : List Nat)
deriving DecidableEq

/-- `TermInfo` record.  The three `f32` fields (`weight`, `maxweight`,
`maxwol`) are modelled by their 32-bit big-endian IEEE bit patterns
(`struct.pack`/`unpack` of an f32-representable float is a bijection on
bit patterns); `_minlength`/`_maxlength` hold whatever the constructor was
given, exactly as in the dynamically-typed source. -/
structure TermInfo where
  weight : Nat
  docfreq : Nat
  minlength : Nat
  maxlength : Nat
  maxweight : Nat
  maxwol : Nat
  postings : Postings
deriving DecidableEq

/-- `TermInfo.to_string`: `<magic><!fIBBff struct><postings suffix>`; the
length fields go through `length_to_byte`, `None` postings become the
offset `-1`, and a tuple is pickled inline with magic 1. -/
def TermInfo.to_string (ti : TermInfo) : ByteSeq :=
  let st := beBytes 4 ti.weight ++ beBytes 4 ti.docfreq
    ++ [length_to_byte ti.minlength] ++ [length_to_byte ti.maxlength]
    ++ beBytes 4 ti.maxweight ++ beBytes 4 ti.maxwol
  match ti.postings with
  | .ptuple l => 1 :: (st ++ tupleBody l)
  | .pnone => 0 :: (st ++ packInt64 (-1))
  | .poffset p => 0 :: (st ++ packInt64 p)

/-- `TermInfo.from_string`: `none` models the raises (`struct.error` on a
short string, unpickling failure, and `Exception("Unknown struct header")`
for magic ≥ 2).  The length bytes pass through `byte_to_length` on read. -/
def TermInfo.from_string (s : ByteSeq) : Option TermInfo :=
  match s with
  | [] => none
  | hbyte :: _ =>
    if hbyte < 2 then
      if s.length < 19 then none
      else
        let w := decBE (readAt s 1 4)
        let df := decBE (readAt s 5 4)
        let ml := byte_to_length (s.getD 9 0)
        let xl := byte_to_length (s.getD 10 0)
        let xw := decBE (readAt s 11 4)
        let xwol := decBE (readAt s 15 4)
        let pstr := s.drop 19
        if hbyte = 0 then
          if pstr.length = 8 then
            some ⟨w, df, ml, xl, xw, xwol, Postings.poffset (decInt64 pstr)⟩
          else none
        else
          (tupleLoads (pstr ++ [46])).map
            (fun l => ⟨w, df, ml, xl, xw, xwol, Postings.ptuple l⟩)
    else none

/-! ### TermIndexWriter / TermIndexReader / TermVectorReader
(the coded layers over the ordered tables that the claims need) -/

/-- `pack_ushort` (`!H`). -/
def pack_ushort (n : Nat) : ByteSeq := beBytes 2 n

/-- State of a `TermIndexWriter`: the underlying ordered writer plus the
field map being built. -/
structure TermIndexWriter where
  base : OrderedHashWriter
  fieldcounter : Nat
  fieldmap : List (ByteSeq × Nat)

/-- A fresh `TermIndexWriter`. -/
def TermIndexWriter.init : TermIndexWriter :=
  { base := OrderedHashWriter.init, fieldcounter := 0, fieldmap := [] }

/-- `TermIndexWriter.keycoder`: assigns field numbers in first-seen order
and returns the updated state with the coded key
`pack_ushort(fieldnum) + utf8encode(text)[0]`.  Term text is modelled by
its UTF-8 byte string, so `utf8encode` is the identity here. -/
def tiKeycoder (w : TermIndexWriter) (fieldname text : ByteSeq) :
    TermIndexWriter × ByteSeq :=
  match assocFind w.fieldmap fieldname with
  | some fieldnum => (w, pack_ushort fieldnum ++ text)
  | none =>
    ({ w with
        fieldmap := w.fieldmap ++ [(fieldname, w.fieldcounter)],
        fieldcounter := w.fieldcounter + 1 },
      pack_ushort w.fieldcounter ++ text)

/-- `CodedOrderedWriter.add` as instantiated by `TermIndexWriter`:
`self._add(self.keycoder(key), self.valuecoder(data))`; `none` models the
`KeysOutOfOrder` raise from the underlying ordered writer. -/
def TermIndexWriter.add (w : TermIndexWriter) (fieldname text : ByteSeq) (ti : TermInfo) :
    Option TermIndexWriter :=
  let wk := tiKeycoder w fieldname text
  match wk.1.base.add_all [(wk.2, ti.to_string)] with
  | .ok b => some { wk.1 with base := b }
  | .keysOutOfOrder _ => none

/-- Iterated `TermIndexWriter.add`. -/
def tiAddAll (w : TermIndexWriter) :
    List (ByteSeq × ByteSeq × TermInfo) → Option TermIndexWriter
  | [] => some w
  | t :: rest => (w.add t.1 t.2.1 t.2.2).bind (fun w' => tiAddAll w' rest)

/-- `TermIndexWriter.close`: hash zone, offset index, pickled field map,
then the header. -/
def TermIndexWriter.close (w : TermIndexWriter) : Option ByteSeq :=
  (writeHashesLoop w.base.hashes (List.range 256) (w.base.file, [])).map fun st =>
    write_directory
      (st.1 ++ beBytes 4 w.base.index.length ++ (w.base.index.map (beBytes 8)).flatten
        ++ dictPickle w.fieldmap)
      st.1.length st.2

/-- `TermIndexReader.keycoder`: `self.fieldmap.get(fieldname, 65535)` —
an unknown field name maps to the sentinel field number 65535. -/
def tiReaderKeycoder (fieldmap : List (ByteSeq × Nat)) (fieldname text : ByteSeq) : ByteSeq :=
  pack_ushort ((assocFind fieldmap fieldname).getD 65535) ++ text

/-- `CodedOrderedReader.__contains__` as instantiated by
`TermIndexReader`, whose `keycoder` is total (the `except KeyError`
branch is never taken). -/
def tiContains (fieldmap : List (ByteSeq × Nat)) (f : ByteSeq) (fieldname text : ByteSeq) :
    Bool :=
  containsOf f (tiReaderKeycoder fieldmap fieldname text)

/-- `TermVectorReader.keycoder`: `self.fieldmap[key[1]]` raises
`KeyError` (`none`) on an unknown field name; the coded key is
`_vectorkey_struct.pack(docnum, fieldnum)` (`!IH`). -/
def tvReaderKeycoder (fieldmap : List (ByteSeq × Nat)) (docnum : Nat) (fieldname : ByteSeq) :
    Option ByteSeq :=
  (assocFind fieldmap fieldname).map
    (fun fieldnum => beBytes 4 docnum ++ pack_ushort fieldnum)

/-- `CodedOrderedReader.__contains__` as instantiated by
`TermVectorReader`: a `KeyError` from the keycoder is caught and turned
into `False`. -/
def tvContains (fieldmap : List (ByteSeq × Nat)) (f : ByteSeq) (docnum : Nat)
    (fieldname : ByteSeq) : Bool :=
  match tvReaderKeycoder fieldmap docnum fieldname with
  | none => false
  | some codedkey => containsOf f codedkey

/-- The coded `(key, value)` records a run of `TermIndexWriter.add` calls
produces, tracking the writer's field-number assignment (closed form of
the keycoder state). -/
def tiCodedAux : List (ByteSeq × Nat) → Nat → List (ByteSeq × ByteSeq × TermInfo) →
    List (ByteSeq × ByteSeq)
  | _, _, [] => []
  | fm, fc, t :: rest =>
    match assocFind fm t.1 with
    | some fnum => (pack_ushort fnum ++ t.2.1, t.2.2.to_string) :: tiCodedAux fm fc rest
    | none =>
      (pack_ushort fc ++ t.2.1, t.2.2.to_string)
        :: tiCodedAux (fm ++ [(t.1, fc)]) (fc + 1) rest

/-! ### StoredFieldWriter / StoredFieldReader -/

/-- A Python 2 value stored in a document's value list: `None`, a number,
a byte string, or a `(fieldname, value)` tuple used for dynamic fields. -/
inductive PValue where
  | pvnone
  | pvnat (n : Nat)
  | pvbytes (s : ByteSeq)
  | pvpair (name : ByteSeq) (v : PValue)
deriving DecidableEq

/-- Serialized form of one value (see the `cPickle` model above). -/
def pvBody : PValue → ByteSeq
  | .pvnone => [0]
  | .pvnat n => 1 :: natEnc n
  | .pvbytes s => 2 :: bytesEnc s
  | .pvpair name v => 3 :: (bytesEnc name ++ pvBody v)

/-- `dumps(vlist, -1)[2:-1]`: the serialized value list of one document. -/
def vlistBody (l : List PValue) : ByteSeq := natEnc l.length ++ (l.map pvBody).flatten

/-- Decode one value (fuel-indexed for the nested pairs). -/
def pvDec : Nat → ByteSeq → Option (PValue × ByteSeq)
  | 0, _ => none
  | fuel + 1, s =>
    match s with
    | 0 :: rest => some (.pvnone, rest)
    | 1 :: rest => (natDec rest).map (fun r => (.pvnat r.1, r.2))
    | 2 :: rest => (bytesDec rest).map (fun r => (.pvbytes r.1, r.2))
    | 3 :: rest =>
      (bytesDec rest).bind (fun r => (pvDec fuel r.2).map (fun q => (.pvpair r.1 q.1, q.2)))
    | _ => none

/-- Decode `count` values. -/
def pvListDec (fuel : Nat) : Nat → ByteSeq → Option (List PValue × ByteSeq)
  | 0, s => some ([], s)
  | k + 1, s =>
    (pvDec fuel s).bind fun r => (pvListDec fuel k r.2).map (fun q => (r.1 :: q.1, q.2))

/-- `loads(blob + ".")` for a document's value list. -/
def vlistLoads (s : ByteSeq) : Option (List PValue) :=
  (natDec s).bind fun r => (pvListDec s.length r.1 r.2).bind fun q =>
    match q.2 with
    | 46 :: _ => some q.1
    | _ => none

/-- `pack_stored_pointer(offset, length)` (`!qI`). -/
def pack_stored_pointer (offset length : Nat) : ByteSeq :=
  beBytes 8 offset ++ beBytes 4 length

/-- State of a `StoredFieldWriter`. -/
structure StoredFieldWriter where
  file : ByteSeq
  length : Nat
  directory : List ByteSeq
  name_map : List (ByteSeq × Nat)

/-- `StoredFieldWriter.__init__(dbfile, fieldnames)`: writes a placeholder
`<i64 0><u32 0>` prefix and numbers the fixed field names in order
(`name_map[name] = i`; for duplicate-free `fieldnames` the association
list matches the source's dict). -/
def StoredFieldWriter.init (fieldnames : List ByteSeq) : StoredFieldWriter :=
  { file := beBytes 8 0 ++ beBytes 4 0,
    length := 0,
    directory := [],
    name_map := fieldnames.enum.map (fun p => (p.2, p.1)) }

/-- The `vlist` built by `StoredFieldWriter.append`: fixed names are
placed positionally, unknown names appended as `(name, value)` pairs. -/
def buildVlist (name_map : List (ByteSeq × Nat)) (values : List (ByteSeq × PValue)) :
    List PValue :=
  values.foldl
    (fun vlist kv =>
      match assocFind name_map kv.1 with
      | some i => vlist.set i kv.2
      | none => vlist ++ [PValue.pvpair kv.1 kv.2])
    (List.replicate name_map.length PValue.pvnone)

/-- `StoredFieldWriter.append(values)`. -/
def StoredFieldWriter.append (w : StoredFieldWriter) (values : List (ByteSeq × PValue)) :
    StoredFieldWriter :=
  let v := vlistBody (buildVlist w.name_map values)
  { w with
    length := w.length + 1,
    directory := w.directory ++ [pack_stored_pointer w.file.length v.length],
    file := w.file ++ v }

/-- `StoredFieldWriter.close`: append the pickled name map and the
directory, then overwrite the 12-byte prefix with
`<i64 directory_pos><u32 length>`. -/
def StoredFieldWriter.close (w : StoredFieldWriter) : ByteSeq :=
  let directoryPos := w.file.length
  let f := w.file ++ dictPickle w.name_map ++ w.directory.flatten
  beBytes 8 directoryPos ++ beBytes 4 w.length ++ f.drop 12

/-- `names`: the inverse of the name map (`names[num] = name`);
unassigned positions keep `None`. -/
def buildNames (name_map : List (ByteSeq × Nat)) : List (Option ByteSeq) :=
  name_map.foldl (fun names e => names.set e.2 (some e.1))
    (List.replicate name_map.length none)

/-- State of a `StoredFieldReader` after `__init__`. -/
structure StoredFieldReader where
  file : ByteSeq
  length : Nat
  names : List (Option ByteSeq)
  directory_offset : Nat

/-- `StoredFieldReader.__init__`: read the directory position and the
document count, parse the pickled name map there, invert it, and record
`directory_offset = dbfile.tell()`; `none` models an unpickling failure. -/
def StoredFieldReader.init (f : ByteSeq) : Option StoredFieldReader :=
  (dictLoadsAt f (getU64 f 0)).map fun r =>
    { file := f,
      length := getU32 f 8,
      names := buildNames r.1,
      directory_offset := r.2 }

/-- The errors `StoredFieldReader.__getitem__` can raise. -/
inductive SFErr where
  | indexError      -- `IndexError`
  | ioError         -- `dbfile.seek` at a negative position
  | readError       -- the `Exception("Error reading ...")` on a short read
  | unpicklingError -- `loads` failure on garbage bytes
  | typeError       -- `dict(...)` over non-pair extras
deriving DecidableEq

deriving instance DecidableEq for Except

/-- A Python slice `f[a:b]` with possibly negative indices. -/
def pySlice (f : ByteSeq) (a b : Int) : ByteSeq :=
  let n : Int := f.length
  let a' := if a < 0 then max (n + a) 0 else min a n
  let b' := if b < 0 then max (n + b) 0 else min b n
  (f.drop a'.toNat).take (b'.toNat - a'.toNat)

/-- `dict`-building with overwrite (`dict(...)` / `dict.update`). -/
def dictInsert (d : List (Option ByteSeq × PValue)) (k : Option ByteSeq) (v : PValue) :
    List (Option ByteSeq × PValue) :=
  if d.any (fun e => e.1 == k) then d.map (fun e => if e.1 == k then (k, v) else e)
  else d ++ [(k, v)]

/-- `StoredFieldReader.__getitem__(num)` with a Python integer index.
The only bounds check in the source is `num > self.length - 1`; a
negative `num` proceeds and reads 12 bytes from before the directory. -/
def StoredFieldReader.getItem (r : StoredFieldReader) (num : Int) :
    Except SFErr (List (Option ByteSeq × PValue)) :=
  if num > (r.length : Int) - 1 then .error .indexError
  else
    let start : Int := (r.directory_offset : Int) + num * 12
    if start < 0 then .error .ioError
    else
      let ptr := readAt r.file start.toNat 12
      if ptr.length ≠ 12 then .error .readError
      else
        let position := decInt64 (ptr.take 8)
        let dlen := decBE (ptr.drop 8)
        match vlistLoads (pySlice r.file position (position + (dlen : Int)) ++ [46]) with
        | none => .error .unpicklingError
        | some vlist =>
          if vlist.length < r.names.length then .error .indexError
          else
            let fixed := (List.range r.names.length).foldl
              (fun d i =>
                match vlist.getD i PValue.pvnone with
                | PValue.pvnone => d
                | v => dictInsert d (r.names.getD i none) v) []
            if r.names.length < vlist.length then
              (vlist.drop r.names.length).foldlM
                (fun d v =>
                  match v with
                  | PValue.pvpair k pv => Except.ok (dictInsert d (some k) pv)
                  | _ => Except.error SFErr.typeError)
                fixed
            else .ok fixed

/-! ### Closed forms and validity predicates used by the theorems -/

/-- Total size of the record region for a list of items. -/
def recsLen (items : List (ByteSeq × ByteSeq)) : Nat :=
  (items.map (fun kv => lengths_size + kv.1.length + kv.2.length)).sum

/-- File offset of the `i`-th record. -/
def recOffset (items : List (ByteSeq × ByteSeq)) (i : Nat) : Nat :=
  header_size + recsLen (items.take i)

/-- The `(hash, position)` entries accumulated by `add_all` starting at
file offset `base` (closed form of `HashWriter.hashes`). -/
def entriesAt (base : Nat) : List (ByteSeq × ByteSeq) → List (Nat × Nat)
  | [] => []
  | kv :: rest =>
    (cdb_hash kv.1, base) :: entriesAt (base + lengths_size + kv.1.length + kv.2.length) rest

/-- The record region: the concatenated records, in insertion order. -/
def recordsCat (items : List (ByteSeq × ByteSeq)) : ByteSeq :=
  (items.map (fun kv => recordBytes kv.1 kv.2)).flatten

/-- The values stored under `key`, in insertion order. -/
def valuesForKey (items : List (ByteSeq × ByteSeq)) (key : ByteSeq) : List ByteSeq :=
  (items.filter (fun kv => kv.1 == key)).map (·.2)

/-- The slot table `_write_hashes` builds for bucket `i` (total, for use
in closed forms; `buildTable` is proved to succeed). -/
def tableOf (hashes : List (Nat × Nat)) (i : Nat) : List (Nat × Nat) :=
  (buildTable (bucketEntries hashes i)).getD []

/-- Closed form of the directory built by the `_write_hashes` loop,
starting at file position `base`. -/
def dirFrom (hashes : List (Nat × Nat)) (base : Nat) : List Nat → List (Nat × Nat)
  | [] => []
  | i :: rest =>
    (base, 2 * (bucketEntries hashes i).length)
      :: dirFrom hashes (base + pointer_size * (2 * (bucketEntries hashes i).length)) rest

/-- Closed form of the hash zone written by the `_write_hashes` loop. -/
def slotRegion (hashes : List (Nat × Nat)) : List Nat → ByteSeq
  | [] => []
  | i :: rest => slotBytes (tableOf hashes i) ++ slotRegion hashes rest

/-- Closed form of the `(keypos, keylen, datapos, datalen)` ranges of the
records of `items` laid out from `base`. -/
def rangesModel (base : Nat) : List (ByteSeq × ByteSeq) → List (Nat × Nat × Nat × Nat)
  | [] => []
  | kv :: rest =>
    (base + lengths_size, kv.1.length, base + lengths_size + kv.1.length, kv.2.length)
      :: rangesModel (base + lengths_size + kv.1.length + kv.2.length) rest

/-- The cyclic view of a slot table starting at slot `j`: the slot visited
after `d` probe steps is entry `d` of this list. -/
def probeList (T : List (Nat × Nat)) (j : Nat) : List (Nat × Nat) :=
  (List.range T.length).map (fun d => T.getD ((j + d) % T.length) (0, 0))

/-- What a probe collects from a cyclic slot view: positions of slots with
hash `h` seen before the first empty slot (`pos = 0`). -/
def collectProbe (l : List (Nat × Nat)) (h : Nat) : List Nat :=
  ((l.takeWhile (fun s => s.2 != 0)).filter (fun s => s.1 == h)).map (·.2)

/-- The reader's probe over an abstract slot table: visit up to `fuel`
slots from `j`, stop at an empty slot, collect positions stored under
hash `h`.  (`probeLoop` is this composed with slot reads and the record
key check; proved below.) -/
def probeA (T : List (Nat × Nat)) (h : Nat) : Nat → Nat → List Nat
  | _, 0 => []
  | j, fuel + 1 =>
    let s := T.getD j (0, 0)
    if s.2 = 0 then []
    else
      (if s.1 = h then [s.2] else []) ++ probeA T h ((j + 1) % T.length) fuel

/-- The per-record check the reader performs at a probed position: the
stored key length and bytes must equal the probe key. -/
def recordCheck (f : ByteSeq) (key : ByteSeq) (pos : Nat) : Option (Nat × Nat) :=
  if getU32 f pos = key.length ∧ readAt f (pos + lengths_size) (getU32 f pos) = key then
    some (pos + lengths_size + getU32 f pos, getU32 f (pos + 4))
  else none

/-- The record offsets accumulated by the ordered writer's `index`,
starting from `base` (closed form). -/
def offsetsAt (base : Nat) : List (ByteSeq × ByteSeq) → List Nat
  | [] => []
  | kv :: rest => base :: offsetsAt (base + lengths_size + kv.1.length + kv.2.length) rest

/-- The writer's hash directory after `add_all` on a fresh writer. -/
def writerHashes (items : List (ByteSeq × ByteSeq)) : List (Nat × Nat) :=
  entriesAt header_size items

/-- The hash zone written by `close()` (closed form). -/
def hashZone (items : List (ByteSeq × ByteSeq)) : ByteSeq :=
  slotRegion (writerHashes items) (List.range 256)

/-- The 256-entry directory written by `close()` (closed form). -/
def hashDir (items : List (ByteSeq × ByteSeq)) : List (Nat × Nat) :=
  dirFrom (writerHashes items) (header_size + recsLen items) (List.range 256)

/-- `_end_of_hashes` (closed form). -/
def hashEoh (items : List (ByteSeq × ByteSeq)) : Nat :=
  header_size + recsLen items + (hashZone items).length

/-- The complete closed file: header, records, hash zone, then whatever
the variant appends after the hash zone (`[]` for `HashWriter`, the
sorted index for `OrderedHashWriter`, index plus pickled field map for
`TermIndexWriter`). -/
def closedFile (items : List (ByteSeq × ByteSeq)) (tail : ByteSeq) : ByteSeq :=
  write_directory
    (List.replicate header_size 0 ++ (recordsCat items ++ (hashZone items ++ tail)))
    (hashEoh items) (hashDir items)

/-- The sorted-index bytes the ordered writer appends after the hash zone. -/
def indexBytes (items : List (ByteSeq × ByteSeq)) : ByteSeq :=
  beBytes 4 (offsetsAt header_size items).length
    ++ ((offsetsAt header_size items).map (beBytes 8)).flatten

/-- Size and byte-range conditions under which the on-disk encoding is
exact: every key byte is a real byte (needed for the hash bound), key and
value lengths fit in a u32, the entry count fits the u32 slot counts, and
all stored file positions fit an i64. -/
def ValidItems (items : List (ByteSeq × ByteSeq)) : Prop :=
  (∀ kv ∈ items, (∀ b ∈ kv.1, b < 256) ∧ kv.1.length < 2 ^ 32 ∧ kv.2.length < 2 ^ 32) ∧
  items.length < 2 ^ 31 ∧
  header_size + recsLen items + 24 * items.length + 16 < 2 ^ 63

/-- Strictly increasing key chain starting above an optional last key
(what the ordered writer accepts). -/
def chainIncreasing : Option ByteSeq → List ByteSeq → Bool
  | _, [] => true
  | lk, k :: ks => !(leLastkey k lk) && chainIncreasing (some k) ks

/-! #### Closed forms for `StoredFieldWriter` / `StoredFieldReader` -/

/-- The name map `StoredFieldWriter.__init__` builds (closed form). -/
def sfNameMap (fieldnames : List ByteSeq) : List (ByteSeq × Nat) :=
  fieldnames.enum.map (fun p => (p.2, p.1))

/-- The concatenated per-document blobs of a stored-field file. -/
def sfBlobs (nm : List (ByteSeq × Nat)) (docs : List (List (ByteSeq × PValue))) : ByteSeq :=
  (docs.map (fun vs => vlistBody (buildVlist nm vs))).flatten

/-- The writer's directory entries, blobs laid out from `base`. -/
def sfDirFrom (nm : List (ByteSeq × Nat)) (base : Nat) :
    List (List (ByteSeq × PValue)) → List ByteSeq
  | [] => []
  | vs :: rest =>
    pack_stored_pointer base (vlistBody (buildVlist nm vs)).length
      :: sfDirFrom nm (base + (vlistBody (buildVlist nm vs)).length) rest

/-- The fixed (positional) part of the vlist built by `append`. -/
def applyFixed (nm : List (ByteSeq × Nat)) (fixed : List PValue)
    (values : List (ByteSeq × PValue)) : List PValue :=
  values.foldl
    (fun fx kv =>
      match assocFind nm kv.1 with
      | some i => fx.set i kv.2
      | none => fx) fixed

/-- The dynamic `(name, value)` pairs `append` adds past the fixed part. -/
def extrasOf (nm : List (ByteSeq × Nat)) (values : List (ByteSeq × PValue)) : List PValue :=
  (values.filter (fun kv => (assocFind nm kv.1).isNone)).map
    (fun kv => PValue.pvpair kv.1 kv.2)

/-- First bound value of a field name in a document mapping. -/
def bindVal (values : List (ByteSeq × PValue)) (fn : ByteSeq) : PValue :=
  match (values.find? (fun kv => kv.1 == fn)).map (·.2) with
  | some v => v
  | none => PValue.pvnone

/-- Following the spec's words, the dictionary `reader[i]` is said to
return: the document mapping restricted to fixed field names whose values
are not `None`, merged with every dynamic `(name, value)` pair for names
outside the fixed list. -/
def specStoredDoc (fieldnames : List ByteSeq) (values : List (ByteSeq × PValue)) :
    List (Option ByteSeq × PValue) :=
  (fieldnames.filterMap (fun fn =>
    match bindVal values fn with
    | PValue.pvnone => none
    | v => some (some fn, v)))
  ++ (values.filter (fun kv => !fieldnames.contains kv.1)).map
      (fun kv => ((some kv.1 : Option ByteSeq), kv.2))

/-- Structural decode fuel for one stored value. -/
def pvSize : PValue → Nat
  | .pvpair _ v => pvSize v + 1
  | _ => 1

/-- The complete stored-field file `close()` produces (closed form):
pointer prefix, blobs, pickled name map, directory. -/
def sfFile (fieldnames : List ByteSeq) (docs : List (List (ByteSeq × PValue))) : ByteSeq :=
  beBytes 8 (12 + (sfBlobs (sfNameMap fieldnames) docs).length) ++ beBytes 4 docs.length
    ++ (sfBlobs (sfNameMap fieldnames) docs
        ++ (dictPickle (sfNameMap fieldnames)
            ++ (sfDirFrom (sfNameMap fieldnames) 12 docs).flatten))

/-- The reader state `StoredFieldReader.init` builds on that file
(closed form). -/
def sfReaderOf (fieldnames : List ByteSeq) (docs : List (List (ByteSeq × PValue))) :
    StoredFieldReader :=
  { file := sfFile fieldnames docs,
    length := docs.length,
    names := buildNames (sfNameMap fieldnames),
    directory_offset := 12 + (sfBlobs (sfNameMap fieldnames) docs).length
      + (dictPickle (sfNameMap fieldnames)).length }

/-- Conditions under which the stored-field encoding is exact: fixed field
names are distinct, every document mapping has distinct keys, and counts,
blob lengths and file offsets fit the `!qI` pointers and the u32 count. -/
def SFValid (fieldnames : List ByteSeq) (docs : List (List (ByteSeq × PValue))) : Prop :=
  fieldnames.Nodup ∧
  (∀ vs ∈ docs, (vs.map (·.1)).Nodup) ∧
  docs.length < 2 ^ 32 ∧
  (∀ vs ∈ docs, (vlistBody (buildVlist (sfNameMap fieldnames) vs)).length < 2 ^ 32) ∧
  12 + (sfBlobs (sfNameMap fieldnames) docs).length < 2 ^ 63

end Whoosh

namespace Whoosh

theorem beBytes_length (w n : Nat) : (beBytes w n).length = w := by
  induction w generalizing n with
  | zero => rfl
  | succ w ih => simp [beBytes, ih]

theorem decBE_append_singleton (l : ByteSeq) (x : Nat) :
    decBE (l ++ [x]) = decBE l * 256 + x := by
  simp [decBE, List.foldl_append]

theorem decBE_beBytes (w n : Nat) : decBE (beBytes w n) = n % 256 ^ w := by
  induction w generalizing n with
  | zero => simp [beBytes, decBE, Nat.mod_one]
  | succ w ih =>
    rw [beBytes, decBE_append_singleton, ih]
    have h2 : n % (256 * 256 ^ w) / 256 = n / 256 % 256 ^ w :=
      Nat.mod_mul_right_div_self n 256 (256 ^ w)
    have h1 : n % (256 * 256 ^ w) % 256 = n % 256 :=
      Nat.mod_mod_of_dvd n (dvd_mul_right 256 (256 ^ w))
    have h3 := Nat.div_add_mod (n % (256 * 256 ^ w)) 256
    have hp : (256 : Nat) ^ (w + 1) = 256 * 256 ^ w := by ring
    rw [hp]
    omega

theorem decBE_beBytes_of_lt {w n : Nat} (h : n < 256 ^ w) : decBE (beBytes w n) = n := by
  rw [decBE_beBytes, Nat.mod_eq_of_lt h]

/-! #### Reading from files described by `drop` facts

Layout reasoning uses facts of the form `f.drop p = chunk ++ tail`:
they compose by `drop_shift` and discharge into `readAt`/`getU32`/`getU64`
evaluations. -/

theorem drop_shift {f a t : ByteSeq} {p : Nat} (h : f.drop p = a ++ t) :
    f.drop (p + a.length) = t := by
  rw [← List.drop_drop, h, List.drop_left]

theorem readAt_of_drop_prefix {f a t : ByteSeq} {p : Nat} (h : f.drop p = a ++ t) :
    readAt f p a.length = a := by
  rw [readAt, h, List.take_left]

theorem getU32_of_drop {f t : ByteSeq} {p n : Nat} (h : f.drop p = beBytes 4 n ++ t) :
    getU32 f p = n % 2 ^ 32 := by
  have h4 : (4 : Nat) = (beBytes 4 n).length := (beBytes_length 4 n).symm
  rw [getU32, h4, readAt_of_drop_prefix h, decBE_beBytes]
  norm_num

theorem getU32_of_drop' {f t : ByteSeq} {p n : Nat} (h : f.drop p = beBytes 4 n ++ t)
    (hn : n < 2 ^ 32) : getU32 f p = n := by
  rw [getU32_of_drop h]
  exact Nat.mod_eq_of_lt (by norm_num at hn ⊢; omega)

theorem getU64_of_drop {f t : ByteSeq} {p n : Nat} (h : f.drop p = beBytes 8 n ++ t) :
    getU64 f p = n % 2 ^ 64 := by
  have h8 : (8 : Nat) = (beBytes 8 n).length := (beBytes_length 8 n).symm
  rw [getU64, h8, readAt_of_drop_prefix h, decBE_beBytes]
  norm_num

theorem getU64_of_drop' {f t : ByteSeq} {p n : Nat} (h : f.drop p = beBytes 8 n ++ t)
    (hn : n < 2 ^ 64) : getU64 f p = n := by
  rw [getU64_of_drop h]
  exact Nat.mod_eq_of_lt (by norm_num at hn ⊢; omega)

theorem readAt_append_right (a b : ByteSeq) (p l : Nat) :
    readAt (a ++ b) (a.length + p) l = readAt b p l := by
  simp [readAt, List.drop_append]

theorem cdb_hash_step_lt {h c : Nat} (hc : c < 256) :
    ((h + (h <<< 5)) % 4294967296) ^^^ c < 2 ^ 32 := by
  have h1 : (h + (h <<< 5)) % 4294967296 < 2 ^ 32 := by
    have : (4294967296 : Nat) = 2 ^ 32 := by norm_num
    rw [this]
    exact Nat.mod_lt _ (by positivity)
  exact Nat.xor_lt_two_pow h1 (lt_trans hc (by norm_num))

theorem drop_flatten_nth {f tail : ByteSeq} :
    ∀ (ls : List ByteSeq) (i p : Nat), f.drop p = ls.flatten ++ tail → i < ls.length →
      f.drop (p + ((ls.take i).map List.length).sum)
        = ls.getD i [] ++ ((ls.drop (i + 1)).flatten ++ tail) := by
  intro ls
  induction ls with
  | nil => intro i p _ hi; simp at hi
  | cons x rest ih =>
    intro i p h hi
    rw [List.flatten_cons, List.append_assoc] at h
    match i with
    | 0 => simpa using h
    | i + 1 =>
      have h' := drop_shift h
      have := ih i (p + x.length) h' (by simpa using hi)
      simp only [List.take_succ_cons, List.map_cons, List.sum_cons, List.getD_cons_succ,
        List.drop_succ_cons]
      rw [show p + (x.length + ((rest.take i).map List.length).sum)
          = p + x.length + ((rest.take i).map List.length).sum by omega]
      exact this

theorem drop_flatten_uniform {f tail : ByteSeq} {c : Nat} {ls : List ByteSeq}
    (hc : ∀ x ∈ ls, x.length = c) {i p : Nat} (h : f.drop p = ls.flatten ++ tail)
    (hi : i < ls.length) :
    f.drop (p + c * i) = ls.getD i [] ++ ((ls.drop (i + 1)).flatten ++ tail) := by
  have hsum : ((ls.take i).map List.length).sum = c * i := by
    have hall : ∀ x ∈ (ls.take i).map List.length, x = c := by
      intro x hx
      obtain ⟨y, hy, rfl⟩ := List.mem_map.mp hx
      exact hc y (List.mem_of_mem_take hy)
    rw [List.eq_replicate_of_mem hall, List.sum_replicate, smul_eq_mul]
    rw [List.length_map, List.length_take, Nat.min_eq_left (le_of_lt hi), Nat.mul_comm]
  rw [← hsum]
  exact drop_flatten_nth ls i p h hi

theorem rot_cancel {n i0 j : Nat} (hi0 : i0 < n) (hj : j < n) :
    (i0 + (j + n - i0) % n) % n = j := by
  rw [Nat.add_mod_mod, show i0 + (j + n - i0) = j + n by omega, Nat.add_mod_right]
  exact Nat.mod_eq_of_lt hj

theorem rot_inj {n i0 d d' : Nat} (hd : d < n) (hd' : d' < n)
    (h : (i0 + d) % n = (i0 + d') % n) : d = d' := by
  have hm : d ≡ d' [MOD n] := (Nat.ModEq.add_left_cancel' i0 h)
  rw [Nat.ModEq] at hm
  rw [Nat.mod_eq_of_lt hd, Nat.mod_eq_of_lt hd'] at hm
  exact hm

theorem probeList_length (T : List (Nat × Nat)) (j : Nat) :
    (probeList T j).length = T.length := by simp [probeList]

theorem probeList_getElem (T : List (Nat × Nat)) (j d : Nat) (hd : d < (probeList T j).length) :
    (probeList T j)[d] = T.getD ((j + d) % T.length) (0, 0) := by
  simp [probeList]

theorem collectProbe_cons (s : Nat × Nat) (l : List (Nat × Nat)) (h : Nat) :
    collectProbe (s :: l) h =
      if s.2 = 0 then [] else (if s.1 = h then [s.2] else []) ++ collectProbe l h := by
  by_cases h2 : s.2 = 0
  · simp [collectProbe, List.takeWhile_cons, h2]
  · by_cases h1 : s.1 = h <;>
      simp [collectProbe, List.takeWhile_cons, h2, h1, List.filter_cons]

theorem collectProbe_eq_nil {l : List (Nat × Nat)} {h : Nat}
    (hl : ∀ s ∈ l, s.2 ≠ 0 → s.1 ≠ h) : collectProbe l h = [] := by
  induction l with
  | nil => rfl
  | cons s rest ih =>
    rw [collectProbe_cons]
    by_cases h2 : s.2 = 0
    · simp [h2]
    · have h1 : s.1 ≠ h := hl s (List.mem_cons_self _ _) h2
      simp [h2, h1]
      exact ih (fun x hx => hl x (List.mem_cons_of_mem _ hx))

theorem getD_set (T : List (Nat × Nat)) (j m : Nat) (e : Nat × Nat) (hm : m < T.length) :
    (T.set j e).getD m (0, 0) = if j = m then e else T.getD m (0, 0) := by
  rw [List.getD_eq_getElem _ _ (by simpa using hm), List.getElem_set]
  split
  · rfl
  · rw [List.getD_eq_getElem _ _ hm]

theorem probeList_mem {T : List (Nat × Nat)} {j0 : Nat} {s : Nat × Nat}
    (hs : s ∈ probeList T j0) : ∃ m < T.length, T.getD m (0, 0) = s := by
  obtain ⟨d, hd, rfl⟩ := List.mem_map.mp hs
  have hdlt : d < T.length := List.mem_range.mp hd
  exact ⟨(j0 + d) % T.length, Nat.mod_lt _ (by omega), rfl⟩

theorem probeList_set {T : List (Nat × Nat)} {e : Nat × Nat} {j' i0 : Nat}
    (hj : j' < T.length) (hi0 : i0 < T.length) :
    probeList (T.set j' e) i0 = (probeList T i0).set ((j' + T.length - i0) % T.length) e := by
  have hn : 0 < T.length := by omega
  apply List.ext_getElem
  · simp [probeList_length]
  · intro d hd1 hd2
    rw [probeList_length, List.length_set] at hd1
    rw [probeList_getElem _ _ _ (by rw [probeList_length, List.length_set]; exact hd1)]
    rw [List.getElem_set]
    rw [List.length_set]
    have hmlt : (i0 + d) % T.length < T.length := Nat.mod_lt _ hn
    rw [getD_set _ _ _ _ hmlt]
    by_cases hD : (j' + T.length - i0) % T.length = d
    · have : (i0 + d) % T.length = j' := by rw [← hD]; exact rot_cancel hi0 hj
      rw [if_pos hD, if_pos this.symm]
    · have hne : (i0 + d) % T.length ≠ j' := by
        intro hc
        apply hD
        have h1 := rot_cancel hi0 hj
        exact rot_inj (Nat.mod_lt _ hn) hd1 (by rw [h1, hc])
      rw [if_neg hD, if_neg (fun hc => hne hc.symm),
        probeList_getElem _ _ _ (by rw [probeList_length]; exact hd1)]

theorem probeA_eq_collect_aux (T : List (Nat × Nat)) (h j0 : Nat) (hj0 : j0 < T.length) :
    ∀ (fuel d : Nat), d + fuel = T.length →
      probeA T h ((j0 + d) % T.length) fuel = collectProbe ((probeList T j0).drop d) h := by
  intro fuel
  induction fuel with
  | zero =>
    intro d hd
    have hnil : (probeList T j0).drop d = [] :=
      List.drop_eq_nil_of_le (by rw [probeList_length]; omega)
    rw [hnil]
    rfl
  | succ fuel ih =>
    intro d hd
    have hdlen : d < (probeList T j0).length := by rw [probeList_length]; omega
    rw [List.drop_eq_getElem_cons hdlen, probeList_getElem _ _ _ hdlen, collectProbe_cons]
    show (let s := T.getD ((j0 + d) % T.length) (0, 0);
      if s.2 = 0 then [] else
        (if s.1 = h then [s.2] else []) ++ probeA T h (((j0 + d) % T.length + 1) % T.length) fuel) = _
    simp only
    by_cases h2 : (T.getD ((j0 + d) % T.length) (0, 0)).2 = 0
    · rw [if_pos h2, if_pos h2]
    · rw [if_neg h2, if_neg h2]
      congr 1
      rw [Nat.mod_add_mod, show j0 + d + 1 = j0 + (d + 1) by omega]
      exact ih (d + 1) (by omega)

theorem probeA_eq_collect (T : List (Nat × Nat)) (h j0 : Nat) (hj0 : j0 < T.length) :
    probeA T h j0 T.length = collectProbe (probeList T j0) h := by
  have := probeA_eq_collect_aux T h j0 hj0 T.length 0 (by omega)
  simpa [Nat.mod_eq_of_lt hj0] using this

theorem findSlot_spec_aux (T : List (Nat × Nat)) (i0 : Nat) (hi0 : i0 < T.length) :
    ∀ (fuel d : Nat), d + fuel = T.length →
      (∃ e, d ≤ e ∧ e < T.length ∧ T.getD ((i0 + e) % T.length) (0, 0) = (0, 0)) →
      ∃ d', d ≤ d' ∧ d' < T.length ∧
        findSlot T ((i0 + d) % T.length) fuel = some ((i0 + d') % T.length) ∧
        T.getD ((i0 + d') % T.length) (0, 0) = (0, 0) ∧
        ∀ e, d ≤ e → e < d' → T.getD ((i0 + e) % T.length) (0, 0) ≠ (0, 0) := by
  intro fuel
  induction fuel with
  | zero =>
    intro d hd ⟨e, he1, he2, _⟩
    omega
  | succ fuel ih =>
    intro d hd hex
    rw [findSlot]
    by_cases hempty : T.getD ((i0 + d) % T.length) (0, 0) = (0, 0)
    · rw [if_pos hempty]
      exact ⟨d, le_refl _, by omega, rfl, hempty, fun e h1 h2 => absurd h2 (by omega)⟩
    · rw [if_neg hempty]
      obtain ⟨e, he1, he2, he3⟩ := hex
      have hene : e ≠ d := fun hc => hempty (hc ▸ he3)
      have hrec := ih (d + 1) (by omega) ⟨e, by omega, he2, he3⟩
      obtain ⟨d', hd'1, hd'2, hd'3, hd'4, hd'5⟩ := hrec
      have hstep : ((i0 + d) % T.length + 1) % T.length = (i0 + (d + 1)) % T.length := by
        rw [Nat.mod_add_mod, Nat.add_assoc]
      rw [hstep]
      exact ⟨d', by omega, hd'2, hd'3, hd'4, fun x hx1 hx2 => by
        rcases Nat.eq_or_lt_of_le hx1 with rfl | hlt
        · exact hempty
        · exact hd'5 x (by omega) hx2⟩

theorem findSlot_spec (T : List (Nat × Nat)) (i0 : Nat) (hi0 : i0 < T.length)
    (hex : ∃ j < T.length, T.getD j (0, 0) = (0, 0)) :
    ∃ d < T.length, findSlot T i0 T.length = some ((i0 + d) % T.length) ∧
      T.getD ((i0 + d) % T.length) (0, 0) = (0, 0) ∧
      ∀ e < d, T.getD ((i0 + e) % T.length) (0, 0) ≠ (0, 0) := by
  have hn : 0 < T.length := by omega
  obtain ⟨j, hj, hjval⟩ := hex
  have hexd : ∃ e, 0 ≤ e ∧ e < T.length ∧ T.getD ((i0 + e) % T.length) (0, 0) = (0, 0) :=
    ⟨(j + T.length - i0) % T.length, Nat.zero_le _, Nat.mod_lt _ hn,
      by rw [rot_cancel hi0 hj]; exact hjval⟩
  obtain ⟨d', _, hd'2, hd'3, hd'4, hd'5⟩ := findSlot_spec_aux T i0 hi0 T.length 0 (by omega) hexd
  rw [Nat.add_zero, Nat.mod_eq_of_lt hi0] at hd'3
  exact ⟨d', hd'2, hd'3, hd'4, fun e he => hd'5 e (Nat.zero_le _) he⟩

theorem mem_collectProbe_index {L : List (Nat × Nat)} {h x : Nat}
    (hx : x ∈ collectProbe L h) :
    ∃ d < L.length, (∀ d' ≤ d, (L.getD d' (0, 0)).2 ≠ 0) ∧
      (L.getD d (0, 0)).1 = h ∧ (L.getD d (0, 0)).2 = x := by
  induction L with
  | nil => simp [collectProbe] at hx
  | cons s rest ih =>
    rw [collectProbe_cons] at hx
    by_cases h2 : s.2 = 0
    · simp [h2] at hx
    · rw [if_neg h2] at hx
      rcases List.mem_append.mp hx with hx1 | hx2
      · have hsx : s.1 = h ∧ s.2 = x := by
          by_cases h1 : s.1 = h
          · simp [h1] at hx1; exact ⟨h1, hx1.symm⟩
          · simp [h1] at hx1
        exact ⟨0, by simp, fun d' hd' => by
          interval_cases d' <;> simpa using h2, by simpa using hsx.1, by simpa using hsx.2⟩
      · obtain ⟨d, hd1, hd2, hd3, hd4⟩ := ih hx2
        refine ⟨d + 1, by simpa using Nat.succ_lt_succ hd1, ?_, by simpa using hd3,
          by simpa using hd4⟩
        intro d' hd'
        match d' with
        | 0 => simpa using h2
        | d' + 1 => simpa using hd2 d' (by omega)

theorem collect_set_beyond {L : List (Nat × Nat)} {D : Nat} {e : Nat × Nat} {h : Nat}
    (hd0 : ∃ d0 < D, (L.getD d0 (0, 0)).2 = 0) :
    collectProbe (L.set D e) h = collectProbe L h := by
  induction L generalizing D with
  | nil => simp
  | cons s rest ih =>
    obtain ⟨d0, hd0lt, hd0val⟩ := hd0
    match D with
    | 0 => omega
    | D + 1 =>
      rw [List.set_cons_succ, collectProbe_cons, collectProbe_cons]
      by_cases h2 : s.2 = 0
      · rw [if_pos h2, if_pos h2]
      · rw [if_neg h2, if_neg h2]
        congr 1
        match d0 with
        | 0 => exact absurd hd0val (by simpa using h2)
        | d0 + 1 => exact ih ⟨d0, by omega, by simpa using hd0val⟩

theorem collect_set_first_empty {L : List (Nat × Nat)} {D : Nat} {e : Nat × Nat} {h : Nat}
    (hD : D < L.length) (hempty : (L.getD D (0, 0)).2 = 0)
    (hbefore : ∀ d < D, (L.getD d (0, 0)).2 ≠ 0) (he : e.2 ≠ 0) :
    collectProbe (L.set D e) h
      = collectProbe L h ++ (if e.1 = h then [e.2] else []) ++ collectProbe (L.drop (D + 1)) h := by
  induction L generalizing D with
  | nil => simp at hD
  | cons s rest ih =>
    match D with
    | 0 =>
      have h2 : s.2 = 0 := by simpa using hempty
      rw [List.set_cons_zero, collectProbe_cons, collectProbe_cons, if_pos h2, if_neg he]
      simp
    | D + 1 =>
      have h2 : s.2 ≠ 0 := by simpa using hbefore 0 (by omega)
      rw [List.set_cons_succ, collectProbe_cons, collectProbe_cons, if_neg h2, if_neg h2]
      rw [ih (by simpa using hD) (by simpa using hempty)
        (fun d hd => by simpa using hbefore (d + 1) (by omega))]
      simp [List.append_assoc]

theorem insert_step
    (T done : List (Nat × Nat)) (e : Nat × Nat)
    (hlen : 0 < T.length)
    (hperm : (T.filter (fun s => s != (0, 0))).Perm done)
    (hprobe : ∀ h, collectProbe (probeList T ((h >>> 8) % T.length)) h
      = (done.filter (fun x => x.1 == h)).map (·.2))
    (hdistinct : ∀ j1 j2, j1 < T.length → j2 < T.length → j1 ≠ j2 →
      T.getD j1 (0, 0) ≠ (0, 0) → T.getD j1 (0, 0) ≠ T.getD j2 (0, 0))
    (hcount : done.length < T.length)
    (hpos : ∀ x ∈ done, x.2 ≠ 0) (hepos : e.2 ≠ 0)
    (hnodup : ((done ++ [e]).map (·.2)).Nodup) :
    ∃ j', j' < T.length ∧ findSlot T ((e.1 >>> 8) % T.length) T.length = some j' ∧
      T.getD j' (0, 0) = (0, 0) ∧
      ((T.set j' e).filter (fun s => s != (0, 0))).Perm (done ++ [e]) ∧
      (∀ h, collectProbe (probeList (T.set j' e) ((h >>> 8) % T.length)) h
        = ((done ++ [e]).filter (fun x => x.1 == h)).map (·.2)) ∧
      (∀ j1 j2, j1 < T.length → j2 < T.length → j1 ≠ j2 →
        (T.set j' e).getD j1 (0, 0) ≠ (0, 0) →
        (T.set j' e).getD j1 (0, 0) ≠ (T.set j' e).getD j2 (0, 0)) := by
  have hmemdone : ∀ m, m < T.length → T.getD m (0, 0) ≠ (0, 0) → T.getD m (0, 0) ∈ done := by
    intro m hm hne
    have hTm : T.getD m (0, 0) ∈ T := by
      rw [List.getD_eq_getElem _ _ hm]
      exact List.getElem_mem hm
    exact hperm.mem_iff.mp (List.mem_filter.mpr ⟨hTm, by simpa using hne⟩)
  have hslotchar : ∀ m, m < T.length → (T.getD m (0, 0)).2 = 0 → T.getD m (0, 0) = (0, 0) := by
    intro m hm h0
    by_contra hne
    exact (hpos _ (hmemdone m hm hne)) h0
  have hmap : (done.map (·.2) ++ [e.2]).Nodup := by simpa using hnodup
  have hdonepos : (done.map (·.2)).Nodup := (List.nodup_append.mp hmap).1
  have henotin : ∀ v ∈ done, e.2 ≠ v.2 := by
    intro v hv hc
    exact (List.nodup_append.mp hmap).2.2 (List.mem_map_of_mem _ hv) (by simp [hc])
  have hene : e ≠ (0, 0) := fun hc => hepos (by rw [hc])
  -- a free slot exists
  have hfl : (T.filter (fun s => s != (0, 0))).length = done.length := hperm.length_eq
  have hex : ∃ j, j < T.length ∧ T.getD j (0, 0) = (0, 0) := by
    by_contra hca
    push_neg at hca
    have hall : ∀ s ∈ T, s != (0, 0) := by
      intro s hs
      obtain ⟨i, hi, rfl⟩ := List.mem_iff_getElem.mp hs
      have := hca i hi
      rw [List.getD_eq_getElem _ _ hi] at this
      simpa using this
    rw [List.filter_eq_self.mpr hall] at hfl
    omega
  obtain ⟨dstar, hds, hfind, hjempty, hbefore⟩ :=
    findSlot_spec T ((e.1 >>> 8) % T.length) (Nat.mod_lt _ hlen)
      ⟨hex.choose, hex.choose_spec.1, hex.choose_spec.2⟩
  set J := ((e.1 >>> 8) % T.length + dstar) % T.length with hJdef
  have hJ : J < T.length := Nat.mod_lt _ hlen
  -- the permutation of occupied slots
  have hpermnew : ((T.set J e).filter (fun s => s != (0, 0))).Perm (done ++ [e]) := by
    have hset : T.set J e = T.take J ++ e :: T.drop (J + 1) := by
      rw [List.set_eq_take_append_cons_drop, if_pos hJ]
    have hTdec : T = T.take J ++ (0, 0) :: T.drop (J + 1) := by
      conv_lhs => rw [← List.take_append_drop J T]
      congr 1
      rw [List.drop_eq_getElem_cons hJ]
      congr 1
      rw [← List.getD_eq_getElem _ (0, 0) hJ, hjempty]
    have hfT : T.filter (fun s => s != (0, 0))
        = (T.take J).filter (fun s => s != (0, 0))
          ++ (T.drop (J + 1)).filter (fun s => s != (0, 0)) := by
      conv_lhs => rw [hTdec]
      rw [List.filter_append, List.filter_cons]
      simp
    have he2 : (e != (0, 0)) = true := by simpa using hene
    rw [hset, List.filter_append, List.filter_cons, if_pos he2]
    refine List.Perm.trans List.perm_middle ?_
    refine List.Perm.trans (List.Perm.cons e ?_) (List.perm_append_singleton e done).symm
    rw [← hfT]
    exact hperm
  -- pairwise distinctness of occupied slots
  have hdistinctnew : ∀ j1 j2, j1 < T.length → j2 < T.length → j1 ≠ j2 →
      (T.set J e).getD j1 (0, 0) ≠ (0, 0) →
      (T.set J e).getD j1 (0, 0) ≠ (T.set J e).getD j2 (0, 0) := by
    intro j1 j2 hj1 hj2 hne hne1
    rw [getD_set _ _ _ _ hj1] at hne1 ⊢
    rw [getD_set _ _ _ _ hj2]
    by_cases hc1 : J = j1
    · rw [if_pos hc1] at hne1 ⊢
      rw [if_neg (show ¬J = j2 from fun hc2 => hne (by rw [← hc1, hc2]))]
      by_cases hz : T.getD j2 (0, 0) = (0, 0)
      · rw [hz]; exact hene
      · exact fun hc => henotin _ (hmemdone j2 hj2 hz) (by rw [hc])
    · rw [if_neg hc1] at hne1 ⊢
      by_cases hc2 : J = j2
      · rw [if_pos hc2]
        exact fun hc => henotin _ (hmemdone j1 hj1 hne1) (by rw [hc])
      · rw [if_neg hc2]
        exact hdistinct j1 j2 hj1 hj2 hne hne1
  -- the probe characterization
  have hprobenew : ∀ h, collectProbe (probeList (T.set J e) ((h >>> 8) % T.length)) h
      = ((done ++ [e]).filter (fun x => x.1 == h)).map (·.2) := by
    intro h
    have hi0h : (h >>> 8) % T.length < T.length := Nat.mod_lt _ hlen
    have hLlen : (probeList T ((h >>> 8) % T.length)).length = T.length :=
      probeList_length T _
    set i0h := (h >>> 8) % T.length with hi0hdef
    set L := probeList T i0h with hLdef
    set D := (J + T.length - i0h) % T.length with hDdef
    have hDlt : D < T.length := Nat.mod_lt _ hlen
    have hprobeset : probeList (T.set J e) i0h = L.set D e := probeList_set hJ hi0h
    have hgetL : ∀ d, d < T.length → L.getD d (0, 0) = T.getD ((i0h + d) % T.length) (0, 0) := by
      intro d hd
      rw [hLdef, List.getD_eq_getElem _ _ (by rw [probeList_length]; exact hd),
        probeList_getElem _ _ _ (by rw [probeList_length]; exact hd)]
    have hLD : L.getD D (0, 0) = T.getD J (0, 0) := by
      rw [hgetL D hDlt, rot_cancel hi0h hJ]
    have hLDempty : (L.getD D (0, 0)).2 = 0 := by rw [hLD, hjempty]
    have hRHS : ((done ++ [e]).filter (fun x => x.1 == h)).map (·.2)
        = (done.filter (fun x => x.1 == h)).map (·.2) ++ (if e.1 = h then [e.2] else []) := by
      rw [List.filter_append, List.map_append]
      congr 1
      by_cases he1 : e.1 = h
      · simp [he1]
      · simp [List.filter_cons, he1]
    by_cases hcase : ∃ d0, d0 < D ∧ (L.getD d0 (0, 0)).2 = 0
    · -- the new slot lies strictly beyond the first empty slot of this probe
      obtain ⟨d0, hd0lt, hd0val⟩ := hcase
      rw [hprobeset, collect_set_beyond ⟨d0, hd0lt, hd0val⟩, hprobe h, hRHS]
      suffices he1h : e.1 ≠ h by simp [he1h]
      intro he1h
      -- then the probe start coincides with the insertion start and D = dstar
      have hi0e : (e.1 >>> 8) % T.length = i0h := by rw [he1h]
      have hDd : D = dstar := by
        apply rot_inj hDlt hds
        rw [rot_cancel hi0h hJ, hJdef, hi0e]
      have hd0T := hbefore d0 (hDd ▸ hd0lt)
      rw [hi0e] at hd0T
      exact hd0T (hslotchar _ (Nat.mod_lt _ hlen) (by rw [← hgetL d0 (by omega)]; exact hd0val))
    · push_neg at hcase
      rw [hprobeset,
        collect_set_first_empty (by rw [hLdef, probeList_length]; exact hDlt) hLDempty hcase
          hepos,
        hprobe h, hRHS]
      have hthird : collectProbe (L.drop (D + 1)) h = [] := by
        apply collectProbe_eq_nil
        intro s hs hs2
        by_contra hs1
        -- s is an occupied hash-h slot past the first empty slot of the probe
        obtain ⟨i, hi, hgi⟩ := List.mem_iff_getElem.mp hs
        have hdslen : D + 1 + i < L.length := by
          have := hi
          simp only [List.length_drop] at this
          omega
        have hLds : L.getD (D + 1 + i) (0, 0) = s := by
          rw [List.getD_eq_getElem _ _ hdslen, ← hgi, List.getElem_drop]
        have hdsTlen : D + 1 + i < T.length := by rw [← hLlen]; exact hdslen
        have hsT : T.getD ((i0h + (D + 1 + i)) % T.length) (0, 0) = s := by
          rw [← hgetL _ hdsTlen, hLds]
        have hsne : s ≠ (0, 0) := fun hc => hs2 (by rw [hc])
        have hsdone : s ∈ done := by
          rw [← hsT] at hsne ⊢
          exact hmemdone _ (Nat.mod_lt _ hlen) hsne
        have hsval : s.2 ∈ collectProbe L h := by
          rw [hprobe h]
          exact List.mem_map_of_mem _ (List.mem_filter.mpr ⟨hsdone, by simpa using hs1⟩)
        obtain ⟨du, hdu1, hdu2, hdu3, hdu4⟩ := mem_collectProbe_index hsval
        rw [hLlen] at hdu1
        have hduD : du < D := by
          by_contra hduD
          push_neg at hduD
          exact (hdu2 D hduD) hLDempty
        set u := L.getD du (0, 0) with hudef
        have huT : T.getD ((i0h + du) % T.length) (0, 0) = u := (hgetL du (by omega)).symm
        have hune : u ≠ (0, 0) := fun hc => by
          rw [hc] at hdu4
          exact hs2 (by rw [← hdu4])
        have hudone : u ∈ done := by
          rw [← huT] at hune ⊢
          exact hmemdone _ (Nat.mod_lt _ hlen) hune
        have hus : u = s :=
          List.inj_on_of_nodup_map hdonepos hudone hsdone (by rw [hdu4])
        have hjne : (i0h + du) % T.length ≠ (i0h + (D + 1 + i)) % T.length := by
          intro hc
          have := rot_inj (show du < T.length by omega) hdsTlen hc
          omega
        exact hdistinct _ _ (Nat.mod_lt _ hlen) (Nat.mod_lt _ hlen) hjne
          (by rw [huT]; exact hune) (by rw [huT, hsT, hus])
      rw [hthird]
      simp
  exact ⟨J, hJ, hfind, hjempty, hpermnew, hprobenew, hdistinctnew⟩

theorem buildTable_fold (all : List (Nat × Nat)) (hpos : ∀ x ∈ all, x.2 ≠ 0)
    (hnodup : (all.map (·.2)).Nodup) :
    ∀ (suffix done : List (Nat × Nat)) (T : List (Nat × Nat)),
      all = done ++ suffix →
      T.length = 2 * all.length →
      ((T.filter (fun s => s != (0, 0))).Perm done) →
      (∀ h, collectProbe (probeList T ((h >>> 8) % T.length)) h
        = (done.filter (fun x => x.1 == h)).map (·.2)) →
      (∀ j1 j2, j1 < T.length → j2 < T.length → j1 ≠ j2 →
        T.getD j1 (0, 0) ≠ (0, 0) → T.getD j1 (0, 0) ≠ T.getD j2 (0, 0)) →
      ∃ T', suffix.foldlM (fun table e =>
          (findSlot table ((e.1 >>> 8) % (2 * all.length)) (2 * all.length)).map
            (fun j => table.set j e)) T = some T' ∧
        T'.length = 2 * all.length ∧
        (T'.filter (fun s => s != (0, 0))).Perm all ∧
        (∀ h, collectProbe (probeList T' ((h >>> 8) % T'.length)) h
          = (all.filter (fun x => x.1 == h)).map (·.2)) := by
  intro suffix
  induction suffix with
  | nil =>
    intro done T hsplit hTlen hperm hprobe _
    rw [List.append_nil] at hsplit
    subst hsplit
    exact ⟨T, rfl, hTlen, hperm, by rw [hTlen] at hprobe ⊢; exact hprobe⟩
  | cons e rest ih =>
    intro done T hsplit hTlen hperm hprobe hdistinct
    have hlen0 : 0 < T.length := by
      rw [hTlen, hsplit]
      simp
    have hcount : done.length < T.length := by
      have : all.length = done.length + rest.length + 1 := by
        rw [hsplit]; simp only [List.length_append, List.length_cons]; omega
      omega
    have hsubl : (done ++ [e]).Sublist all := by
      rw [hsplit, show done ++ e :: rest = (done ++ [e]) ++ rest by simp]
      exact List.sublist_append_left _ _
    have hnodupde : ((done ++ [e]).map (·.2)).Nodup :=
      List.Nodup.sublist (List.Sublist.map _ hsubl) hnodup
    have hposde : ∀ x ∈ done ++ [e], x.2 ≠ 0 := fun x hx =>
      hpos x (hsubl.mem hx)
    obtain ⟨J, hJ, hfind, _, hperm', hprobe', hdistinct'⟩ :=
      insert_step T done e hlen0 hperm hprobe hdistinct hcount
        (fun x hx => hposde x (List.mem_append_left _ hx)) (hposde e (by simp)) hnodupde
    have hstep : (findSlot T ((e.1 >>> 8) % (2 * all.length)) (2 * all.length)).map
        (fun j => T.set j e) = some (T.set J e) := by
      rw [← hTlen, hfind]
      rfl
    rw [List.foldlM_cons, hstep]
    have hres := ih (done ++ [e]) (T.set J e)
      (by rw [hsplit]; simp)
      (by rw [List.length_set, hTlen])
      hperm'
      (by rw [List.length_set]; exact hprobe')
      (by
        intro j1 j2 h1 h2 hne hne1
        rw [List.length_set] at h1 h2
        exact hdistinct' j1 j2 h1 h2 hne hne1)
    simpa using hres

theorem buildTable_spec (entries : List (Nat × Nat)) (hpos : ∀ x ∈ entries, x.2 ≠ 0)
    (hnodup : (entries.map (·.2)).Nodup) :
    ∃ T, buildTable entries = some T ∧ T.length = 2 * entries.length ∧
      (T.filter (fun s => s != (0, 0))).Perm entries ∧
      (∀ h, collectProbe (probeList T ((h >>> 8) % T.length)) h
        = (entries.filter (fun x => x.1 == h)).map (·.2)) := by
  have hT0len : (List.replicate (2 * entries.length) ((0 : Nat), (0 : Nat))).length
      = 2 * entries.length := by simp
  have hT0getD : ∀ m, m < 2 * entries.length →
      (List.replicate (2 * entries.length) ((0 : Nat), (0 : Nat))).getD m (0, 0) = (0, 0) := by
    intro m hm
    rw [List.getD_eq_getElem _ _ (by simpa using hm), List.getElem_replicate]
  have hbase := buildTable_fold entries hpos hnodup entries []
    (List.replicate (2 * entries.length) ((0 : Nat), (0 : Nat)))
    (by simp)
    hT0len
    (by simp [List.filter_replicate])
    (by
      intro h
      rw [collectProbe_eq_nil, List.filter_nil, List.map_nil]
      intro s hs
      obtain ⟨m, hm, hms⟩ := probeList_mem hs
      rw [hT0len] at hm
      rw [hT0getD m hm] at hms
      intro hs2
      exact absurd (by rw [← hms]) hs2)
    (by
      intro j1 j2 h1 h2 _ hne1
      rw [hT0len] at h1
      exact absurd (hT0getD j1 h1) hne1)
  obtain ⟨T, hfold, hlen, hperm, hprobe⟩ := hbase
  refine ⟨T, ?_, hlen, hperm, hprobe⟩
  rw [buildTable]
  exact hfold

theorem cdb_hash_lt (key : ByteSeq) (hk : ∀ b ∈ key, b < 256) : cdb_hash key < 2 ^ 32 := by
  rw [cdb_hash]
  have main : ∀ (l : ByteSeq) (acc : Nat), (∀ b ∈ l, b < 256) → acc < 2 ^ 32 →
      l.foldl (fun h c => ((h + (h <<< 5)) % 4294967296) ^^^ c) acc < 2 ^ 32 := by
    intro l
    induction l with
    | nil => intro acc _ ha; simpa using ha
    | cons x xs ih =>
      intro acc hl _
      simp only [List.foldl_cons]
      exact ih _ (fun b hb => hl b (List.mem_cons_of_mem _ hb))
        (cdb_hash_step_lt (hl x (List.mem_cons_self _ _)))
  exact main key 5381 hk (by norm_num)

/-! #### Writer closed forms -/

theorem recordBytes_length (k v : ByteSeq) :
    (recordBytes k v).length = lengths_size + k.length + v.length := by
  simp [recordBytes, pack_lengths, beBytes_length, lengths_size]
  omega

theorem recsLen_cons (kv : ByteSeq × ByteSeq) (rest : List (ByteSeq × ByteSeq)) :
    recsLen (kv :: rest) = (lengths_size + kv.1.length + kv.2.length) + recsLen rest := by
  simp [recsLen]

theorem recordsCat_cons (kv : ByteSeq × ByteSeq) (rest : List (ByteSeq × ByteSeq)) :
    recordsCat (kv :: rest) = recordBytes kv.1 kv.2 ++ recordsCat rest := by
  simp [recordsCat]

theorem recordsCat_length (items : List (ByteSeq × ByteSeq)) :
    (recordsCat items).length = recsLen items := by
  induction items with
  | nil => rfl
  | cons kv rest ih =>
    rw [recordsCat_cons, recsLen_cons, List.length_append, recordBytes_length, ih]

theorem add_all_spec (items : List (ByteSeq × ByteSeq)) : ∀ (w : HashWriter),
    w.add_all items =
      { file := w.file ++ recordsCat items,
        hashes := w.hashes ++ entriesAt w.file.length items } := by
  induction items with
  | nil =>
    intro w
    simp [HashWriter.add_all, recordsCat, entriesAt]
  | cons kv rest ih =>
    intro w
    have hstep : w.add_all (kv :: rest) = HashWriter.add_all
        { file := w.file ++ recordBytes kv.1 kv.2,
          hashes := w.hashes ++ [(cdb_hash kv.1, w.file.length)] } rest := by
      simp only [HashWriter.add_all, List.foldl_cons]
    rw [hstep, ih]
    simp only [List.length_append, recordBytes_length, recordsCat_cons, entriesAt,
      List.append_assoc, List.singleton_append]
    rw [show w.file.length + (lengths_size + kv.1.length + kv.2.length)
        = w.file.length + lengths_size + kv.1.length + kv.2.length by omega]

theorem entriesAt_pos_bound :
    ∀ (items : List (ByteSeq × ByteSeq)) (base : Nat), ∀ x ∈ entriesAt base items,
      base ≤ x.2 ∧ x.2 < base + recsLen items := by
  intro items
  induction items with
  | nil => intro base x hx; simp [entriesAt] at hx
  | cons kv rest ih =>
    intro base x hx
    rw [entriesAt] at hx
    rcases List.mem_cons.mp hx with rfl | hx'
    · rw [recsLen_cons]
      constructor
      · rfl
      · simp [lengths_size]
    · have := ih _ x hx'
      rw [recsLen_cons]
      omega

theorem entriesAt_pos_nodup :
    ∀ (items : List (ByteSeq × ByteSeq)) (base : Nat),
      ((entriesAt base items).map (·.2)).Nodup := by
  intro items
  induction items with
  | nil => intro base; simp [entriesAt]
  | cons kv rest ih =>
    intro base
    rw [entriesAt, List.map_cons, List.nodup_cons]
    refine ⟨?_, ih _⟩
    intro hc
    obtain ⟨x, hx, hx2⟩ := List.mem_map.mp hc
    have := (entriesAt_pos_bound rest _ x hx).1
    simp only [lengths_size] at this
    omega

theorem entriesAt_mem_hash :
    ∀ (items : List (ByteSeq × ByteSeq)) (base : Nat), ∀ x ∈ entriesAt base items,
      ∃ kv ∈ items, x.1 = cdb_hash kv.1 := by
  intro items
  induction items with
  | nil => intro base x hx; simp [entriesAt] at hx
  | cons kv rest ih =>
    intro base x hx
    rw [entriesAt] at hx
    rcases List.mem_cons.mp hx with rfl | hx'
    · exact ⟨kv, by simp, rfl⟩
    · obtain ⟨kv', h1, h2⟩ := ih _ x hx'
      exact ⟨kv', List.mem_cons_of_mem _ h1, h2⟩

theorem sum_indicator (k : Nat) : ∀ (n : Nat), k < n →
    (((List.range n).map (fun i => if k == i then 1 else 0)).sum) = 1 := by
  intro n
  induction n with
  | zero => omega
  | succ n ih =>
    intro hk
    rw [List.range_succ, List.map_append, List.sum_append]
    by_cases hkn : k = n
    · have hzero : ((List.range n).map (fun i => if k == i then 1 else 0)).sum = 0 := by
        apply List.sum_eq_zero
        intro x hx
        obtain ⟨i, hi, rfl⟩ := List.mem_map.mp hx
        have : k ≠ i := by
          have := List.mem_range.mp hi
          omega
        simp [this]
      rw [hzero]
      simp [hkn]
    · rw [ih (by omega)]
      simp [hkn]

theorem bucket_partition (hashes : List (Nat × Nat)) :
    (((List.range 256).map (fun i => (bucketEntries hashes i).length)).sum)
      = hashes.length := by
  induction hashes with
  | nil =>
    show _ = 0
    apply List.sum_eq_zero
    intro x hx
    obtain ⟨i, _, rfl⟩ := List.mem_map.mp hx
    rw [bucketEntries, List.filter_nil, List.length_nil]
  | cons x rest ih =>
    have hsplit : ∀ i, (bucketEntries (x :: rest) i).length
        = (if x.1 % 256 == i then 1 else 0) + (bucketEntries rest i).length := by
      intro i
      rw [bucketEntries, List.filter_cons]
      by_cases hx : x.1 % 256 = i
      · simp [hx, bucketEntries]
        omega
      · simp [hx, bucketEntries]
    have hmap : (List.range 256).map (fun i => (bucketEntries (x :: rest) i).length)
        = (List.range 256).map
            (fun i => (if x.1 % 256 == i then 1 else 0) + (bucketEntries rest i).length) := by
      apply List.map_congr_left
      intro i _
      exact hsplit i
    rw [hmap]
    have hsum : ((List.range 256).map
        (fun i => (if x.1 % 256 == i then 1 else 0) + (bucketEntries rest i).length)).sum
        = ((List.range 256).map (fun i => if x.1 % 256 == i then 1 else 0)).sum
          + ((List.range 256).map (fun i => (bucketEntries rest i).length)).sum := by
      rw [← List.sum_map_add]
    rw [hsum, ih, sum_indicator _ 256 (Nat.mod_lt _ (by omega))]
    simp only [List.length_cons]
    omega

theorem slotBytes_length (t : List (Nat × Nat)) :
    (slotBytes t).length = pointer_size * t.length := by
  rw [slotBytes, List.length_flatten, List.map_map]
  have : (t.map (List.length ∘ fun e => pack_pointer e.1 e.2)) = t.map (fun _ => 12) := by
    apply List.map_congr_left
    intro e _
    simp [pack_pointer, beBytes_length]
  rw [this]
  clear this
  induction t with
  | nil => simp
  | cons e rest ih =>
    rw [List.map_cons, List.sum_cons, List.length_cons, ih]
    simp only [pointer_size]
    omega

theorem entriesAt_length : ∀ (items : List (ByteSeq × ByteSeq)) (base : Nat),
    (entriesAt base items).length = items.length := by
  intro items
  induction items with
  | nil => intro base; rfl
  | cons kv rest ih => intro base; rw [entriesAt, List.length_cons, ih, List.length_cons]

theorem writer_buckets_spec (items : List (ByteSeq × ByteSeq)) :
    ∀ i, ∃ T, buildTable (bucketEntries (writerHashes items) i) = some T ∧
      T.length = 2 * (bucketEntries (writerHashes items) i).length ∧
      (T.filter (fun s => s != (0, 0))).Perm (bucketEntries (writerHashes items) i) ∧
      (∀ h, collectProbe (probeList T ((h >>> 8) % T.length)) h
        = ((bucketEntries (writerHashes items) i).filter (fun x => x.1 == h)).map (·.2)) := by
  intro i
  apply buildTable_spec
  · intro x hx
    have hx' : x ∈ writerHashes items := List.mem_of_mem_filter hx
    have := (entriesAt_pos_bound items header_size x hx').1
    simp only [header_size, header_entry_size] at this
    omega
  · have hsub : (bucketEntries (writerHashes items) i).Sublist (writerHashes items) :=
      List.filter_sublist _
    exact List.Nodup.sublist (hsub.map _) (entriesAt_pos_nodup items header_size)

theorem tableOf_writer (items : List (ByteSeq × ByteSeq)) (i : Nat) :
    buildTable (bucketEntries (writerHashes items) i) = some (tableOf (writerHashes items) i)
      ∧ (tableOf (writerHashes items) i).length
          = 2 * (bucketEntries (writerHashes items) i).length
      ∧ ((tableOf (writerHashes items) i).filter (fun s => s != (0, 0))).Perm
          (bucketEntries (writerHashes items) i)
      ∧ (∀ h, collectProbe (probeList (tableOf (writerHashes items) i)
            ((h >>> 8) % (tableOf (writerHashes items) i).length)) h
          = ((bucketEntries (writerHashes items) i).filter (fun x => x.1 == h)).map (·.2)) := by
  obtain ⟨T, h1, h2, h3, h4⟩ := writer_buckets_spec items i
  have : tableOf (writerHashes items) i = T := by rw [tableOf, h1]; rfl
  rw [this]
  exact ⟨h1, h2, h3, h4⟩

theorem slotRegion_length (hashes : List (Nat × Nat)) : ∀ (l : List Nat),
    (slotRegion hashes l).length
      = pointer_size * ((l.map (fun i => (tableOf hashes i).length)).sum) := by
  intro l
  induction l with
  | nil => simp [slotRegion]
  | cons i rest ih =>
    rw [slotRegion, List.length_append, slotBytes_length, ih, List.map_cons, List.sum_cons,
      Nat.mul_add]

theorem hashZone_length (items : List (ByteSeq × ByteSeq)) :
    (hashZone items).length = 24 * items.length := by
  rw [hashZone, slotRegion_length]
  have hmap : (List.range 256).map (fun i => (tableOf (writerHashes items) i).length)
      = (List.range 256).map (fun i => 2 * (bucketEntries (writerHashes items) i).length) := by
    apply List.map_congr_left
    intro i _
    exact (tableOf_writer items i).2.1
  rw [hmap]
  have hsum : ((List.range 256).map
      (fun i => 2 * (bucketEntries (writerHashes items) i).length)).sum
      = 2 * ((List.range 256).map
          (fun i => (bucketEntries (writerHashes items) i).length)).sum := by
    rw [← List.sum_map_mul_left]
  rw [hsum, bucket_partition, writerHashes, entriesAt_length]
  simp only [pointer_size]
  omega

theorem writeHashesLoop_spec (hashes : List (Nat × Nat))
    (hok : ∀ i, (buildTable (bucketEntries hashes i)).isSome)
    (hlen : ∀ i, (tableOf hashes i).length = 2 * (bucketEntries hashes i).length) :
    ∀ (l : List Nat) (f : ByteSeq) (dir : List (Nat × Nat)),
      writeHashesLoop hashes l (f, dir)
        = some (f ++ slotRegion hashes l, dir ++ dirFrom hashes f.length l) := by
  intro l
  induction l with
  | nil => intro f dir; simp [writeHashesLoop, slotRegion, dirFrom]
  | cons i rest ih =>
    intro f dir
    obtain ⟨table, htable⟩ := Option.isSome_iff_exists.mp (hok i)
    have htableOf : tableOf hashes i = table := by rw [tableOf, htable]; rfl
    rw [writeHashesLoop, htable]
    show writeHashesLoop hashes rest
        (f ++ slotBytes table, dir ++ [(f.length, 2 * (bucketEntries hashes i).length)]) = _
    rw [ih]
    have htl : table.length = 2 * (bucketEntries hashes i).length := htableOf ▸ hlen i
    rw [slotRegion, dirFrom, htableOf, List.length_append, slotBytes_length, htl,
      List.append_assoc, List.append_assoc, List.singleton_append]

theorem hashWriter_close_eq (items : List (ByteSeq × ByteSeq)) :
    (HashWriter.init.add_all items).close = some (closedFile items []) := by
  have hinitlen : (HashWriter.init.file).length = header_size := by
    simp [HashWriter.init]
  have hw := add_all_spec items HashWriter.init
  have hhashes : (HashWriter.init.add_all items).hashes = writerHashes items := by
    rw [hw]
    show [] ++ entriesAt (HashWriter.init.file).length items = _
    rw [hinitlen, List.nil_append, writerHashes]
  have hfile : (HashWriter.init.add_all items).file
      = List.replicate header_size 0 ++ recordsCat items := by
    rw [hw]
    rfl
  rw [HashWriter.close, write_hashes, hhashes, hfile]
  rw [writeHashesLoop_spec (writerHashes items)
    (fun i => by rw [(tableOf_writer items i).1]; rfl)
    (fun i => (tableOf_writer items i).2.1)]
  have hreclen : (List.replicate header_size 0 ++ recordsCat items).length
      = header_size + recsLen items := by
    rw [List.length_append, List.length_replicate, recordsCat_length]
  rw [Option.map_some']
  refine congrArg some ?_
  rw [closedFile, hreclen]
  have hzone : hashZone items = slotRegion (writerHashes items) (List.range 256) := rfl
  have hdir : hashDir items
      = dirFrom (writerHashes items) (header_size + recsLen items) (List.range 256) := rfl
  rw [← hzone, ← hdir]
  have heoh : (List.replicate header_size 0 ++ recordsCat items ++ hashZone items).length
      = hashEoh items := by
    rw [hashEoh, List.length_append, hreclen]
  rw [← List.append_assoc]
  rw [heoh]
  rw [List.append_nil, List.append_assoc]
  rfl

/-! #### Parsing the closed file -/

theorem flatten_uniform_length {c : Nat} : ∀ {ls : List ByteSeq}, (∀ x ∈ ls, x.length = c) →
    ls.flatten.length = c * ls.length := by
  intro ls
  induction ls with
  | nil => intro _; simp
  | cons x rest ih =>
    intro hc
    rw [List.flatten_cons, List.length_append, hc x (by simp), ih
      (fun y hy => hc y (List.mem_cons_of_mem _ hy)), List.length_cons]
    ring

theorem dirFrom_length (hashes : List (Nat × Nat)) : ∀ (l : List Nat) (base : Nat),
    (dirFrom hashes base l).length = l.length := by
  intro l
  induction l with
  | nil => intro base; rfl
  | cons i rest ih => intro base; rw [dirFrom, List.length_cons, ih, List.length_cons]

theorem zone_walk (hashes : List (Nat × Nat))
    (hlen : ∀ i, (tableOf hashes i).length = 2 * (bucketEntries hashes i).length)
    (F rest : ByteSeq) :
    ∀ (l : List Nat) (base : Nat), F.drop base = slotRegion hashes l ++ rest →
      ∀ idx, idx < l.length →
        ∃ pos t', (dirFrom hashes base l).getD idx (0, 0)
            = (pos, 2 * (bucketEntries hashes (l.getD idx 0)).length)
          ∧ F.drop pos = slotBytes (tableOf hashes (l.getD idx 0)) ++ t'
          ∧ base ≤ pos
          ∧ pos + (slotBytes (tableOf hashes (l.getD idx 0))).length
              ≤ base + (slotRegion hashes l).length := by
  intro l
  induction l with
  | nil => intro base _ idx hidx; simp at hidx
  | cons i restl ih =>
    intro base hdrop idx hidx
    rw [slotRegion, List.append_assoc] at hdrop
    match idx with
    | 0 =>
      refine ⟨base, slotRegion hashes restl ++ rest, rfl, hdrop, le_refl _, ?_⟩
      rw [slotRegion, List.length_append]
      simp only [List.getD_cons_zero]
      omega
    | idx + 1 =>
      have hdrop' := drop_shift hdrop
      have hlenstep : (slotBytes (tableOf hashes i)).length
          = pointer_size * (2 * (bucketEntries hashes i).length) := by
        rw [slotBytes_length, hlen i]
      obtain ⟨pos, t', h1, h2, h3, h4⟩ :=
        ih (base + (slotBytes (tableOf hashes i)).length) hdrop' idx (by simpa using hidx)
      refine ⟨pos, t', ?_, ?_, by omega, ?_⟩
      · rw [dirFrom, List.getD_cons_succ, List.getD_cons_succ, ← hlenstep, h1]
      · rw [List.getD_cons_succ]
        exact h2
      · rw [slotRegion, List.length_append]
        simp only [List.getD_cons_succ]
        omega

theorem closedFile_eq (items : List (ByteSeq × ByteSeq)) (tail : ByteSeq) :
    closedFile items tail = hashMagic ++ (beBytes 4 0 ++ (beBytes 8 (hashEoh items)
      ++ (((hashDir items).map (fun e => pack_header_entry e.1 e.2)).flatten
        ++ (recordsCat items ++ (hashZone items ++ tail))))) := by
  rw [closedFile, write_directory]
  have hdrop : (List.replicate header_size (0 : Nat)
      ++ (recordsCat items ++ (hashZone items ++ tail))).drop header_size
      = recordsCat items ++ (hashZone items ++ tail) := by
    rw [List.drop_append_of_le_length (by simp)]
    simp
  rw [hdrop]
  simp [List.append_assoc]

theorem hashDir_length (items : List (ByteSeq × ByteSeq)) : (hashDir items).length = 256 := by
  rw [hashDir, dirFrom_length]
  simp

theorem closedFile_drop0 (items : List (ByteSeq × ByteSeq)) (tail : ByteSeq) :
    (closedFile items tail).drop 0 = hashMagic ++ (beBytes 4 0 ++ (beBytes 8 (hashEoh items)
      ++ (((hashDir items).map (fun e => pack_header_entry e.1 e.2)).flatten
        ++ (recordsCat items ++ (hashZone items ++ tail))))) := by
  rw [List.drop_zero]
  exact closedFile_eq items tail

theorem closedFile_drop8 (items : List (ByteSeq × ByteSeq)) (tail : ByteSeq) :
    (closedFile items tail).drop 8 = beBytes 8 (hashEoh items)
      ++ (((hashDir items).map (fun e => pack_header_entry e.1 e.2)).flatten
        ++ (recordsCat items ++ (hashZone items ++ tail))) := by
  have h4 := drop_shift (closedFile_drop0 items tail)
  simp only [hashMagic, List.length_cons, List.length_nil, Nat.zero_add] at h4
  have h8 := drop_shift h4
  simp only [beBytes_length] at h8
  simpa using h8

theorem closedFile_drop16 (items : List (ByteSeq × ByteSeq)) (tail : ByteSeq) :
    (closedFile items tail).drop 16
      = ((hashDir items).map (fun e => pack_header_entry e.1 e.2)).flatten
        ++ (recordsCat items ++ (hashZone items ++ tail)) := by
  have h16 := drop_shift (closedFile_drop8 items tail)
  simp only [beBytes_length] at h16
  simpa using h16

theorem closedFile_drop_header (items : List (ByteSeq × ByteSeq)) (tail : ByteSeq) :
    (closedFile items tail).drop header_size
      = recordsCat items ++ (hashZone items ++ tail) := by
  have hflat : (((hashDir items).map (fun e => pack_header_entry e.1 e.2)).flatten).length
      = 12 * 256 := by
    rw [flatten_uniform_length, List.length_map, hashDir_length]
    intro x hx
    obtain ⟨e, _, rfl⟩ := List.mem_map.mp hx
    simp [pack_header_entry, beBytes_length]
  have h := drop_shift (closedFile_drop16 items tail)
  rw [hflat] at h
  rw [show header_size = 16 + 12 * 256 by rw [header_size, header_entry_size]]
  exact h

theorem closedFile_recbase (items : List (ByteSeq × ByteSeq)) (tail : ByteSeq) :
    (closedFile items tail).drop (header_size + recsLen items)
      = slotRegion (writerHashes items) (List.range 256) ++ tail := by
  have h := drop_shift (closedFile_drop_header items tail)
  rw [recordsCat_length] at h
  exact h

theorem hashEoh_lt (items : List (ByteSeq × ByteSeq)) (hvalid : ValidItems items) :
    hashEoh items < 2 ^ 63 := by
  obtain ⟨_, hcount, hsize⟩ := hvalid
  rw [hashEoh, hashZone_length]
  omega

theorem closedFile_eoh (items : List (ByteSeq × ByteSeq)) (tail : ByteSeq)
    (hvalid : ValidItems items) :
    end_of_hashes (closedFile items tail) = hashEoh items := by
  rw [end_of_hashes]
  exact getU64_of_drop' (closedFile_drop8 items tail)
    (lt_trans (hashEoh_lt items hvalid) (by norm_num))

theorem tableOf_writer_bounds (items : List (ByteSeq × ByteSeq)) (hvalid : ValidItems items)
    (b : Nat) : ∀ s ∈ tableOf (writerHashes items) b, s.1 < 2 ^ 32 ∧ s.2 < 2 ^ 64 := by
  intro s hs
  by_cases hzero : s = (0, 0)
  · rw [hzero]
    norm_num
  · have hsf : s ∈ (tableOf (writerHashes items) b).filter (fun s => s != (0, 0)) :=
      List.mem_filter.mpr ⟨hs, by simpa using hzero⟩
    have hsb : s ∈ bucketEntries (writerHashes items) b :=
      ((tableOf_writer items b).2.2.1.mem_iff).mp hsf
    have hse : s ∈ writerHashes items := List.mem_of_mem_filter hsb
    constructor
    · obtain ⟨kv, hkv, hh⟩ := entriesAt_mem_hash items header_size s hse
      rw [hh]
      exact cdb_hash_lt _ ((hvalid.1 kv hkv).1)
    · have := (entriesAt_pos_bound items header_size s hse).2
      obtain ⟨_, hcount, hsize⟩ := hvalid
      have h64 : (2 : Nat) ^ 63 < 2 ^ 64 := by norm_num
      omega

theorem closedFile_bucket (items : List (ByteSeq × ByteSeq)) (tail : ByteSeq)
    (hvalid : ValidItems items) (b : Nat) (hb : b < 256) :
    ∃ pos t', (buckets (closedFile items tail)).getD b (0, 0)
        = (pos, 2 * (bucketEntries (writerHashes items) b).length)
      ∧ (closedFile items tail).drop pos
          = slotBytes (tableOf (writerHashes items) b) ++ t'
      ∧ (hashDir items).getD b (0, 0)
          = (pos, 2 * (bucketEntries (writerHashes items) b).length) := by
  have hb' : b < (List.range 256).length := by
    rw [List.length_range]
    exact hb
  have hlenfun : ∀ i, (tableOf (writerHashes items) i).length
      = 2 * (bucketEntries (writerHashes items) i).length :=
    fun i => (tableOf_writer items i).2.1
  have hwalk := zone_walk (writerHashes items) hlenfun
    (closedFile items tail) tail (List.range 256) (header_size + recsLen items)
    (closedFile_recbase items tail) b hb'
  obtain ⟨pos, t', hdirb0, hdropb, hposge, hposle⟩ := hwalk
  have hrangeb : (List.range 256).getD b 0 = b := by
    rw [List.getD_eq_getElem _ _ hb', List.getElem_range]
  rw [hrangeb] at hdirb0 hdropb
  have hdirb : (hashDir items).getD b (0, 0)
      = (pos, 2 * (bucketEntries (writerHashes items) b).length) := hdirb0
  have hposbound : pos < 2 ^ 64 := by
    have h1 := hashEoh_lt items hvalid
    have h3 : (slotRegion (writerHashes items) (List.range 256)).length
        = (hashZone items).length := rfl
    have h4 : (2 : Nat) ^ 63 < 2 ^ 64 := by norm_num
    rw [hashEoh] at h1
    omega
  have hnsbound : 2 * (bucketEntries (writerHashes items) b).length < 2 ^ 32 := by
    have hlen1 : (writerHashes items).length = items.length := by
      rw [writerHashes, entriesAt_length]
    have h1 : (bucketEntries (writerHashes items) b).length ≤ (writerHashes items).length :=
      List.length_filter_le _ _
    have hcount := hvalid.2.1
    have h31 : (2 : Nat) ^ 31 * 2 = 2 ^ 32 := by norm_num
    omega
  -- read the directory entry at offset 16 + 12 * b
  have hc12 : ∀ x ∈ (hashDir items).map (fun e => pack_header_entry e.1 e.2),
      x.length = 12 := by
    intro x hx
    obtain ⟨e, _, rfl⟩ := List.mem_map.mp hx
    simp [pack_header_entry, beBytes_length]
  have hilen : b < ((hashDir items).map (fun e => pack_header_entry e.1 e.2)).length := by
    rw [List.length_map, hashDir_length]
    exact hb
  have hchunk := drop_flatten_uniform hc12 (closedFile_drop16 items tail) hilen
  have hmapget : ((hashDir items).map (fun e => pack_header_entry e.1 e.2)).getD b []
      = pack_header_entry pos (2 * (bucketEntries (writerHashes items) b).length) := by
    have hblen : b < (hashDir items).length := by rw [hashDir_length]; exact hb
    rw [List.getD_eq_getElem _ _ (by rw [List.length_map]; exact hblen), List.getElem_map]
    rw [← List.getD_eq_getElem _ (0, 0) hblen, hdirb]
  rw [hmapget, pack_header_entry, List.append_assoc] at hchunk
  have hread64 : getU64 (closedFile items tail) (16 + 12 * b) = pos :=
    getU64_of_drop' hchunk hposbound
  have hchunk4 := drop_shift hchunk
  rw [beBytes_length] at hchunk4
  have hread32 : getU32 (closedFile items tail) (16 + 12 * b + 8)
      = 2 * (bucketEntries (writerHashes items) b).length :=
    getU32_of_drop' hchunk4 hnsbound
  refine ⟨pos, t', ?_, hdropb, hdirb⟩
  have hbuck : (buckets (closedFile items tail)).getD b (0, 0)
      = (getU64 (closedFile items tail) (16 + b * header_entry_size),
         getU32 (closedFile items tail) (16 + b * header_entry_size + 8)) := by
    rw [buckets, List.getD_eq_getElem _ _ (by simpa using hb), List.getElem_map,
      List.getElem_range]
  rw [hbuck, header_entry_size, show b * 12 = 12 * b by ring, hread64, hread32]

theorem slot_reads (F : ByteSeq) (T : List (Nat × Nat)) (pos : Nat) (t' : ByteSeq)
    (hdrop : F.drop pos = slotBytes T ++ t')
    (hbound : ∀ s ∈ T, s.1 < 2 ^ 32 ∧ s.2 < 2 ^ 64) :
    ∀ j, j < T.length →
      getU32 F (pos + j * pointer_size) = (T.getD j (0, 0)).1 ∧
      getU64 F (pos + j * pointer_size + 4) = (T.getD j (0, 0)).2 := by
  intro j hj
  rw [slotBytes] at hdrop
  have hc12 : ∀ x ∈ T.map (fun e => pack_pointer e.1 e.2), x.length = 12 := by
    intro x hx
    obtain ⟨e, _, rfl⟩ := List.mem_map.mp hx
    simp [pack_pointer, beBytes_length]
  have hjlen : j < (T.map (fun e => pack_pointer e.1 e.2)).length := by
    rw [List.length_map]
    exact hj
  have hchunk := drop_flatten_uniform hc12 hdrop hjlen
  have hmapget : (T.map (fun e => pack_pointer e.1 e.2)).getD j []
      = pack_pointer (T.getD j (0, 0)).1 (T.getD j (0, 0)).2 := by
    rw [List.getD_eq_getElem _ _ hjlen, List.getElem_map, List.getD_eq_getElem _ _ hj]
  rw [hmapget, pack_pointer, List.append_assoc] at hchunk
  have hmem : T.getD j (0, 0) ∈ T := by
    rw [List.getD_eq_getElem _ _ hj]
    exact List.getElem_mem hj
  have hb := hbound _ hmem
  have h1 : getU32 F (pos + 12 * j) = (T.getD j (0, 0)).1 := getU32_of_drop' hchunk hb.1
  have hchunk4 := drop_shift hchunk
  rw [beBytes_length] at hchunk4
  have h2 : getU64 F (pos + 12 * j + 4) = (T.getD j (0, 0)).2 := getU64_of_drop' hchunk4 hb.2
  have hcomm : pos + j * pointer_size = pos + 12 * j := by
    simp only [pointer_size]
    ring
  rw [hcomm]
  exact ⟨h1, h2⟩

theorem probeLoop_eq (F : ByteSeq) (hpos n keyhash : Nat) (key : ByteSeq)
    (T : List (Nat × Nat)) (hT : T.length = n) (hn : 0 < n)
    (hread : ∀ j, j < n →
      getU32 F (hpos + j * pointer_size) = (T.getD j (0, 0)).1 ∧
      getU64 F (hpos + j * pointer_size + 4) = (T.getD j (0, 0)).2) :
    ∀ (fuel j : Nat), j < n →
      probeLoop F hpos n keyhash key (hpos + j * pointer_size) fuel
        = (probeA T keyhash j fuel).filterMap (recordCheck F key) := by
  intro fuel
  induction fuel with
  | zero => intro j hj; rfl
  | succ fuel ih =>
    intro j hj
    have hr := hread j hj
    rw [probeLoop, probeA]
    simp only
    rw [hr.1, hr.2, hT]
    by_cases hp : (T.getD j (0, 0)).2 = 0
    · rw [if_pos hp, if_pos hp]
      rfl
    · rw [if_neg hp, if_neg hp]
      have hwrap : (if hpos + j * pointer_size + pointer_size = hpos + n * pointer_size
          then hpos else hpos + j * pointer_size + pointer_size)
          = hpos + ((j + 1) % n) * pointer_size := by
        by_cases hj1 : j + 1 = n
        · rw [if_pos (by rw [← hj1]; ring), hj1, Nat.mod_self]
          simp
        · rw [if_neg (by
            intro hc
            apply hj1
            have : (j + 1) * pointer_size = n * pointer_size := by
              simp only [pointer_size] at hc ⊢
              omega
            exact Nat.eq_of_mul_eq_mul_right (by simp [pointer_size]) this)]
          rw [Nat.mod_eq_of_lt (by omega)]
          ring
      rw [hwrap, ih ((j + 1) % n) (Nat.mod_lt _ hn)]
      by_cases hh : (T.getD j (0, 0)).1 = keyhash
      · rw [if_pos hh, if_pos hh]
        rw [List.filterMap_append]
        have hrc : recordCheck F key ((T.getD j (0, 0)).2)
            = if getU32 F ((T.getD j (0, 0)).2) = key.length ∧
                readAt F ((T.getD j (0, 0)).2 + lengths_size)
                  (getU32 F ((T.getD j (0, 0)).2)) = key then
                some ((T.getD j (0, 0)).2 + lengths_size + getU32 F ((T.getD j (0, 0)).2),
                  getU32 F ((T.getD j (0, 0)).2 + 4))
              else none := rfl
        by_cases hcheck : getU32 F ((T.getD j (0, 0)).2) = key.length ∧
            readAt F ((T.getD j (0, 0)).2 + lengths_size)
              (getU32 F ((T.getD j (0, 0)).2)) = key
        · rw [if_pos hcheck]
          have hsome : recordCheck F key ((T.getD j (0, 0)).2)
              = some ((T.getD j (0, 0)).2 + lengths_size + getU32 F ((T.getD j (0, 0)).2),
                  getU32 F ((T.getD j (0, 0)).2 + 4)) := by
            rw [hrc, if_pos hcheck]
          rw [List.filterMap_cons_some hsome, List.filterMap_nil]
          rfl
        · rw [if_neg hcheck]
          have hnone : recordCheck F key ((T.getD j (0, 0)).2) = none := by
            rw [hrc, if_neg hcheck]
          rw [List.filterMap_cons_none hnone, List.filterMap_nil]
          rfl
      · rw [if_neg hh, if_neg hh]
        simp

theorem valuesForKey_cons (kv : ByteSeq × ByteSeq) (rest : List (ByteSeq × ByteSeq))
    (key : ByteSeq) :
    valuesForKey (kv :: rest) key
      = if kv.1 = key then kv.2 :: valuesForKey rest key else valuesForKey rest key := by
  rw [valuesForKey, List.filter_cons]
  by_cases h : kv.1 = key
  · simp [h, valuesForKey]
  · simp [h, valuesForKey]

theorem record_reads (F : ByteSeq) (kv : ByteSeq × ByteSeq) (base : Nat) (rest2 : ByteSeq)
    (hdrop : F.drop base = recordBytes kv.1 kv.2 ++ rest2)
    (hk32 : kv.1.length < 2 ^ 32) (hv32 : kv.2.length < 2 ^ 32) :
    getU32 F base = kv.1.length ∧ getU32 F (base + 4) = kv.2.length ∧
    readAt F (base + lengths_size) kv.1.length = kv.1 ∧
    readAt F (base + lengths_size + kv.1.length) kv.2.length = kv.2 ∧
    F.drop (base + lengths_size + kv.1.length + kv.2.length) = rest2 := by
  have h0 : F.drop base = beBytes 4 kv.1.length
      ++ (beBytes 4 kv.2.length ++ (kv.1 ++ (kv.2 ++ rest2))) := by
    rw [hdrop, recordBytes, pack_lengths]
    simp [List.append_assoc]
  have hklen := getU32_of_drop' h0 hk32
  have h4 := drop_shift h0
  rw [beBytes_length] at h4
  have hvlen := getU32_of_drop' h4 hv32
  have h8 := drop_shift h4
  rw [beBytes_length] at h8
  rw [show base + 4 + 4 = base + lengths_size by simp [lengths_size]] at h8
  have hkread := readAt_of_drop_prefix h8
  have h8k := drop_shift h8
  have hvread := readAt_of_drop_prefix h8k
  have h8kv := drop_shift h8k
  exact ⟨hklen, hvlen, hkread, hvread, h8kv⟩

theorem probe_values (F : ByteSeq) :
    ∀ (items : List (ByteSeq × ByteSeq)) (base : Nat) (rest2 : ByteSeq),
      F.drop base = recordsCat items ++ rest2 →
      (∀ kv ∈ items, kv.1.length < 2 ^ 32 ∧ kv.2.length < 2 ^ 32) →
      ∀ key, ((((entriesAt base items).filter (fun x => x.1 == cdb_hash key)).map (·.2)).filterMap
          (recordCheck F key)).map (fun r => readAt F r.1 r.2)
        = valuesForKey items key := by
  intro items
  induction items with
  | nil => intro base rest2 _ _ key; rfl
  | cons kv rest ih =>
    intro base rest2 hdrop hlens key
    rw [recordsCat_cons, List.append_assoc] at hdrop
    have hmem : kv ∈ kv :: rest := List.mem_cons_self _ _
    obtain ⟨hklen, hvlen, hkread, hvread, hnext⟩ :=
      record_reads F kv base (recordsCat rest ++ rest2) hdrop
        (hlens kv hmem).1 (hlens kv hmem).2
    have hrec := ih (base + lengths_size + kv.1.length + kv.2.length) rest2 hnext
      (fun x hx => hlens x (List.mem_cons_of_mem _ hx)) key
    rw [entriesAt, List.filter_cons, valuesForKey_cons]
    by_cases hhash : cdb_hash kv.1 = cdb_hash key
    · rw [if_pos (by simpa using hhash), List.map_cons]
      by_cases hkeq : kv.1 = key
      · have hcheck : getU32 F base = key.length ∧
            readAt F (base + lengths_size) (getU32 F base) = key := by
          constructor
          · rw [hklen, hkeq]
          · rw [hklen, ← hkeq]
            exact hkread
        have hsome : recordCheck F key base
            = some (base + lengths_size + getU32 F base, getU32 F (base + 4)) := by
          rw [recordCheck, if_pos hcheck]
        rw [List.filterMap_cons_some hsome, List.map_cons, hrec, if_pos hkeq]
        congr 1
        rw [hklen, hvlen]
        exact hvread
      · have hnone : recordCheck F key base = none := by
          rw [recordCheck]
          apply if_neg
          intro hc
          rw [hklen] at hc
          apply hkeq
          rw [← hc.2, hkread]
        rw [List.filterMap_cons_none hnone, hrec, if_neg hkeq]
    · rw [if_neg (by simpa using hhash), hrec]
      have hkne : kv.1 ≠ key := fun hc => hhash (by rw [hc])
      rw [if_neg hkne]

theorem filter_hash_eq (hashes : List (Nat × Nat)) (h : Nat) :
    (bucketEntries hashes (h % 256)).filter (fun x => x.1 == h)
      = hashes.filter (fun x => x.1 == h) := by
  rw [bucketEntries, List.filter_filter]
  apply List.filter_congr
  intro x _
  by_cases hx : x.1 = h
  · simp [hx]
  · simp [hx]

theorem ranges_for_key_eq (items : List (ByteSeq × ByteSeq)) (tail : ByteSeq)
    (hvalid : ValidItems items) (key : ByteSeq) :
    ranges_for_key (closedFile items tail) key
      = (((bucketEntries (writerHashes items) (cdb_hash key % 256)).filter
          (fun x => x.1 == cdb_hash key)).map (·.2)).filterMap
          (recordCheck (closedFile items tail) key) := by
  obtain ⟨pos, t', hbuck, hdrop, _⟩ :=
    closedFile_bucket items tail hvalid (cdb_hash key % 256) (Nat.mod_lt _ (by omega))
  simp only [ranges_for_key]
  have hinfo : hashtable_info (closedFile items tail) (cdb_hash key)
      = (pos, 2 * (bucketEntries (writerHashes items) (cdb_hash key % 256)).length) := by
    rw [hashtable_info]
    exact hbuck
  rw [hinfo]
  obtain ⟨hbt, hlen, hperm, hprobe⟩ := tableOf_writer items (cdb_hash key % 256)
  by_cases hz : 2 * (bucketEntries (writerHashes items) (cdb_hash key % 256)).length = 0
  · rw [if_pos hz]
    have hempty : bucketEntries (writerHashes items) (cdb_hash key % 256) = [] :=
      List.length_eq_zero.mp (by omega)
    rw [hempty]
    rfl
  · rw [if_neg hz]
    have hn : 0 < 2 * (bucketEntries (writerHashes items) (cdb_hash key % 256)).length :=
      Nat.pos_of_ne_zero hz
    have hreads := slot_reads _ _ _ _ hdrop
      (tableOf_writer_bounds items hvalid (cdb_hash key % 256))
    have hj0 : (cdb_hash key >>> 8)
        % (2 * (bucketEntries (writerHashes items) (cdb_hash key % 256)).length)
        < 2 * (bucketEntries (writerHashes items) (cdb_hash key % 256)).length :=
      Nat.mod_lt _ hn
    rw [probeLoop_eq (closedFile items tail) pos
      (2 * (bucketEntries (writerHashes items) (cdb_hash key % 256)).length) (cdb_hash key) key
      (tableOf (writerHashes items) (cdb_hash key % 256)) hlen hn
      (fun j hj => hreads j (by rw [hlen]; exact hj)) _ _ hj0]
    rw [← hlen]
    rw [probeA_eq_collect _ _ _ (Nat.mod_lt _ (by rw [hlen]; exact hn)), hprobe (cdb_hash key)]

theorem allOf_closedFile (items : List (ByteSeq × ByteSeq)) (tail : ByteSeq)
    (hvalid : ValidItems items) (key : ByteSeq) :
    allOf (closedFile items tail) key = valuesForKey items key := by
  rw [allOf, ranges_for_key_eq items tail hvalid key, filter_hash_eq]
  exact probe_values (closedFile items tail) items header_size (hashZone items ++ tail)
    (closedFile_drop_header items tail)
    (fun kv hkv => ⟨(hvalid.1 kv hkv).2.1, (hvalid.1 kv hkv).2.2⟩) key

/-- C1: for every sequence of `(key, value)` pairs written through
`HashWriter.add_all` followed by `close`, the reader's `all` yields every
value written under the key in insertion order, `get` returns the first
value inserted for the key, `__getitem__` returns the first value as well,
and when no pair with the key was written `__getitem__` fails (`none`) and
`get` returns the default; writing `(k, v1)` then `(k, v2)` therefore gives
`get k = v1` and `all k = [v1, v2]`. -/
theorem hashReader_get_all_spec (items : List (ByteSeq × ByteSeq))
    (hvalid : ValidItems items) (key default F : ByteSeq)
    (hclose : (HashWriter.init.add_all items).close = some F) :
    allOf F key = valuesForKey items key ∧
    getOf F key default = (valuesForKey items key).headD default ∧
    getItemOf F key = (valuesForKey items key).head? ∧
    ((∀ kv ∈ items, kv.1 ≠ key) →
      getItemOf F key = none ∧ getOf F key default = default) := by
  have hF : F = closedFile items [] := by
    have h := hashWriter_close_eq items
    rw [hclose] at h
    exact Option.some.inj h
  subst hF
  have hall := allOf_closedFile items [] hvalid key
  refine ⟨hall, by rw [getOf, hall], by rw [getItemOf, hall], ?_⟩
  intro hno
  have hempty : valuesForKey items key = [] := by
    rw [valuesForKey]
    have hfil : items.filter (fun kv => kv.1 == key) = [] := by
      rw [List.filter_eq_nil]
      intro kv hkv hbeq
      exact hno kv hkv (by simpa using hbeq)
    rw [hfil]
    rfl
  constructor
  · rw [getItemOf, hall, hempty]
    rfl
  · rw [getOf, hall, hempty]
    rfl

theorem hashReader_get_all_spec_witness :
    allOf (closedFile [([107], [1]), ([107], [2])] []) [107] = [[1], [2]] ∧
    getOf (closedFile [([107], [1]), ([107], [2])] []) [107] [9] = [1] ∧
    getItemOf (closedFile [([107], [1]), ([107], [2])] []) [99] = none ∧
    getOf (closedFile [([107], [1]), ([107], [2])] []) [99] [9] = [9] := by
  have h := hashReader_get_all_spec [([107], [1]), ([107], [2])] (by unfold ValidItems; decide) [107] [9]
    (closedFile [([107], [1]), ([107], [2])] []) (hashWriter_close_eq _)
  have h2 := hashReader_get_all_spec [([107], [1]), ([107], [2])] (by unfold ValidItems; decide) [99] [9]
    (closedFile [([107], [1]), ([107], [2])] []) (hashWriter_close_eq _)
  obtain ⟨hmiss1, hmiss2⟩ := h2.2.2.2 (by decide)
  refine ⟨?_, ?_, hmiss1, hmiss2⟩
  · rw [h.1]
    rfl
  · rw [h.2.1]
    rfl

theorem probeList_getD (T : List (Nat × Nat)) (j d : Nat) (hd : d < T.length) :
    (probeList T j).getD d (0, 0) = T.getD ((j + d) % T.length) (0, 0) := by
  have hd' : d < (probeList T j).length := by
    rw [probeList_length]
    exact hd
  rw [List.getD_eq_getElem _ _ hd', probeList_getElem]

/-- C4: in every table written by `HashWriter.close`, each of the 256
buckets has slot count exactly twice the number of entries hashed into it
(zero slots exactly when the bucket is empty), the writer's probe loop
terminates on every bucket (`buildTable` succeeds), the occupied slots are
exactly the bucket's entries, and every entry sits in a slot reachable by
linear probing with wrap-around from `(hash >>> 8) % slot_count` within
`slot_count` steps. -/
theorem hashWriter_bucket_discipline (items : List (ByteSeq × ByteSeq))
    (hvalid : ValidItems items) (F : ByteSeq)
    (hclose : (HashWriter.init.add_all items).close = some F) (b : Nat) (hb : b < 256) :
    buildTable (bucketEntries (writerHashes items) b)
        = some (tableOf (writerHashes items) b) ∧
    (tableOf (writerHashes items) b).length
        = 2 * (bucketEntries (writerHashes items) b).length ∧
    (∃ pos, (buckets F).getD b (0, 0)
        = (pos, 2 * (bucketEntries (writerHashes items) b).length)) ∧
    (((buckets F).getD b (0, 0)).2 = 0 ↔ bucketEntries (writerHashes items) b = []) ∧
    ((tableOf (writerHashes items) b).filter (fun s => s != (0, 0))).Perm
        (bucketEntries (writerHashes items) b) ∧
    ∀ e ∈ bucketEntries (writerHashes items) b,
      ∃ j < (tableOf (writerHashes items) b).length,
        (tableOf (writerHashes items) b).getD
          (((e.1 >>> 8) % (tableOf (writerHashes items) b).length + j)
            % (tableOf (writerHashes items) b).length) (0, 0) = e := by
  have hF : F = closedFile items [] := by
    have h := hashWriter_close_eq items
    rw [hclose] at h
    exact Option.some.inj h
  subst hF
  obtain ⟨hbt, hlen, hperm, hprobe⟩ := tableOf_writer items b
  obtain ⟨pos, t', hbuck, _, _⟩ := closedFile_bucket items [] hvalid b hb
  refine ⟨hbt, hlen, ⟨pos, hbuck⟩, ?_, hperm, ?_⟩
  · rw [hbuck]
    show 2 * (bucketEntries (writerHashes items) b).length = 0
      ↔ bucketEntries (writerHashes items) b = []
    rw [← List.length_eq_zero]
    omega
  · intro e he
    have hmem2 : e.2 ∈ ((bucketEntries (writerHashes items) b).filter
        (fun x => x.1 == e.1)).map (·.2) :=
      List.mem_map.mpr ⟨e, List.mem_filter.mpr ⟨he, by simp⟩, rfl⟩
    rw [← hprobe e.1] at hmem2
    obtain ⟨d, hd, _, hh, hx⟩ := mem_collectProbe_index hmem2
    rw [probeList_length] at hd
    rw [probeList_getD _ _ _ hd] at hh hx
    exact ⟨d, hd, Prod.ext hh hx⟩

theorem hashWriter_bucket_discipline_witness :
    ∃ pos, (buckets (closedFile [([107], [1]), ([107], [2])] [])).getD 206 (0, 0)
      = (pos, 2 * (bucketEntries (writerHashes [([107], [1]), ([107], [2])]) 206).length) :=
  (hashWriter_bucket_discipline [([107], [1]), ([107], [2])]
    (by unfold ValidItems; decide) (closedFile [([107], [1]), ([107], [2])] [])
    (hashWriter_close_eq _) 206 (by decide)).2.2.1

theorem hashDir_head (items : List (ByteSeq × ByteSeq)) :
    (hashDir items).getD 0 (0, 0)
      = (header_size + recsLen items,
         2 * (bucketEntries (writerHashes items) 0).length) := by
  rw [hashDir, show (256 : Nat) = 255 + 1 from rfl, List.range_succ_eq_map, dirFrom]
  rfl

theorem rangesAux_walk (F : ByteSeq) :
    ∀ (items : List (ByteSeq × ByteSeq)) (base : Nat) (rest2 : ByteSeq),
      F.drop base = recordsCat items ++ rest2 →
      (∀ kv ∈ items, kv.1.length < 2 ^ 32 ∧ kv.2.length < 2 ^ 32) →
      rangesAux F (base + recsLen items) base = rangesModel base items := by
  intro items
  induction items with
  | nil =>
    intro base rest2 _ _
    rw [rangesAux, recsLen]
    simp [rangesModel]
  | cons kv rest ih =>
    intro base rest2 hdrop hlens
    rw [recordsCat_cons, List.append_assoc] at hdrop
    have hmem : kv ∈ kv :: rest := List.mem_cons_self _ _
    obtain ⟨hklen, hvlen, _, _, hnext⟩ :=
      record_reads F kv base (recordsCat rest ++ rest2) hdrop
        (hlens kv hmem).1 (hlens kv hmem).2
    have heod : base + recsLen (kv :: rest)
        = base + lengths_size + kv.1.length + kv.2.length + recsLen rest := by
      rw [recsLen_cons]
      omega
    have hlt : base < base + recsLen (kv :: rest) := by
      rw [recsLen_cons, lengths_size]
      omega
    rw [rangesAux, if_pos hlt]
    show (base + lengths_size, getU32 F base, base + lengths_size + getU32 F base,
        getU32 F (base + 4))
      :: rangesAux F (base + recsLen (kv :: rest))
          (base + lengths_size + getU32 F base + getU32 F (base + 4))
      = rangesModel base (kv :: rest)
    rw [hklen, hvlen, heod, rangesModel]
    rw [ih (base + lengths_size + kv.1.length + kv.2.length) rest2 hnext
      (fun x hx => hlens x (List.mem_cons_of_mem _ hx))]

theorem rangesModel_read (F : ByteSeq) :
    ∀ (items : List (ByteSeq × ByteSeq)) (base : Nat) (rest2 : ByteSeq),
      F.drop base = recordsCat items ++ rest2 →
      (∀ kv ∈ items, kv.1.length < 2 ^ 32 ∧ kv.2.length < 2 ^ 32) →
      (rangesModel base items).map
          (fun r => (readAt F r.1 r.2.1, readAt F r.2.2.1 r.2.2.2)) = items := by
  intro items
  induction items with
  | nil => intro base rest2 _ _; rfl
  | cons kv rest ih =>
    intro base rest2 hdrop hlens
    rw [recordsCat_cons, List.append_assoc] at hdrop
    have hmem : kv ∈ kv :: rest := List.mem_cons_self _ _
    obtain ⟨_, _, hkread, hvread, hnext⟩ :=
      record_reads F kv base (recordsCat rest ++ rest2) hdrop
        (hlens kv hmem).1 (hlens kv hmem).2
    rw [rangesModel, List.map_cons]
    rw [ih (base + lengths_size + kv.1.length + kv.2.length) rest2 hnext
      (fun x hx => hlens x (List.mem_cons_of_mem _ hx))]
    refine congrArg (fun p => p :: rest) ?_
    exact Prod.ext hkread hvread

/-- C10: for every file produced by `HashWriter.close`, including one with
zero records and files whose bucket 0 is empty, directory entry 0 stores
the end of the record region (`header_size` when no records were written),
so `_start_of_hashes` bounds the sequential walk exactly and
`items()`/`keys()`/`values()` visit exactly the written records. -/
theorem hashWriter_directory_iteration (items : List (ByteSeq × ByteSeq))
    (hvalid : ValidItems items) (F : ByteSeq)
    (hclose : (HashWriter.init.add_all items).close = some F) :
    start_of_hashes F = header_size + recsLen items ∧
    (items = [] → start_of_hashes F = header_size) ∧
    itemsOf F = items ∧
    keysOf F = items.map (·.1) ∧
    valuesOf F = items.map (·.2) := by
  have hF : F = closedFile items [] := by
    have h := hashWriter_close_eq items
    rw [hclose] at h
    exact Option.some.inj h
  subst hF
  obtain ⟨pos, t', hbuck, _, hdir⟩ := closedFile_bucket items [] hvalid 0 (by omega)
  have hpos : pos = header_size + recsLen items := by
    have h0 := hashDir_head items
    rw [hdir] at h0
    exact (Prod.mk.injEq _ _ _ _).mp h0 |>.1
  have hstart : start_of_hashes (closedFile items []) = header_size + recsLen items := by
    rw [start_of_hashes, hbuck, hpos]
  have hlens : ∀ kv ∈ items, kv.1.length < 2 ^ 32 ∧ kv.2.length < 2 ^ 32 :=
    fun kv hkv => ⟨(hvalid.1 kv hkv).2.1, (hvalid.1 kv hkv).2.2⟩
  have hranges : ranges (closedFile items []) = rangesModel header_size items := by
    rw [ranges, hstart]
    exact rangesAux_walk (closedFile items []) items header_size (hashZone items ++ [])
      (closedFile_drop_header items []) hlens
  have hitems : itemsOf (closedFile items []) = items := by
    rw [itemsOf, hranges]
    exact rangesModel_read (closedFile items []) items header_size (hashZone items ++ [])
      (closedFile_drop_header items []) hlens
  refine ⟨hstart, ?_, hitems, ?_, ?_⟩
  · intro hnil
    rw [hstart, hnil, recsLen]
    rfl
  · have hk : keysOf (closedFile items [])
        = (itemsOf (closedFile items [])).map (·.1) := by
      rw [keysOf, itemsOf, List.map_map]
      rfl
    rw [hk, hitems]
  · have hv : valuesOf (closedFile items [])
        = (itemsOf (closedFile items [])).map (·.2) := by
      rw [valuesOf, itemsOf, List.map_map]
      rfl
    rw [hv, hitems]

theorem hashWriter_directory_iteration_witness :
    start_of_hashes (closedFile [] []) = header_size ∧
    itemsOf (closedFile [] []) = [] ∧
    itemsOf (closedFile [([107], [1]), ([108], [2])] []) = [([107], [1]), ([108], [2])] := by
  have h1 := hashWriter_directory_iteration [] (by unfold ValidItems; decide)
    (closedFile [] []) (hashWriter_close_eq _)
  have h2 := hashWriter_directory_iteration [([107], [1]), ([108], [2])]
    (by unfold ValidItems; decide)
    (closedFile [([107], [1]), ([108], [2])] []) (hashWriter_close_eq _)
  exact ⟨h1.2.1 rfl, h1.2.2.1, h2.2.2.1⟩

theorem orderedAddLoop_spec (items : List (ByteSeq × ByteSeq)) :
    ∀ (w : OrderedHashWriter) (lk : Option ByteSeq),
      ((∃ w', orderedAddLoop w lk items = AddAllResult.keysOutOfOrder w') ↔
        chainIncreasing lk (items.map (·.1)) = false) ∧
      (∀ w', orderedAddLoop w lk items = AddAllResult.keysOutOfOrder w' →
        (∃ ext, w'.file = w.file ++ ext) ∧ w'.lastkey = w.lastkey) := by
  induction items with
  | nil =>
    intro w lk
    refine ⟨⟨?_, ?_⟩, ?_⟩
    · rintro ⟨w', hw'⟩
      rw [orderedAddLoop] at hw'
      exact AddAllResult.noConfusion hw'
    · intro hc
      simp [chainIncreasing] at hc
    · intro w' hw'
      rw [orderedAddLoop] at hw'
      exact AddAllResult.noConfusion hw'
  | cons kv rest ih =>
    intro w lk
    by_cases hle : leLastkey kv.1 lk
    · have hstep : orderedAddLoop w lk (kv :: rest) = AddAllResult.keysOutOfOrder w := by
        rw [orderedAddLoop, if_pos hle]
      have hchain : chainIncreasing lk ((kv :: rest).map (·.1)) = false := by
        rw [List.map_cons, chainIncreasing]
        simp [hle]
      refine ⟨⟨fun _ => hchain, fun _ => ⟨w, hstep⟩⟩, ?_⟩
      intro w' hw'
      rw [hstep] at hw'
      have heq : w = w' := AddAllResult.keysOutOfOrder.inj hw'
      subst heq
      exact ⟨⟨[], (List.append_nil _).symm⟩, rfl⟩
    · have hstep : orderedAddLoop w lk (kv :: rest)
          = orderedAddLoop
              { w with
                index := w.index ++ [w.file.length],
                file := w.file ++ recordBytes kv.1 kv.2,
                hashes := w.hashes ++ [(cdb_hash kv.1, w.file.length)] }
              (some kv.1) rest := by
        rw [orderedAddLoop, if_neg hle]
      have hchain : chainIncreasing lk ((kv :: rest).map (·.1))
          = chainIncreasing (some kv.1) (rest.map (·.1)) := by
        rw [List.map_cons, chainIncreasing]
        simp [hle]
      obtain ⟨ih1, ih2⟩ := ih
        { w with
          index := w.index ++ [w.file.length],
          file := w.file ++ recordBytes kv.1 kv.2,
          hashes := w.hashes ++ [(cdb_hash kv.1, w.file.length)] } (some kv.1)
      refine ⟨by rw [hstep, hchain]; exact ih1, ?_⟩
      intro w' hw'
      rw [hstep] at hw'
      obtain ⟨⟨ext, hext⟩, hlast⟩ := ih2 w' hw'
      refine ⟨⟨recordBytes kv.1 kv.2 ++ ext, ?_⟩, hlast⟩
      rw [hext]
      show w.file ++ recordBytes kv.1 kv.2 ++ ext
        = w.file ++ (recordBytes kv.1 kv.2 ++ ext)
      rw [List.append_assoc]

/-- C5: `OrderedHashWriter.add_all` fails with `KeysOutOfOrder` exactly when
some submitted key is byte-lexicographically ≤ the key accepted just before
it (equal-key resubmission included, `lastkey` seeding the chain); on the
raise the writer's `lastkey` is unchanged and the file has only grown by
record bytes, so a writer started from the fresh zero header has not been
finalized: the `"HASH"` magic written only by `close` is absent. -/
theorem orderedHashWriter_add_all_keysOutOfOrder (w : OrderedHashWriter)
    (items : List (ByteSeq × ByteSeq)) :
    ((∃ w', w.add_all items = AddAllResult.keysOutOfOrder w') ↔
      chainIncreasing w.lastkey (items.map (·.1)) = false) ∧
    ∀ w', w.add_all items = AddAllResult.keysOutOfOrder w' →
      (∃ ext, w'.file = w.file ++ ext) ∧ w'.lastkey = w.lastkey ∧
      (w.file = List.replicate header_size 0 →
        w'.file.take 4 = [0, 0, 0, 0] ∧ w'.file.take 4 ≠ hashMagic) := by
  obtain ⟨h1, h2⟩ := orderedAddLoop_spec items w w.lastkey
  refine ⟨h1, ?_⟩
  intro w' hw'
  obtain ⟨⟨ext, hext⟩, hlast⟩ := h2 w' hw'
  refine ⟨⟨ext, hext⟩, hlast, ?_⟩
  intro hfresh
  have h4 : w'.file.take 4 = [0, 0, 0, 0] := by
    rw [hext, hfresh, List.take_append_of_le_length (by rw [List.length_replicate]; norm_num [header_size, header_entry_size]),
      List.take_replicate]
    decide
  exact ⟨h4, by rw [h4]; decide⟩

theorem orderedHashWriter_add_all_keysOutOfOrder_witness :
    ∃ w', OrderedHashWriter.add_all
        { file := List.replicate header_size 0, hashes := [], index := [],
          lastkey := some [98] } [([97], [0])]
        = AddAllResult.keysOutOfOrder w'
      ∧ w'.file.take 4 = [0, 0, 0, 0] ∧ w'.file.take 4 ≠ hashMagic
      ∧ w'.lastkey = some [98] := by
  have h := orderedHashWriter_add_all_keysOutOfOrder
    { file := List.replicate header_size 0, hashes := [], index := [],
      lastkey := some [98] } [([97], [0])]
  obtain ⟨w', hw'⟩ := h.1.mpr (by decide)
  obtain ⟨_, hlast, hfresh⟩ := h.2 w' hw'
  exact ⟨w', hw', (hfresh rfl).1, (hfresh rfl).2, hlast⟩

/-- C9 counterexample: a known field whose stored byte for the document is
`0` (as the zero-filled arrays produce for documents without a recorded
length) does not decode to `byte_to_length 0`: the source's
`byte = lengths[fieldname][docnum] or default` replaces a zero byte by
`default` before decoding, giving `byte_to_length default`. -/
theorem lengthReader_get_zero_byte_cex :
    lookupLengths [([102], [0])] [102] = some [0] ∧
    LengthState.get ⟨1, [([102], [0])]⟩ 0 [102] 5 = byte_to_length 5 ∧
    LengthState.get ⟨1, [([102], [0])]⟩ 0 [102] 5 ≠ byte_to_length 0 := by
  decide

/-- C9 (amended): `LengthReader.get(docnum, fieldname, default)` returns
`default` unchanged when `fieldname` is not a known field; when the field
is known with stored byte `b` for `docnum` it returns `byte_to_length b`
for `b ≠ 0` but `byte_to_length default` for `b = 0`. -/
theorem lengthReader_get_spec (st : LengthState) (docnum : Nat) (fieldname : ByteSeq)
    (default : Nat) :
    (lookupLengths st.lengths fieldname = none →
      st.get docnum fieldname default = default) ∧
    ∀ arr, lookupLengths st.lengths fieldname = some arr →
      st.get docnum fieldname default
        = byte_to_length
            (if arr.getD docnum 0 = 0 then default else arr.getD docnum 0) := by
  constructor
  · intro h
    simp only [LengthState.get, h]
  · intro arr h
    simp only [LengthState.get, h]

theorem lengthReader_get_spec_witness :
    LengthState.get ⟨2, [([102], [0, 3])]⟩ 1 [102] 5 = byte_to_length 3 ∧
    LengthState.get ⟨2, [([102], [0, 3])]⟩ 0 [103] 5 = 5 := by
  have h := lengthReader_get_spec ⟨2, [([102], [0, 3])]⟩ 1 [102] 5
  have h2 := lengthReader_get_spec ⟨2, [([102], [0, 3])]⟩ 0 [103] 5
  constructor
  · rw [h.2 [0, 3] (by decide)]
    decide
  · exact h2.1 (by decide)

theorem natDec_natEncAux : ∀ (fuel n : Nat), n ≤ fuel → ∀ rest,
    natDec (natEncAux fuel n ++ rest) = some (n, rest) := by
  intro fuel
  induction fuel with
  | zero =>
    intro n hn rest
    have hn0 : n = 0 := by omega
    subst hn0
    rfl
  | succ f ih =>
    intro n hn rest
    rw [natEncAux]
    by_cases h : n < 128
    · rw [if_pos h, List.cons_append, natDec, if_pos h]
      rfl
    · rw [if_neg h, List.cons_append, natDec, if_neg (by omega)]
      rw [ih (n / 128) (by omega) rest]
      simp
      omega

theorem natDec_natEnc (n : Nat) : ∀ rest, natDec (natEnc n ++ rest) = some (n, rest) :=
  fun rest => natDec_natEncAux n n (Nat.le_refl n) rest

theorem natListDec_enc (l : List Nat) : ∀ rest,
    natListDec l.length ((l.map natEnc).flatten ++ rest) = some (l, rest) := by
  induction l with
  | nil => intro rest; rfl
  | cons x xs ih =>
    intro rest
    rw [List.map_cons, List.flatten_cons, List.append_assoc, List.length_cons, natListDec,
      natDec_natEnc x]
    rw [Option.some_bind, ih rest]
    rfl

theorem tupleLoads_body (l : List Nat) : tupleLoads (tupleBody l ++ [46]) = some l := by
  rw [tupleBody, tupleLoads, List.append_assoc, natDec_natEnc, Option.some_bind,
    natListDec_enc l [46]]
  rfl

theorem getD_of_drop {f : ByteSeq} {p b : Nat} {t : ByteSeq} (h : f.drop p = b :: t) :
    f.getD p 0 = b := by
  have h2 : f[p]? = some b := by
    have h3 := List.getElem?_drop f p 0
    rw [h] at h3
    simpa using h3.symm
  rw [List.getD_eq_getElem?_getD, h2]
  rfl

theorem decInt64_packInt64 (p : Int) (hlo : -(2 ^ 63) ≤ p) (hhi : p < 2 ^ 63) :
    decInt64 (packInt64 p) = p := by
  have hmod0 : 0 ≤ p % 2 ^ 64 := Int.emod_nonneg p (by norm_num)
  have hmodlt : p % 2 ^ 64 < 2 ^ 64 := Int.emod_lt_of_pos p (by norm_num)
  have htn : (p % 2 ^ 64).toNat < 2 ^ 64 := by omega
  simp only [decInt64, packInt64]
  rw [decBE_beBytes_of_lt htn]
  split
  · omega
  · omega

theorem from_string_parse (hb w df b1 b2 xw xwol : Nat) (suffix : ByteSeq)
    (hhb : hb < 2) (hw : w < 2 ^ 32) (hdf : df < 2 ^ 32)
    (hxw : xw < 2 ^ 32) (hxwol : xwol < 2 ^ 32) :
    TermInfo.from_string (hb :: (beBytes 4 w ++ beBytes 4 df ++ [b1] ++ [b2]
        ++ beBytes 4 xw ++ beBytes 4 xwol ++ suffix))
      = if hb = 0 then
          (if suffix.length = 8 then
            some ⟨w, df, byte_to_length b1, byte_to_length b2, xw, xwol,
              Postings.poffset (decInt64 suffix)⟩
          else none)
        else
          (tupleLoads (suffix ++ [46])).map
            (fun l => ⟨w, df, byte_to_length b1, byte_to_length b2, xw, xwol,
              Postings.ptuple l⟩) := by
  have h0 : (hb :: (beBytes 4 w ++ beBytes 4 df ++ [b1] ++ [b2]
      ++ beBytes 4 xw ++ beBytes 4 xwol ++ suffix)).drop 1
      = beBytes 4 w ++ (beBytes 4 df ++ ([b1] ++ ([b2]
          ++ (beBytes 4 xw ++ (beBytes 4 xwol ++ suffix))))) := by
    simp [List.append_assoc]
  have hr1 := readAt_of_drop_prefix h0
  rw [beBytes_length] at hr1
  have h5 := drop_shift h0
  rw [beBytes_length, show (1 : Nat) + 4 = 5 from rfl] at h5
  have hr5 := readAt_of_drop_prefix h5
  rw [beBytes_length] at hr5
  have h9 := drop_shift h5
  rw [beBytes_length, show (5 : Nat) + 4 = 9 from rfl] at h9
  have hgd9 : (hb :: (beBytes 4 w ++ beBytes 4 df ++ [b1] ++ [b2]
      ++ beBytes 4 xw ++ beBytes 4 xwol ++ suffix)).getD 9 0 = b1 := getD_of_drop h9
  have h10 := drop_shift h9
  rw [List.length_singleton, show (9 : Nat) + 1 = 10 from rfl] at h10
  have hgd10 : (hb :: (beBytes 4 w ++ beBytes 4 df ++ [b1] ++ [b2]
      ++ beBytes 4 xw ++ beBytes 4 xwol ++ suffix)).getD 10 0 = b2 := getD_of_drop h10
  have h11 := drop_shift h10
  rw [List.length_singleton, show (10 : Nat) + 1 = 11 from rfl] at h11
  have hr11 := readAt_of_drop_prefix h11
  rw [beBytes_length] at hr11
  have h15 := drop_shift h11
  rw [beBytes_length, show (11 : Nat) + 4 = 15 from rfl] at h15
  have hr15 := readAt_of_drop_prefix h15
  rw [beBytes_length] at hr15
  have h19 := drop_shift h15
  rw [beBytes_length, show (15 : Nat) + 4 = 19 from rfl] at h19
  simp only [TermInfo.from_string]
  rw [if_pos hhb]
  rw [if_neg (by
    simp only [List.length_cons, List.length_append, beBytes_length, List.length_singleton]
    omega)]
  rw [hr1, hr5, hgd9, hgd10, hr11, hr15, h19]
  rw [decBE_beBytes_of_lt hw, decBE_beBytes_of_lt hdf, decBE_beBytes_of_lt hxw,
    decBE_beBytes_of_lt hxwol]

set_option maxRecDepth 4000 in
/-- C3 counterexample: the encoding is not the identity on round-trip.
A `TermInfo` with `postings = None` decodes with `postings` equal to the
integer offset `-1` (`to_string` writes `pack_long(-1)` for `None` and
`from_string` never maps it back), and a `minlength` that is not a fixed
point of the lossy one-byte length codec comes back changed. -/
theorem termInfo_roundtrip_cex :
    TermInfo.from_string (TermInfo.to_string ⟨1, 1, 4, 8, 1, 1, Postings.pnone⟩)
      = some ⟨1, 1, 4, 8, 1, 1, Postings.poffset (-1)⟩ ∧
    TermInfo.from_string (TermInfo.to_string ⟨1, 1, 4, 8, 1, 1, Postings.pnone⟩)
      ≠ some ⟨1, 1, 4, 8, 1, 1, Postings.pnone⟩ ∧
    TermInfo.from_string (TermInfo.to_string ⟨1, 1, 3, 8, 1, 1, Postings.poffset 0⟩)
      ≠ some ⟨1, 1, 3, 8, 1, 1, Postings.poffset 0⟩ := by
  decide

/-- C3 (amended): decoding the encoding reproduces `weight`, `doc_freq`,
`max_weight` and `max_wol` exactly (as stored 32-bit words), sends the
length fields through the lossy codec (`byte_to_length ∘ length_to_byte`),
round-trips an in-range integer `postings` offset and a tuple `postings`
structurally, and turns `postings = None` into the offset `-1`. -/
theorem termInfo_roundtrip (ti : TermInfo)
    (hw : ti.weight < 2 ^ 32) (hdf : ti.docfreq < 2 ^ 32)
    (hxw : ti.maxweight < 2 ^ 32) (hxwol : ti.maxwol < 2 ^ 32)
    (hpost : match ti.postings with
      | Postings.pnone => True
      | Postings.poffset p => -(2 ^ 63) ≤ p ∧ p < 2 ^ 63
      | Postings.ptuple _ => True) :
    TermInfo.from_string (TermInfo.to_string ti)
      = some ⟨ti.weight, ti.docfreq,
          byte_to_length (length_to_byte ti.minlength),
          byte_to_length (length_to_byte ti.maxlength),
          ti.maxweight, ti.maxwol,
          match ti.postings with
          | Postings.pnone => Postings.poffset (-1)
          | Postings.poffset p => Postings.poffset p
          | Postings.ptuple l => Postings.ptuple l⟩ := by
  obtain ⟨w, df, ml, xl, xw, xwol, post⟩ := ti
  cases post with
  | pnone =>
    rw [show TermInfo.to_string ⟨w, df, ml, xl, xw, xwol, Postings.pnone⟩
        = 0 :: (beBytes 4 w ++ beBytes 4 df ++ [length_to_byte ml] ++ [length_to_byte xl]
            ++ beBytes 4 xw ++ beBytes 4 xwol ++ packInt64 (-1)) from rfl]
    rw [from_string_parse 0 w df (length_to_byte ml) (length_to_byte xl) xw xwol
      (packInt64 (-1)) (by omega) hw hdf hxw hxwol]
    rw [if_pos rfl, if_pos (by rw [packInt64, beBytes_length])]
    rw [decInt64_packInt64 (-1) (by norm_num) (by norm_num)]
  | poffset p =>
    rw [show TermInfo.to_string ⟨w, df, ml, xl, xw, xwol, Postings.poffset p⟩
        = 0 :: (beBytes 4 w ++ beBytes 4 df ++ [length_to_byte ml] ++ [length_to_byte xl]
            ++ beBytes 4 xw ++ beBytes 4 xwol ++ packInt64 p) from rfl]
    rw [from_string_parse 0 w df (length_to_byte ml) (length_to_byte xl) xw xwol
      (packInt64 p) (by omega) hw hdf hxw hxwol]
    rw [if_pos rfl, if_pos (by rw [packInt64, beBytes_length])]
    rw [decInt64_packInt64 p hpost.1 hpost.2]
  | ptuple l =>
    rw [show TermInfo.to_string ⟨w, df, ml, xl, xw, xwol, Postings.ptuple l⟩
        = 1 :: (beBytes 4 w ++ beBytes 4 df ++ [length_to_byte ml] ++ [length_to_byte xl]
            ++ beBytes 4 xw ++ beBytes 4 xwol ++ tupleBody l) from rfl]
    rw [from_string_parse 1 w df (length_to_byte ml) (length_to_byte xl) xw xwol
      (tupleBody l) (by omega) hw hdf hxw hxwol]
    rw [if_neg (by omega), tupleLoads_body]
    rfl

theorem termInfo_roundtrip_witness :
    TermInfo.from_string (TermInfo.to_string ⟨1, 2, 4, 8, 3, 5, Postings.ptuple [1, 2, 3]⟩)
      = some ⟨1, 2, 4, 8, 3, 5, Postings.ptuple [1, 2, 3]⟩ ∧
    TermInfo.from_string
        (TermInfo.to_string ⟨1, 7, 4, 44, 2, 0, Postings.poffset 123456789⟩)
      = some ⟨1, 7, 4, 44, 2, 0, Postings.poffset 123456789⟩ := by
  have h1 := termInfo_roundtrip ⟨1, 2, 4, 8, 3, 5, Postings.ptuple [1, 2, 3]⟩
    (by decide) (by decide) (by decide) (by decide) trivial
  have h2 := termInfo_roundtrip ⟨1, 7, 4, 44, 2, 0, Postings.poffset 123456789⟩
    (by decide) (by decide) (by decide) (by decide) (by decide)
  constructor
  · rw [h1]
    decide
  · rw [h2]
    decide

theorem bytesDec_bytesEnc (s rest : ByteSeq) :
    bytesDec (bytesEnc s ++ rest) = some (s, rest) := by
  rw [bytesEnc, bytesDec, List.append_assoc, natDec_natEnc, Option.some_bind]
  rw [if_pos (by simp)]
  rw [List.take_left, List.drop_left]

theorem pvDec_enc (v : PValue) : ∀ (fuel : Nat), pvSize v ≤ fuel →
    ∀ rest, pvDec fuel (pvBody v ++ rest) = some (v, rest) := by
  induction v with
  | pvnone =>
    intro fuel hf rest
    cases fuel with
    | zero =>
      have h1 : (1 : Nat) ≤ 0 := hf
      omega
    | succ f => rfl
  | pvnat n =>
    intro fuel hf rest
    cases fuel with
    | zero =>
      have h1 : (1 : Nat) ≤ 0 := hf
      omega
    | succ f =>
      show (natDec (natEnc n ++ rest)).map (fun r => (PValue.pvnat r.1, r.2))
        = some (PValue.pvnat n, rest)
      rw [natDec_natEnc]
      rfl
  | pvbytes s =>
    intro fuel hf rest
    cases fuel with
    | zero =>
      have h1 : (1 : Nat) ≤ 0 := hf
      omega
    | succ f =>
      show (bytesDec (bytesEnc s ++ rest)).map (fun r => (PValue.pvbytes r.1, r.2))
        = some (PValue.pvbytes s, rest)
      rw [bytesDec_bytesEnc]
      rfl
  | pvpair name v ih =>
    intro fuel hf rest
    cases fuel with
    | zero =>
      have h1 : pvSize v + 1 ≤ 0 := hf
      omega
    | succ f =>
      show (bytesDec ((bytesEnc name ++ pvBody v) ++ rest)).bind
          (fun r => (pvDec f r.2).map (fun q => (PValue.pvpair r.1 q.1, q.2)))
        = some (PValue.pvpair name v, rest)
      rw [List.append_assoc, bytesDec_bytesEnc, Option.some_bind]
      rw [ih f (by have h1 : pvSize v + 1 ≤ f + 1 := hf; omega) rest]
      rfl

theorem pvListDec_enc (fuel : Nat) : ∀ (l : List PValue), (∀ v ∈ l, pvSize v ≤ fuel) →
    ∀ rest, pvListDec fuel l.length ((l.map pvBody).flatten ++ rest) = some (l, rest) := by
  intro l
  induction l with
  | nil => intro _ rest; rfl
  | cons x xs ih =>
    intro hf rest
    rw [List.map_cons, List.flatten_cons, List.append_assoc, List.length_cons, pvListDec,
      pvDec_enc x fuel (hf x (List.mem_cons_self _ _)), Option.some_bind,
      ih (fun v hv => hf v (List.mem_cons_of_mem _ hv)) rest]
    rfl

theorem natEnc_length_pos (n : Nat) : 0 < (natEnc n).length := by
  rw [natEnc]
  cases n with
  | zero => rw [natEncAux]; simp
  | succ m =>
    rw [natEncAux]
    split <;> simp

theorem pvSize_le_body (v : PValue) : pvSize v ≤ (pvBody v).length := by
  induction v with
  | pvnone => exact Nat.le_refl 1
  | pvnat n =>
    show 1 ≤ (1 :: natEnc n).length
    simp
  | pvbytes s =>
    show 1 ≤ (2 :: bytesEnc s).length
    simp
  | pvpair name v ih =>
    show pvSize v + 1 ≤ (3 :: (bytesEnc name ++ pvBody v)).length
    have h1 : 0 < (bytesEnc name).length := by
      rw [bytesEnc, List.length_append]
      have := natEnc_length_pos name.length
      omega
    simp only [List.length_cons, List.length_append]
    omega

theorem vlistLoads_body (l : List PValue) : vlistLoads (vlistBody l ++ [46]) = some l := by
  have hfuel : ∀ v ∈ l,
      pvSize v ≤ (natEnc l.length ++ ((l.map pvBody).flatten ++ [46])).length := by
    intro v hv
    have h1 : (pvBody v).length ≤ ((l.map pvBody).map List.length).sum := by
      apply List.single_le_sum (by intro x _; omega)
      exact List.mem_map.mpr ⟨pvBody v, List.mem_map.mpr ⟨v, hv, rfl⟩, rfl⟩
    have h2 := pvSize_le_body v
    simp only [List.length_append, List.length_flatten, List.length_singleton]
    omega
  rw [vlistLoads, show vlistBody l ++ [46]
      = natEnc l.length ++ ((l.map pvBody).flatten ++ [46]) from by
        rw [vlistBody, List.append_assoc]]
  rw [natDec_natEnc, Option.some_bind, pvListDec_enc _ l hfuel [46], Option.some_bind]

theorem dictEntriesDec_enc (m : List (ByteSeq × Nat)) :
    ∀ rest, dictEntriesDec m.length
        ((m.map (fun e => bytesEnc e.1 ++ natEnc e.2)).flatten ++ rest) = some (m, rest) := by
  induction m with
  | nil => intro rest; rfl
  | cons e ms ih =>
    intro rest
    rw [List.map_cons, List.flatten_cons, List.append_assoc, List.length_cons,
      dictEntriesDec, List.append_assoc, bytesDec_bytesEnc, Option.some_bind,
      natDec_natEnc, Option.some_bind, ih rest]
    rfl

theorem dictLoads_pickle (m : List (ByteSeq × Nat)) (rest : ByteSeq) :
    dictLoads (dictPickle m ++ rest) = some (m, rest) := by
  rw [dictPickle, List.cons_append, List.cons_append, dictLoads, dictBody]
  rw [List.append_assoc, List.append_assoc, natDec_natEnc, Option.some_bind]
  rw [show ([46] : ByteSeq) ++ rest = 46 :: rest from rfl, dictEntriesDec_enc m (46 :: rest),
    Option.some_bind]

theorem sfAppend_fold (docs : List (List (ByteSeq × PValue))) :
    ∀ (w : StoredFieldWriter),
      docs.foldl StoredFieldWriter.append w
        = { file := w.file ++ sfBlobs w.name_map docs,
            length := w.length + docs.length,
            directory := w.directory ++ sfDirFrom w.name_map w.file.length docs,
            name_map := w.name_map } := by
  induction docs with
  | nil =>
    intro w
    simp [sfBlobs, sfDirFrom]
  | cons vs rest ih =>
    intro w
    rw [List.foldl_cons]
    rw [show StoredFieldWriter.append w vs
        = { file := w.file ++ vlistBody (buildVlist w.name_map vs),
            length := w.length + 1,
            directory := w.directory
              ++ [pack_stored_pointer w.file.length
                    (vlistBody (buildVlist w.name_map vs)).length],
            name_map := w.name_map } from rfl]
    rw [ih]
    simp only [sfBlobs, sfDirFrom, List.map_cons, List.flatten_cons, List.length_cons,
      List.length_append, StoredFieldWriter.mk.injEq]
    refine ⟨by rw [List.append_assoc], by omega,
      by rw [List.append_assoc, List.singleton_append], trivial⟩

theorem sfClose_eq (fieldnames : List ByteSeq) (docs : List (List (ByteSeq × PValue))) :
    (docs.foldl StoredFieldWriter.append (StoredFieldWriter.init fieldnames)).close
      = sfFile fieldnames docs := by
  rw [sfAppend_fold docs (StoredFieldWriter.init fieldnames)]
  simp only [StoredFieldWriter.close, StoredFieldWriter.init, List.nil_append]
  have h12 : (beBytes 8 0 ++ beBytes 4 0).length = 12 := by
    rw [List.length_append, beBytes_length, beBytes_length]
  rw [List.length_append, h12, Nat.zero_add]
  have hdropB : ∀ X Y Z : ByteSeq,
      ((beBytes 8 0 ++ beBytes 4 0 ++ X) ++ Y ++ Z).drop 12 = X ++ Y ++ Z :=
    fun X Y Z => rfl
  rw [hdropB, sfFile, sfNameMap]
  simp only [List.append_assoc]

theorem sfFile_shape (fieldnames : List ByteSeq) (docs : List (List (ByteSeq × PValue))) :
    (sfFile fieldnames docs).drop 0
      = beBytes 8 (12 + (sfBlobs (sfNameMap fieldnames) docs).length)
        ++ (beBytes 4 docs.length
          ++ (sfBlobs (sfNameMap fieldnames) docs
            ++ (dictPickle (sfNameMap fieldnames)
              ++ (sfDirFrom (sfNameMap fieldnames) 12 docs).flatten))) := by
  rw [List.drop_zero, sfFile]
  simp [List.append_assoc]

theorem sfReader_init_eq (fieldnames : List ByteSeq) (docs : List (List (ByteSeq × PValue)))
    (hvalid : SFValid fieldnames docs) :
    StoredFieldReader.init (sfFile fieldnames docs) = some (sfReaderOf fieldnames docs) := by
  obtain ⟨hnodup, hdnodup, hcount, hblen, htot⟩ := hvalid
  have h0 := sfFile_shape fieldnames docs
  have hdirpos : getU64 (sfFile fieldnames docs) 0
      = 12 + (sfBlobs (sfNameMap fieldnames) docs).length :=
    getU64_of_drop' h0 (by omega)
  have h8 := drop_shift h0
  rw [beBytes_length, show (0 : Nat) + 8 = 8 from rfl] at h8
  have hcount8 : getU32 (sfFile fieldnames docs) 8 = docs.length := getU32_of_drop' h8 hcount
  have h12 := drop_shift h8
  rw [beBytes_length, show (8 : Nat) + 4 = 12 from rfl] at h12
  have hpickle := drop_shift h12
  have hload : dictLoads ((sfFile fieldnames docs).drop
      (12 + (sfBlobs (sfNameMap fieldnames) docs).length))
      = some (sfNameMap fieldnames, (sfDirFrom (sfNameMap fieldnames) 12 docs).flatten) := by
    rw [hpickle]
    exact dictLoads_pickle _ _
  have hflen : (sfFile fieldnames docs).length
      = 12 + (sfBlobs (sfNameMap fieldnames) docs).length
        + (dictPickle (sfNameMap fieldnames)).length
        + ((sfDirFrom (sfNameMap fieldnames) 12 docs).flatten).length := by
    rw [sfFile]
    simp only [List.length_append, beBytes_length]
    omega
  rw [StoredFieldReader.init, hdirpos, dictLoadsAt, hload]
  simp only [Option.map_some']
  refine congrArg some ?_
  have hdoff : (sfFile fieldnames docs).length
      - ((sfDirFrom (sfNameMap fieldnames) 12 docs).flatten).length
      = 12 + (sfBlobs (sfNameMap fieldnames) docs).length
        + (dictPickle (sfNameMap fieldnames)).length := by
    rw [hflen]
    omega
  rw [sfReaderOf, hcount8, hdoff]

theorem pack_stored_pointer_length (o l : Nat) : (pack_stored_pointer o l).length = 12 := by
  rw [pack_stored_pointer, List.length_append, beBytes_length, beBytes_length]

theorem sfDirFrom_length (nm : List (ByteSeq × Nat)) :
    ∀ (docs : List (List (ByteSeq × PValue))) (base : Nat),
      (sfDirFrom nm base docs).length = docs.length := by
  intro docs
  induction docs with
  | nil => intro base; rfl
  | cons vs rest ih =>
    intro base
    rw [sfDirFrom, List.length_cons, ih, List.length_cons]

theorem sfDirFrom_chunks (nm : List (ByteSeq × Nat)) :
    ∀ (docs : List (List (ByteSeq × PValue))) (base : Nat),
      ∀ x ∈ sfDirFrom nm base docs, x.length = 12 := by
  intro docs
  induction docs with
  | nil => intro base x hx; exact absurd hx (List.not_mem_nil x)
  | cons vs rest ih =>
    intro base x hx
    rw [sfDirFrom] at hx
    rcases List.mem_cons.mp hx with h | h
    · rw [h, pack_stored_pointer_length]
    · exact ih _ x h

theorem sfDirFrom_getD (nm : List (ByteSeq × Nat)) :
    ∀ (docs : List (List (ByteSeq × PValue))) (i base : Nat), i < docs.length →
      (sfDirFrom nm base docs).getD i []
        = pack_stored_pointer (base + (sfBlobs nm (docs.take i)).length)
            (vlistBody (buildVlist nm (docs.getD i []))).length := by
  intro docs
  induction docs with
  | nil => intro i base h; simp at h
  | cons vs rest ih =>
    intro i base h
    match i with
    | 0 =>
      rw [sfDirFrom, List.getD_cons_zero, List.take_zero, List.getD_cons_zero]
      rw [show sfBlobs nm [] = [] from rfl, List.length_nil, Nat.add_zero]
    | i + 1 =>
      have hi : i < rest.length := by
        rw [List.length_cons] at h
        omega
      rw [sfDirFrom, List.getD_cons_succ, ih i _ hi, List.take_succ_cons,
        List.getD_cons_succ]
      congr 1
      simp only [sfBlobs, List.map_cons, List.flatten_cons, List.length_append]
      omega

theorem sfBlobs_split (nm : List (ByteSeq × Nat)) :
    ∀ (docs : List (List (ByteSeq × PValue))) (i : Nat), i < docs.length →
      sfBlobs nm docs = sfBlobs nm (docs.take i)
        ++ (vlistBody (buildVlist nm (docs.getD i []))
            ++ sfBlobs nm (docs.drop (i + 1))) := by
  intro docs
  induction docs with
  | nil => intro i h; simp at h
  | cons vs rest ih =>
    intro i h
    match i with
    | 0 =>
      rw [List.take_zero, List.getD_cons_zero, List.drop_one]
      rw [show sfBlobs nm [] = [] from rfl, List.nil_append]
      rw [sfBlobs, List.map_cons, List.flatten_cons]
      rfl
    | i + 1 =>
      have hi : i < rest.length := by
        rw [List.length_cons] at h
        omega
      rw [List.take_succ_cons, List.getD_cons_succ, List.drop_succ_cons]
      rw [show sfBlobs nm (vs :: rest)
          = vlistBody (buildVlist nm vs) ++ sfBlobs nm rest from by
        rw [sfBlobs, sfBlobs, List.map_cons, List.flatten_cons]]
      rw [show sfBlobs nm (vs :: rest.take i)
          = vlistBody (buildVlist nm vs) ++ sfBlobs nm (rest.take i) from by
        rw [sfBlobs, sfBlobs, List.map_cons, List.flatten_cons]]
      rw [ih i hi, List.append_assoc]

theorem decInt64_beBytes_of_lt {n : Nat} (h : n < 2 ^ 63) :
    decInt64 (beBytes 8 n) = (n : Int) := by
  simp only [decInt64]
  rw [decBE_beBytes_of_lt (by omega), if_pos h]

theorem pySlice_readAt (f : ByteSeq) (a len : Nat) (hab : a + len ≤ f.length) :
    pySlice f (a : Int) ((a : Int) + (len : Int)) = readAt f a len := by
  simp only [pySlice]
  rw [if_neg (by omega), if_neg (by omega)]
  have h1 : (min (a : Int) (f.length : Int)).toNat = a := by omega
  have h2 : (min ((a : Int) + (len : Int)) (f.length : Int)).toNat = a + len := by omega
  rw [h1, h2, readAt]
  congr 1
  omega

theorem set_append_left {α : Type} (l₂ : List α) (a : α) :
    ∀ (l₁ : List α) (n : Nat), n < l₁.length → (l₁ ++ l₂).set n a = l₁.set n a ++ l₂ := by
  intro l₁
  induction l₁ with
  | nil => intro n h; simp at h
  | cons x xs ih =>
    intro n h
    match n with
    | 0 => rfl
    | n + 1 =>
      rw [List.cons_append, List.set_cons_succ, List.set_cons_succ, List.cons_append,
        ih n (by rw [List.length_cons] at h; omega)]

theorem getD_set' {α : Type} (T : List α) (j m : Nat) (e d : α) (hm : m < T.length) :
    (T.set j e).getD m d = if j = m then e else T.getD m d := by
  rw [List.getD_eq_getElem _ _ (by simpa using hm), List.getElem_set]
  split
  · rfl
  · rw [List.getD_eq_getElem _ _ hm]

theorem getD_append_left {α : Type} (l₁ l₂ : List α) (n : Nat) (d : α) (h : n < l₁.length) :
    (l₁ ++ l₂).getD n d = l₁.getD n d := by
  rw [List.getD_eq_getElem _ _ (by rw [List.length_append]; omega),
    List.getD_eq_getElem _ _ h, List.getElem_append_left]

theorem foldl_set_length (l : List (ByteSeq × Nat)) :
    ∀ acc : List (Option ByteSeq),
      (l.foldl (fun names e => names.set e.2 (some e.1)) acc).length = acc.length := by
  induction l with
  | nil => intro acc; rfl
  | cons e es ih =>
    intro acc
    rw [List.foldl_cons, ih, List.length_set]

theorem buildNames_length (nm : List (ByteSeq × Nat)) :
    (buildNames nm).length = nm.length := by
  rw [buildNames, foldl_set_length, List.length_replicate]

theorem buildVlist_length_ge (nm : List (ByteSeq × Nat)) :
    ∀ (values : List (ByteSeq × PValue)) (acc : List PValue),
      acc.length ≤ (values.foldl
        (fun vlist kv =>
          match assocFind nm kv.1 with
          | some i => vlist.set i kv.2
          | none => vlist ++ [PValue.pvpair kv.1 kv.2]) acc).length := by
  intro values
  induction values with
  | nil => intro acc; exact Nat.le_refl _
  | cons kv rest ih =>
    intro acc
    rw [List.foldl_cons]
    cases hfind : assocFind nm kv.1 with
    | some i =>
      have := ih (acc.set i kv.2)
      rw [List.length_set] at this
      simpa [hfind] using this
    | none =>
      have := ih (acc ++ [PValue.pvpair kv.1 kv.2])
      rw [List.length_append] at this
      have h2 : acc.length ≤ acc.length + [PValue.pvpair kv.1 kv.2].length := by omega
      calc acc.length ≤ _ := h2
        _ ≤ _ := by simpa [hfind] using this

theorem assocFind_enumFrom_some (fns : List ByteSeq) :
    ∀ (n : Nat) (k : ByteSeq) (j : Nat),
      assocFind ((fns.enumFrom n).map (fun p => (p.2, p.1))) k = some j →
      n ≤ j ∧ j - n < fns.length ∧ fns.getD (j - n) [] = k := by
  induction fns with
  | nil => intro n k j h; exact absurd h (by simp [assocFind])
  | cons x xs ih =>
    intro n k j h
    rw [List.enumFrom_cons, List.map_cons, assocFind, List.find?_cons] at h
    by_cases hxk : (x == k) = true
    · simp only [hxk, Option.map_some'] at h
      have hj : n = j := Option.some.inj h
      subst hj
      refine ⟨Nat.le_refl _, by simp, ?_⟩
      rw [Nat.sub_self, List.getD_cons_zero]
      simpa using hxk
    · rw [Bool.not_eq_true] at hxk
      simp only [hxk] at h
      obtain ⟨h1, h2, h3⟩ := ih (n + 1) k j h
      refine ⟨by omega, by rw [List.length_cons]; omega, ?_⟩
      have hjn : j - n = (j - (n + 1)) + 1 := by omega
      rw [hjn, List.getD_cons_succ]
      exact h3

theorem assocFind_enumFrom_self (fns : List ByteSeq) (hnodup : fns.Nodup) :
    ∀ (n j : Nat), j < fns.length →
      assocFind ((fns.enumFrom n).map (fun p => (p.2, p.1))) (fns.getD j []) = some (n + j) := by
  induction fns with
  | nil => intro n j h; simp at h
  | cons x xs ih =>
    intro n j hj
    rw [List.enumFrom_cons, List.map_cons]
    match j with
    | 0 =>
      rw [List.getD_cons_zero, assocFind, List.find?_cons]
      simp only [beq_self_eq_true, Option.map_some']
      rw [Nat.add_zero]
    | j + 1 =>
      have hjx : j < xs.length := by
        rw [List.length_cons] at hj
        omega
      have hmem : xs.getD j [] ∈ xs := by
        rw [List.getD_eq_getElem _ _ hjx]
        exact List.getElem_mem hjx
      have hxne : x ≠ xs.getD j [] := by
        intro hc
        exact (List.nodup_cons.mp hnodup).1 (hc ▸ hmem)
      have hbeq : (x == xs.getD j []) = false := by
        simpa using hxne
      rw [List.getD_cons_succ, assocFind, List.find?_cons]
      simp only [hbeq]
      have hrec := ih (List.nodup_cons.mp hnodup).2 (n + 1) j hjx
      rw [assocFind] at hrec
      rw [hrec, show n + 1 + j = n + (j + 1) from by omega]

theorem sfNameMap_find_some {fns : List ByteSeq} {k : ByteSeq} {j : Nat}
    (h : assocFind (sfNameMap fns) k = some j) :
    j < fns.length ∧ fns.getD j [] = k := by
  rw [sfNameMap, List.enum] at h
  obtain ⟨_, h2, h3⟩ := assocFind_enumFrom_some fns 0 k j h
  rw [Nat.sub_zero] at h2 h3
  exact ⟨h2, h3⟩

theorem sfNameMap_find_self {fns : List ByteSeq} (hnodup : fns.Nodup) {j : Nat}
    (hj : j < fns.length) :
    assocFind (sfNameMap fns) (fns.getD j []) = some j := by
  rw [sfNameMap, List.enum]
  have := assocFind_enumFrom_self fns hnodup 0 j hj
  rwa [Nat.zero_add] at this

theorem sfNameMap_find_none {fns : List ByteSeq} {k : ByteSeq} (hnodup : fns.Nodup) :
    assocFind (sfNameMap fns) k = none ↔ fns.contains k = false := by
  constructor
  · intro h
    by_contra hc
    have hk : k ∈ fns := by
      simpa using Bool.of_not_eq_false hc
    obtain ⟨j, hj, hje⟩ := List.getElem_of_mem hk
    have := sfNameMap_find_self hnodup hj
    rw [List.getD_eq_getElem _ _ hj, hje, h] at this
    exact Option.noConfusion this
  · intro h
    cases hfind : assocFind (sfNameMap fns) k with
    | none => rfl
    | some j =>
      obtain ⟨hj, hje⟩ := sfNameMap_find_some hfind
      have hk : k ∈ fns := by
        rw [← hje, List.getD_eq_getElem _ _ hj]
        exact List.getElem_mem hj
      have hc : fns.contains k = true := List.elem_eq_true_of_mem hk
      rw [hc] at h
      exact Bool.noConfusion h

theorem sfNameMap_length (fns : List ByteSeq) : (sfNameMap fns).length = fns.length := by
  rw [sfNameMap, List.length_map, List.enum_length]

theorem foldl_enumFrom_set :
    ∀ (fns : List ByteSeq) (k : Nat) (acc : List (Option ByteSeq)),
      k + fns.length ≤ acc.length →
      ((fns.enumFrom k).map (fun p => (p.2, p.1))).foldl
          (fun names e => names.set e.2 (some e.1)) acc
        = acc.take k ++ fns.map some ++ acc.drop (k + fns.length) := by
  intro fns
  induction fns with
  | nil =>
    intro k acc hk
    rw [show ((List.enumFrom k ([] : List ByteSeq)).map (fun p => (p.2, p.1))) = [] from rfl,
      List.foldl_nil, List.map_nil, List.append_nil]
    rw [show k + ([] : List ByteSeq).length = k from by simp, List.take_append_drop]
  | cons x xs ih =>
    intro k acc hk
    rw [List.length_cons] at hk
    have hk1 : k < acc.length := by omega
    rw [List.enumFrom_cons, List.map_cons, List.foldl_cons]
    have hstep : acc.set ((k, x).2, (k, x).1).2 (some ((k, x).2, (k, x).1).1)
        = acc.set k (some x) := rfl
    rw [hstep]
    rw [ih (k + 1) (acc.set k (some x)) (by rw [List.length_set]; omega)]
    have hset : acc.set k (some x) = acc.take k ++ some x :: acc.drop (k + 1) := by
      rw [List.set_eq_take_append_cons_drop, if_pos hk1]
    have hlen : (acc.take k).length = k := by
      rw [List.length_take]
      omega
    have htake : (acc.set k (some x)).take (k + 1) = acc.take k ++ [some x] := by
      rw [hset, List.take_append_eq_append_take,
        List.take_of_length_le (by rw [hlen]; omega), hlen, Nat.add_sub_cancel_left]
      rfl
    have hdrop : (acc.set k (some x)).drop (k + 1 + xs.length)
        = acc.drop (k + (xs.length + 1)) := by
      rw [hset, List.drop_append_eq_append_drop,
        List.drop_eq_nil_of_le (by rw [hlen]; omega), List.nil_append, hlen,
        show k + 1 + xs.length - k = xs.length + 1 from by omega, List.drop_succ_cons,
        List.drop_drop]
      congr 1
      omega
    rw [htake, hdrop, List.map_cons, List.length_cons]
    simp only [List.append_assoc, List.singleton_append, List.cons_append, List.nil_append]

theorem buildNames_sfNameMap (fns : List ByteSeq) :
    buildNames (sfNameMap fns) = fns.map some := by
  rw [buildNames, sfNameMap_length, sfNameMap, List.enum]
  rw [foldl_enumFrom_set fns 0 (List.replicate fns.length none)
    (by rw [List.length_replicate]; omega)]
  rw [List.take_zero, List.nil_append, Nat.zero_add,
    List.drop_eq_nil_of_le (by rw [List.length_replicate]), List.append_nil]

theorem applyFixed_length (nm : List (ByteSeq × Nat)) :
    ∀ (values : List (ByteSeq × PValue)) (fixed : List PValue),
      (applyFixed nm fixed values).length = fixed.length := by
  intro values
  induction values with
  | nil => intro fixed; rfl
  | cons kv rest ih =>
    intro fixed
    cases hfind : assocFind nm kv.1 with
    | some i =>
      rw [applyFixed, List.foldl_cons]
      simp only [hfind]
      rw [← applyFixed, ih, List.length_set]
    | none =>
      rw [applyFixed, List.foldl_cons]
      simp only [hfind]
      rw [← applyFixed, ih]

theorem applyFixed_cons_some {nm : List (ByteSeq × Nat)} {fixed : List PValue}
    {kv : ByteSeq × PValue} {rest : List (ByteSeq × PValue)} {i : Nat}
    (h : assocFind nm kv.1 = some i) :
    applyFixed nm fixed (kv :: rest) = applyFixed nm (fixed.set i kv.2) rest := by
  rw [applyFixed, applyFixed, List.foldl_cons]
  simp only [h]

theorem applyFixed_cons_none {nm : List (ByteSeq × Nat)} {fixed : List PValue}
    {kv : ByteSeq × PValue} {rest : List (ByteSeq × PValue)}
    (h : assocFind nm kv.1 = none) :
    applyFixed nm fixed (kv :: rest) = applyFixed nm fixed rest := by
  rw [applyFixed, applyFixed, List.foldl_cons]
  simp only [h]

theorem buildVlist_split (fns : List ByteSeq) :
    ∀ (values : List (ByteSeq × PValue)) (fixed extras : List PValue),
      fixed.length = fns.length →
      values.foldl
        (fun vlist kv =>
          match assocFind (sfNameMap fns) kv.1 with
          | some i => vlist.set i kv.2
          | none => vlist ++ [PValue.pvpair kv.1 kv.2]) (fixed ++ extras)
      = applyFixed (sfNameMap fns) fixed values
        ++ (extras ++ extrasOf (sfNameMap fns) values) := by
  intro values
  induction values with
  | nil =>
    intro fixed extras _
    rw [List.foldl_nil, applyFixed, List.foldl_nil, extrasOf]
    simp
  | cons kv rest ih =>
    intro fixed extras hlen
    rw [List.foldl_cons]
    cases hfind : assocFind (sfNameMap fns) kv.1 with
    | some i =>
      obtain ⟨hi, _⟩ := sfNameMap_find_some hfind
      simp only [hfind]
      rw [set_append_left extras kv.2 fixed i (by omega)]
      rw [ih (fixed.set i kv.2) extras (by rw [List.length_set]; exact hlen)]
      rw [applyFixed_cons_some hfind]
      have hex : extrasOf (sfNameMap fns) (kv :: rest) = extrasOf (sfNameMap fns) rest := by
        simp [extrasOf, List.filter_cons, hfind]
      rw [hex]
    | none =>
      simp only [hfind]
      rw [List.append_assoc]
      rw [ih fixed (extras ++ [PValue.pvpair kv.1 kv.2]) hlen]
      rw [applyFixed_cons_none hfind]
      have hex : extrasOf (sfNameMap fns) (kv :: rest)
          = PValue.pvpair kv.1 kv.2 :: extrasOf (sfNameMap fns) rest := by
        simp [extrasOf, List.filter_cons, hfind]
      rw [hex, List.append_assoc, List.singleton_append]

theorem buildVlist_eq (fns : List ByteSeq) (values : List (ByteSeq × PValue)) :
    buildVlist (sfNameMap fns) values
      = applyFixed (sfNameMap fns) (List.replicate fns.length PValue.pvnone) values
        ++ extrasOf (sfNameMap fns) values := by
  rw [buildVlist]
  rw [show List.replicate (sfNameMap fns).length PValue.pvnone
      = List.replicate fns.length PValue.pvnone ++ [] from by
    rw [sfNameMap_length, List.append_nil]]
  rw [buildVlist_split fns values _ [] (List.length_replicate _ _)]
  rw [List.nil_append]

theorem applyFixed_getD (fns : List ByteSeq) (hnodup : fns.Nodup) :
    ∀ (values : List (ByteSeq × PValue)), (values.map (·.1)).Nodup →
      ∀ (fixed : List PValue), fixed.length = fns.length →
        ∀ j, j < fns.length →
          (applyFixed (sfNameMap fns) fixed values).getD j PValue.pvnone
            = match values.find? (fun kv => kv.1 == fns.getD j []) with
              | some kv => kv.2
              | none => fixed.getD j PValue.pvnone := by
  intro values
  induction values with
  | nil => intro _ fixed _ j _; rfl
  | cons kv rest ih =>
    intro hvn fixed hfl j hj
    have hvtail : (rest.map (·.1)).Nodup := (List.nodup_cons.mp (by simpa using hvn)).2
    have hvhead : kv.1 ∉ rest.map (·.1) := (List.nodup_cons.mp (by simpa using hvn)).1
    cases hfind : assocFind (sfNameMap fns) kv.1 with
    | some i =>
      obtain ⟨hi, hie⟩ := sfNameMap_find_some hfind
      rw [applyFixed_cons_some hfind]
      rw [ih hvtail (fixed.set i kv.2) (by rw [List.length_set]; exact hfl) j hj]
      by_cases hij : i = j
      · subst hij
        have hhead : (kv.1 == fns.getD i []) = true := by
          rw [hie]
          simp
        have hnone : rest.find? (fun kv' => kv'.1 == fns.getD i []) = none := by
          rw [List.find?_eq_none]
          intro kv' hkv' hc
          apply hvhead
          have h1 : kv'.1 = kv.1 := by
            have h2 : kv'.1 = fns.getD i [] := by simpa using hc
            rw [h2, hie]
          exact h1 ▸ List.mem_map.mpr ⟨kv', hkv', rfl⟩
        rw [hnone, getD_set' fixed i i kv.2 PValue.pvnone (by omega), if_pos rfl]
        simp only [List.find?_cons, hhead]
      · have hhead : (kv.1 == fns.getD j []) = false := by
          cases hbv : (kv.1 == fns.getD j []) with
          | false => rfl
          | true =>
            have h1 : kv.1 = fns.getD j [] := by simpa using hbv
            have h2 := sfNameMap_find_self hnodup hj
            rw [← h1, hfind] at h2
            exact absurd (Option.some.inj h2) hij
        simp only [List.find?_cons, hhead]
        cases hfind2 : rest.find? (fun kv' => kv'.1 == fns.getD j []) with
        | some kv' => rfl
        | none =>
          rw [getD_set' fixed i j kv.2 PValue.pvnone (by omega), if_neg hij]
    | none =>
      rw [applyFixed_cons_none hfind]
      rw [ih hvtail fixed hfl j hj]
      have hhead : (kv.1 == fns.getD j []) = false := by
        cases hbv : (kv.1 == fns.getD j []) with
        | false => rfl
        | true =>
          have h1 : kv.1 = fns.getD j [] := by simpa using hbv
          have h2 := sfNameMap_find_self hnodup hj
          rw [← h1, hfind] at h2
          exact Option.noConfusion h2
      simp only [List.find?_cons, hhead]

theorem drop_length_append {α : Type} (l₁ l₂ : List α) (n : Nat) (h : l₁.length = n) :
    (l₁ ++ l₂).drop n = l₂ := by
  rw [← h, List.drop_left]

theorem buildVlist_getD (fns : List ByteSeq) (hnodup : fns.Nodup)
    (values : List (ByteSeq × PValue)) (hv : (values.map (·.1)).Nodup)
    (j : Nat) (hj : j < fns.length) :
    (buildVlist (sfNameMap fns) values).getD j PValue.pvnone
      = bindVal values (fns.getD j []) := by
  rw [buildVlist_eq fns values]
  rw [getD_append_left _ _ _ _ (by rw [applyFixed_length, List.length_replicate]; exact hj)]
  rw [applyFixed_getD fns hnodup values hv _ (List.length_replicate _ _) j hj]
  rw [bindVal]
  cases hfind : values.find? (fun kv => kv.1 == fns.getD j []) with
  | some kv => rfl
  | none =>
    have hrep : (List.replicate fns.length PValue.pvnone).getD j PValue.pvnone
        = PValue.pvnone := by
      rw [List.getD_eq_getElem _ _ (by rw [List.length_replicate]; exact hj),
        List.getElem_replicate]
    rw [hrep]
    rfl

theorem buildVlist_drop (fns : List ByteSeq) (values : List (ByteSeq × PValue)) :
    (buildVlist (sfNameMap fns) values).drop fns.length
      = extrasOf (sfNameMap fns) values := by
  rw [buildVlist_eq fns values]
  exact drop_length_append _ _ _ (by rw [applyFixed_length, List.length_replicate])

theorem buildVlist_len (fns : List ByteSeq) (values : List (ByteSeq × PValue)) :
    (buildVlist (sfNameMap fns) values).length
      = fns.length + (extrasOf (sfNameMap fns) values).length := by
  rw [buildVlist_eq fns values, List.length_append, applyFixed_length, List.length_replicate]

theorem dictInsert_fresh {d : List (Option ByteSeq × PValue)} {k : Option ByteSeq}
    {v : PValue} (h : ∀ e ∈ d, e.1 ≠ k) : dictInsert d k v = d ++ [(k, v)] := by
  rw [dictInsert, if_neg]
  intro hc
  rw [List.any_eq_true] at hc
  obtain ⟨e, he, hek⟩ := hc
  exact h e he (by simpa using hek)

theorem specEntry_mem_key {values : List (ByteSeq × PValue)}
    {l : List ByteSeq} {e : Option ByteSeq × PValue}
    (he : e ∈ l.filterMap (fun fn => match bindVal values fn with
      | PValue.pvnone => none
      | v => some ((some fn : Option ByteSeq), v))) :
    ∃ fn ∈ l, e.1 = some fn := by
  obtain ⟨fn, hfn, hge⟩ := List.mem_filterMap.mp he
  refine ⟨fn, hfn, ?_⟩
  cases hb2 : bindVal values fn with
  | pvnone =>
    simp only [hb2] at hge
    exact absurd hge (by simp)
  | pvnat n =>
    simp only [hb2] at hge
    rw [← Option.some.inj hge]
  | pvbytes s =>
    simp only [hb2] at hge
    rw [← Option.some.inj hge]
  | pvpair a b =>
    simp only [hb2] at hge
    rw [← Option.some.inj hge]

theorem readerFixedFold (fns : List ByteSeq) (hnodup : fns.Nodup)
    (values : List (ByteSeq × PValue)) (vl : List PValue)
    (hvl : ∀ j, j < fns.length → vl.getD j PValue.pvnone = bindVal values (fns.getD j [])) :
    ∀ (m : Nat), m ≤ fns.length →
      (List.range m).foldl
          (fun d i =>
            match vl.getD i PValue.pvnone with
            | PValue.pvnone => d
            | v => dictInsert d ((fns.map some).getD i none) v) []
        = (fns.take m).filterMap
            (fun fn => match bindVal values fn with
              | PValue.pvnone => none
              | v => some ((some fn : Option ByteSeq), v)) := by
  intro m
  induction m with
  | zero => intro _; rfl
  | succ m ih =>
    intro hm
    rw [List.range_succ, List.foldl_append, List.foldl_cons, List.foldl_nil]
    rw [ih (by omega)]
    have hmlt : m < fns.length := by omega
    have htake : fns.take (m + 1) = fns.take m ++ [fns.getD m []] := by
      rw [List.take_succ, List.getElem?_eq_getElem hmlt, List.getD_eq_getElem _ _ hmlt]
      rfl
    have hnames : (fns.map some).getD m none = some (fns.getD m []) := by
      rw [List.getD_eq_getElem _ _ (by rw [List.length_map]; exact hmlt), List.getElem_map,
        List.getD_eq_getElem _ _ hmlt]
    have hfr : ∀ e ∈ (fns.take m).filterMap
        (fun fn => match bindVal values fn with
          | PValue.pvnone => none
          | v => some ((some fn : Option ByteSeq), v)),
        e.1 ≠ some (fns.getD m []) := by
      intro e he hc
      obtain ⟨fn, hfn, he1⟩ := specEntry_mem_key he
      rw [he1] at hc
      have hfneq : fn = fns.getD m [] := Option.some.inj hc
      obtain ⟨k, hk, hke⟩ := List.getElem_of_mem hfn
      have hkm : k < m := by
        rw [List.length_take] at hk
        omega
      have hkfns : k < fns.length := by omega
      rw [List.getElem_take] at hke
      have hkm2 : fns.getD k [] = fns.getD m [] := by
        rw [List.getD_eq_getElem _ _ hkfns, hke, hfneq]
      rw [List.getD_eq_getElem _ _ hkfns, List.getD_eq_getElem _ _ hmlt] at hkm2
      have := (List.Nodup.getElem_inj_iff hnodup).mp hkm2
      omega
    rw [htake, List.filterMap_append, hvl m hmlt, hnames]
    cases hbv : bindVal values (fns.getD m []) with
    | pvnone =>
      have hfm : List.filterMap (fun fn => match bindVal values fn with
          | PValue.pvnone => none
          | v => some ((some fn : Option ByteSeq), v)) [fns.getD m []] = [] := by
        simp only [List.filterMap_cons, List.filterMap_nil, hbv]
      rw [hfm, List.append_nil]
    | pvnat n =>
      have hfm : List.filterMap (fun fn => match bindVal values fn with
          | PValue.pvnone => none
          | v => some ((some fn : Option ByteSeq), v)) [fns.getD m []]
          = [((some (fns.getD m []) : Option ByteSeq), PValue.pvnat n)] := by
        simp only [List.filterMap_cons, List.filterMap_nil, hbv]
      rw [hfm]
      exact dictInsert_fresh hfr
    | pvbytes s =>
      have hfm : List.filterMap (fun fn => match bindVal values fn with
          | PValue.pvnone => none
          | v => some ((some fn : Option ByteSeq), v)) [fns.getD m []]
          = [((some (fns.getD m []) : Option ByteSeq), PValue.pvbytes s)] := by
        simp only [List.filterMap_cons, List.filterMap_nil, hbv]
      rw [hfm]
      exact dictInsert_fresh hfr
    | pvpair a b =>
      have hfm : List.filterMap (fun fn => match bindVal values fn with
          | PValue.pvnone => none
          | v => some ((some fn : Option ByteSeq), v)) [fns.getD m []]
          = [((some (fns.getD m []) : Option ByteSeq), PValue.pvpair a b)] := by
        simp only [List.filterMap_cons, List.filterMap_nil, hbv]
      rw [hfm]
      exact dictInsert_fresh hfr

theorem readerExtrasFold :
    ∀ (EP : List (ByteSeq × PValue)) (d : List (Option ByteSeq × PValue)),
      (∀ kv ∈ EP, ∀ e ∈ d, e.1 ≠ some kv.1) →
      (EP.map (·.1)).Nodup →
      (EP.map (fun kv => PValue.pvpair kv.1 kv.2)).foldlM
          (fun d v =>
            match v with
            | PValue.pvpair k pv => Except.ok (dictInsert d (some k) pv)
            | _ => Except.error SFErr.typeError) d
        = Except.ok (d ++ EP.map (fun kv => ((some kv.1 : Option ByteSeq), kv.2))) := by
  intro EP
  induction EP with
  | nil =>
    intro d _ _
    rw [List.map_nil, List.map_nil, List.append_nil]
    rfl
  | cons kv rest ih =>
    intro d hfresh hnodup
    rw [List.map_cons, List.map_cons, List.foldlM_cons]
    have h1 : dictInsert d (some kv.1) kv.2 = d ++ [(some kv.1, kv.2)] :=
      dictInsert_fresh (fun e he => hfresh kv (List.mem_cons_self _ _) e he)
    have hndc : (kv.1 :: rest.map (·.1)).Nodup := by simpa using hnodup
    have hfr2 : ∀ kv' ∈ rest, ∀ e ∈ d ++ [(some kv.1, kv.2)], e.1 ≠ some kv'.1 := by
      intro kv' hkv' e he hc
      rcases List.mem_append.mp he with h | h
      · exact hfresh kv' (List.mem_cons_of_mem _ hkv') e h hc
      · have he2 : e = (some kv.1, kv.2) := by simpa using h
        rw [he2] at hc
        have hkk : kv.1 = kv'.1 := Option.some.inj hc
        exact (List.nodup_cons.mp hndc).1
          (hkk ▸ List.mem_map.mpr ⟨kv', hkv', rfl⟩)
    show ((rest.map (fun kv => PValue.pvpair kv.1 kv.2)).foldlM
        (fun d v =>
          match v with
          | PValue.pvpair k pv => Except.ok (dictInsert d (some k) pv)
          | _ => Except.error SFErr.typeError) (dictInsert d (some kv.1) kv.2))
      = Except.ok (d ++ ((some kv.1, kv.2)
          :: rest.map (fun kv => ((some kv.1 : Option ByteSeq), kv.2))))
    rw [h1, ih (d ++ [(some kv.1, kv.2)]) hfr2 (List.nodup_cons.mp hndc).2]
    rw [List.append_assoc, List.singleton_append]

theorem extras_filter_eq (fns : List ByteSeq) (hnodup : fns.Nodup)
    (values : List (ByteSeq × PValue)) :
    values.filter (fun kv => (assocFind (sfNameMap fns) kv.1).isNone)
      = values.filter (fun kv => !fns.contains kv.1) := by
  apply List.filter_congr
  intro kv _
  cases hfk : assocFind (sfNameMap fns) kv.1 with
  | none =>
    have hc := (sfNameMap_find_none hnodup).mp hfk
    rw [hc]
    rfl
  | some j =>
    obtain ⟨hj, hje⟩ := sfNameMap_find_some hfk
    have hk : kv.1 ∈ fns := by
      rw [← hje, List.getD_eq_getElem _ _ hj]
      exact List.getElem_mem hj
    have hc : fns.contains kv.1 = true := List.elem_eq_true_of_mem hk
    rw [hc]
    rfl

theorem sfGetItem_ok (fieldnames : List ByteSeq) (docs : List (List (ByteSeq × PValue)))
    (hvalid : SFValid fieldnames docs) (i : Nat) (hi : i < docs.length) :
    (sfReaderOf fieldnames docs).getItem (i : Int)
      = Except.ok (specStoredDoc fieldnames (docs.getD i [])) := by
  obtain ⟨hnodup, hdnodup, hcount, hblen, htot⟩ := hvalid
  have hdocmem : docs.getD i [] ∈ docs := by
    rw [List.getD_eq_getElem _ _ hi]
    exact List.getElem_mem hi
  have hvnodup : ((docs.getD i []).map (·.1)).Nodup := hdnodup _ hdocmem
  have hblen_i := hblen _ hdocmem
  have h0 := sfFile_shape fieldnames docs
  have h8 := drop_shift h0
  rw [beBytes_length, show (0 : Nat) + 8 = 8 from rfl] at h8
  have h12 := drop_shift h8
  rw [beBytes_length, show (8 : Nat) + 4 = 12 from rfl] at h12
  have hpickle := drop_shift h12
  have hdirdrop := drop_shift hpickle
  have hidir : i < (sfDirFrom (sfNameMap fieldnames) 12 docs).length := by
    rw [sfDirFrom_length]
    exact hi
  have hdirtail : (sfFile fieldnames docs).drop
      (12 + (sfBlobs (sfNameMap fieldnames) docs).length
        + (dictPickle (sfNameMap fieldnames)).length)
      = (sfDirFrom (sfNameMap fieldnames) 12 docs).flatten ++ [] := by
    rw [List.append_nil]
    exact hdirdrop
  have hchunk := drop_flatten_uniform (sfDirFrom_chunks (sfNameMap fieldnames) docs 12)
    hdirtail hidir
  rw [sfDirFrom_getD (sfNameMap fieldnames) docs i 12 hi] at hchunk
  have hptr := readAt_of_drop_prefix hchunk
  rw [pack_stored_pointer_length] at hptr
  have hsplit := sfBlobs_split (sfNameMap fieldnames) docs i hi
  rw [hsplit] at h12
  rw [List.append_assoc] at h12
  have hblob0 := drop_shift h12
  rw [List.append_assoc] at hblob0
  have hblobread := readAt_of_drop_prefix hblob0
  have hlensplit : (sfBlobs (sfNameMap fieldnames) docs).length
      = (sfBlobs (sfNameMap fieldnames) (docs.take i)).length
        + ((vlistBody (buildVlist (sfNameMap fieldnames) (docs.getD i []))).length
          + (sfBlobs (sfNameMap fieldnames) (docs.drop (i + 1))).length) := by
    conv_lhs => rw [hsplit]
    rw [List.length_append, List.length_append]
  have hFlen : (sfFile fieldnames docs).length
      = 12 + (sfBlobs (sfNameMap fieldnames) docs).length
        + (dictPickle (sfNameMap fieldnames)).length
        + ((sfDirFrom (sfNameMap fieldnames) 12 docs).flatten).length := by
    rw [sfFile]
    simp only [List.length_append, beBytes_length]
    omega
  have hbound : 12 + (sfBlobs (sfNameMap fieldnames) (docs.take i)).length
      + (vlistBody (buildVlist (sfNameMap fieldnames) (docs.getD i []))).length
      ≤ (sfFile fieldnames docs).length := by
    rw [hFlen, hlensplit]
    omega
  have h1 : ¬ ((i : Int) > ((docs.length : Nat) : Int) - 1) := by omega
  have h2 : ¬ ((((12 + (sfBlobs (sfNameMap fieldnames) docs).length
      + (dictPickle (sfNameMap fieldnames)).length : Nat) : Int)) + (i : Int) * 12 < 0) := by
    omega
  have hstart : ((((12 + (sfBlobs (sfNameMap fieldnames) docs).length
      + (dictPickle (sfNameMap fieldnames)).length : Nat) : Int)) + (i : Int) * 12).toNat
      = 12 + (sfBlobs (sfNameMap fieldnames) docs).length
        + (dictPickle (sfNameMap fieldnames)).length + 12 * i := by
    omega
  have htake8 : (pack_stored_pointer
      (12 + (sfBlobs (sfNameMap fieldnames) (docs.take i)).length)
      (vlistBody (buildVlist (sfNameMap fieldnames) (docs.getD i []))).length).take 8
      = beBytes 8 (12 + (sfBlobs (sfNameMap fieldnames) (docs.take i)).length) := by
    rw [pack_stored_pointer, List.take_append_eq_append_take, beBytes_length,
      List.take_of_length_le (by simp [beBytes_length]), Nat.sub_self, List.take_zero,
      List.append_nil]
  have hdrop8 : (pack_stored_pointer
      (12 + (sfBlobs (sfNameMap fieldnames) (docs.take i)).length)
      (vlistBody (buildVlist (sfNameMap fieldnames) (docs.getD i []))).length).drop 8
      = beBytes 4 (vlistBody (buildVlist (sfNameMap fieldnames)
          (docs.getD i []))).length := by
    rw [pack_stored_pointer, List.drop_append_eq_append_drop, beBytes_length,
      List.drop_eq_nil_of_le (by simp [beBytes_length]), List.nil_append, Nat.sub_self,
      List.drop_zero]
  have hdec64 : decInt64 (beBytes 8
      (12 + (sfBlobs (sfNameMap fieldnames) (docs.take i)).length))
      = ((12 + (sfBlobs (sfNameMap fieldnames) (docs.take i)).length : Nat) : Int) :=
    decInt64_beBytes_of_lt (by omega)
  have hpow : (2 : Nat) ^ 32 = 256 ^ 4 := by norm_num
  have hdec32 : decBE (beBytes 4
      (vlistBody (buildVlist (sfNameMap fieldnames) (docs.getD i []))).length)
      = (vlistBody (buildVlist (sfNameMap fieldnames) (docs.getD i []))).length :=
    decBE_beBytes_of_lt (by omega)
  have hslice := pySlice_readAt (sfFile fieldnames docs)
    (12 + (sfBlobs (sfNameMap fieldnames) (docs.take i)).length)
    (vlistBody (buildVlist (sfNameMap fieldnames) (docs.getD i []))).length hbound
  have hnotlt : ¬ ((buildVlist (sfNameMap fieldnames) (docs.getD i [])).length
      < fieldnames.length) := by
    rw [buildVlist_len]
    omega
  have hvl : ∀ j, j < fieldnames.length →
      (buildVlist (sfNameMap fieldnames) (docs.getD i [])).getD j PValue.pvnone
        = bindVal (docs.getD i []) (fieldnames.getD j []) :=
    fun j hj => buildVlist_getD fieldnames hnodup _ hvnodup j hj
  have hfold : (List.range fieldnames.length).foldl
      (fun d j =>
        match (buildVlist (sfNameMap fieldnames) (docs.getD i [])).getD j PValue.pvnone with
        | PValue.pvnone => d
        | v => dictInsert d ((fieldnames.map some).getD j none) v) []
      = fieldnames.filterMap
          (fun fn => match bindVal (docs.getD i []) fn with
            | PValue.pvnone => none
            | v => some ((some fn : Option ByteSeq), v)) := by
    rw [readerFixedFold fieldnames hnodup (docs.getD i []) _ hvl fieldnames.length
      (Nat.le_refl _), List.take_length]
  simp only [StoredFieldReader.getItem, sfReaderOf, if_neg h1, if_neg h2, hstart, hptr,
    pack_stored_pointer_length, ne_eq, not_true_eq_false, Bool.false_eq_true, if_false,
    htake8, hdrop8, hdec64, hdec32, hslice, hblobread, vlistLoads_body,
    buildNames_sfNameMap, List.length_map, if_neg hnotlt, hfold]
  by_cases hx : fieldnames.length
      < (buildVlist (sfNameMap fieldnames) (docs.getD i [])).length
  · rw [if_pos hx, buildVlist_drop, extrasOf]
    have hEPnodup : (((docs.getD i []).filter
        (fun kv => (assocFind (sfNameMap fieldnames) kv.1).isNone)).map (·.1)).Nodup := by
      have hsub := (List.filter_sublist (l := docs.getD i [])
        (p := fun kv => (assocFind (sfNameMap fieldnames) kv.1).isNone)).map (·.1)
      exact hvnodup.sublist hsub
    have hfr : ∀ kv ∈ (docs.getD i []).filter
        (fun kv => (assocFind (sfNameMap fieldnames) kv.1).isNone),
        ∀ e ∈ fieldnames.filterMap
          (fun fn => match bindVal (docs.getD i []) fn with
            | PValue.pvnone => none
            | v => some ((some fn : Option ByteSeq), v)),
        e.1 ≠ some kv.1 := by
      intro kv hkv e he hc
      obtain ⟨fn, hfn, he1⟩ := specEntry_mem_key he
      rw [he1] at hc
      have hfk : fn = kv.1 := Option.some.inj hc
      have hisnone : (assocFind (sfNameMap fieldnames) kv.1).isNone = true :=
        (List.mem_filter.mp hkv).2
      have hnone : assocFind (sfNameMap fieldnames) kv.1 = none :=
        Option.eq_none_of_isNone hisnone
      have hcontains := (sfNameMap_find_none hnodup).mp hnone
      rw [← hfk] at hcontains
      have hcex : fieldnames.contains fn = true := List.elem_eq_true_of_mem hfn
      rw [hcex] at hcontains
      exact Bool.noConfusion hcontains
    rw [readerExtrasFold _ _ hfr hEPnodup]
    rw [specStoredDoc, extras_filter_eq fieldnames hnodup]
  · rw [if_neg hx]
    have hempty : extrasOf (sfNameMap fieldnames) (docs.getD i []) = [] := by
      have := buildVlist_len fieldnames (docs.getD i [])
      have hlen0 : (extrasOf (sfNameMap fieldnames) (docs.getD i [])).length = 0 := by
        omega
      exact List.length_eq_zero.mp hlen0
    have hfilempty : ((docs.getD i []).filter
        (fun kv => !fieldnames.contains kv.1)) = [] := by
      rw [← extras_filter_eq fieldnames hnodup]
      rw [extrasOf] at hempty
      exact List.map_eq_nil.mp hempty
    rw [specStoredDoc, hfilempty, List.map_nil, List.append_nil]

/-- C6: for every sequence of documents appended through
`StoredFieldWriter.append` and closed, `StoredFieldReader` opens the file
and reading document `i` gives the `i`-th appended mapping restricted to
fixed field names whose values are not `None`, merged with every dynamic
`(name, value)` pair whose name is outside the fixed field-name list. -/
theorem storedFields_roundtrip (fieldnames : List ByteSeq)
    (docs : List (List (ByteSeq × PValue))) (hvalid : SFValid fieldnames docs)
    (F : ByteSeq)
    (hclose : (docs.foldl StoredFieldWriter.append
      (StoredFieldWriter.init fieldnames)).close = F) :
    ∃ r, StoredFieldReader.init F = some r ∧ r.length = docs.length ∧
      ∀ i, i < docs.length →
        r.getItem (i : Int) = Except.ok (specStoredDoc fieldnames (docs.getD i [])) := by
  subst hclose
  rw [sfClose_eq]
  exact ⟨sfReaderOf fieldnames docs, sfReader_init_eq fieldnames docs hvalid, rfl,
    fun i hi => sfGetItem_ok fieldnames docs hvalid i hi⟩

theorem storedFields_roundtrip_witness :
    ∃ r, StoredFieldReader.init
        (([[([97], PValue.pvnat 1), ([99], PValue.pvnat 3)], [([98], PValue.pvnone)]].foldl
          StoredFieldWriter.append
          (StoredFieldWriter.init [[97], [98]])).close) = some r ∧
      r.getItem ((0 : Nat) : Int)
        = Except.ok [((some [97] : Option ByteSeq), PValue.pvnat 1),
            ((some [99] : Option ByteSeq), PValue.pvnat 3)] ∧
      r.getItem ((1 : Nat) : Int) = Except.ok [] := by
  obtain ⟨r, hinit, hlen, hitems⟩ := storedFields_roundtrip [[97], [98]]
    [[([97], PValue.pvnat 1), ([99], PValue.pvnat 3)], [([98], PValue.pvnone)]]
    (by unfold SFValid; decide) _ rfl
  refine ⟨r, hinit, ?_, ?_⟩
  · rw [hitems 0 (by decide)]
    refine congrArg Except.ok ?_
    decide
  · rw [hitems 1 (by decide)]
    refine congrArg Except.ok ?_
    decide

/-- C8 counterexample: a negative index is not rejected.  The source's only
bounds check is `num > self.length - 1`, so `reader[-1]` proceeds past it
and reads pointer bytes from before the directory instead of raising
`IndexError`. -/
theorem storedFieldReader_negative_index_cex :
    ((StoredFieldReader.init
        (([[([97], PValue.pvnat 1)]].foldl StoredFieldWriter.append
          (StoredFieldWriter.init [[97]])).close)).map
      (fun r => r.getItem (-1 : Int)))
      ≠ some (Except.error SFErr.indexError) ∧
    (StoredFieldReader.init
        (([[([97], PValue.pvnat 1)]].foldl StoredFieldWriter.append
          (StoredFieldWriter.init [[97]])).close)).isSome := by
  decide

/-- C8 (amended): indexing fails with `IndexError` for every `num` with
`num > doc_count - 1` — the source's only bounds check — and succeeds,
returning the decoded mapping, for every `num` in `[0, doc_count)` on a
file written by `StoredFieldWriter`; a negative `num` is not rejected (the
counterexample shows `reader[-1]` does not raise `IndexError`). -/
theorem storedFieldReader_index_bounds (fieldnames : List ByteSeq)
    (docs : List (List (ByteSeq × PValue))) (hvalid : SFValid fieldnames docs) :
    (∀ (r : StoredFieldReader) (num : Int), (r.length : Int) ≤ num →
      r.getItem num = Except.error SFErr.indexError) ∧
    (∀ num : Int, 0 ≤ num → num < (docs.length : Int) →
      ∃ d, (sfReaderOf fieldnames docs).getItem num = Except.ok d) := by
  constructor
  · intro r num hge
    simp only [StoredFieldReader.getItem]
    rw [if_pos (by omega)]
  · intro num h0 hlt
    obtain ⟨i, rfl⟩ : ∃ i : Nat, (i : Int) = num := ⟨num.toNat, by omega⟩
    exact ⟨_, sfGetItem_ok fieldnames docs hvalid i (by omega)⟩

theorem storedFieldReader_index_bounds_witness :
    (sfReaderOf [[97]] [[([97], PValue.pvnat 1)]]).getItem (5 : Int)
      = Except.error SFErr.indexError ∧
    ∃ d, (sfReaderOf [[97]] [[([97], PValue.pvnat 1)]]).getItem (0 : Int)
      = Except.ok d := by
  have h := storedFieldReader_index_bounds [[97]] [[([97], PValue.pvnat 1)]]
    (by unfold SFValid; decide)
  exact ⟨h.1 (sfReaderOf [[97]] [[([97], PValue.pvnat 1)]]) 5 (by decide),
    h.2 0 (by decide) (by decide)⟩

theorem orderedAddLoop_ok_parts (items : List (ByteSeq × ByteSeq)) :
    ∀ (w : OrderedHashWriter) (lk : Option ByteSeq) (w' : OrderedHashWriter),
      orderedAddLoop w lk items = AddAllResult.ok w' →
      w'.file = w.file ++ recordsCat items ∧
      w'.hashes = w.hashes ++ entriesAt w.file.length items ∧
      w'.index = w.index ++ offsetsAt w.file.length items := by
  induction items with
  | nil =>
    intro w lk w' h
    rw [orderedAddLoop] at h
    have heq := AddAllResult.ok.inj h
    rw [← heq]
    refine ⟨?_, ?_, ?_⟩ <;> simp [recordsCat, entriesAt, offsetsAt]
  | cons kv rest ih =>
    intro w lk w' h
    rw [orderedAddLoop] at h
    by_cases hle : leLastkey kv.1 lk
    · rw [if_pos hle] at h
      exact AddAllResult.noConfusion h
    · rw [if_neg hle] at h
      obtain ⟨h1, h2, h3⟩ := ih _ _ _ h
      have hlen : (w.file ++ recordBytes kv.1 kv.2).length
          = w.file.length + lengths_size + kv.1.length + kv.2.length := by
        rw [List.length_append, recordBytes_length]
        omega
      refine ⟨?_, ?_, ?_⟩
      · rw [h1]
        show w.file ++ recordBytes kv.1 kv.2 ++ recordsCat rest = _
        rw [recordsCat_cons, List.append_assoc]
      · rw [h2]
        show w.hashes ++ [(cdb_hash kv.1, w.file.length)]
            ++ entriesAt (w.file ++ recordBytes kv.1 kv.2).length rest = _
        rw [hlen, entriesAt, List.append_assoc, List.singleton_append]
      · rw [h3]
        show w.index ++ [w.file.length]
            ++ offsetsAt (w.file ++ recordBytes kv.1 kv.2).length rest = _
        rw [hlen, offsetsAt, List.append_assoc, List.singleton_append]

theorem codedClose_eq (items : List (ByteSeq × ByteSeq)) (hashes : List (Nat × Nat))
    (file : ByteSeq) (index : List Nat) (extra : ByteSeq)
    (hfile : file = List.replicate header_size 0 ++ recordsCat items)
    (hhashes : hashes = writerHashes items)
    (hindex : index = offsetsAt header_size items) :
    (writeHashesLoop hashes (List.range 256) (file, [])).map (fun st =>
      write_directory
        (st.1 ++ beBytes 4 index.length ++ (index.map (beBytes 8)).flatten ++ extra)
        st.1.length st.2)
    = some (closedFile items (indexBytes items ++ extra)) := by
  subst hfile hhashes hindex
  rw [writeHashesLoop_spec (writerHashes items)
    (fun i => by rw [(tableOf_writer items i).1]; rfl)
    (fun i => (tableOf_writer items i).2.1)]
  rw [Option.map_some']
  refine congrArg some ?_
  have hreclen : (List.replicate header_size 0 ++ recordsCat items).length
      = header_size + recsLen items := by
    rw [List.length_append, List.length_replicate, recordsCat_length]
  have hzone : slotRegion (writerHashes items) (List.range 256) = hashZone items := rfl
  have hdir : dirFrom (writerHashes items)
      (List.replicate header_size 0 ++ recordsCat items).length (List.range 256)
      = hashDir items := by
    rw [hreclen]
    rfl
  have heoh : ((List.replicate header_size 0 ++ recordsCat items)
      ++ slotRegion (writerHashes items) (List.range 256)).length = hashEoh items := by
    rw [List.length_append, hreclen, hzone, hashEoh]
  rw [closedFile, write_directory, write_directory, List.nil_append, hdir, heoh]
  refine congrArg₂ (· ++ ·) rfl ?_
  have hd1 : ∀ A : ByteSeq, (List.replicate header_size (0 : Nat) ++ A).drop header_size
      = A := fun A => drop_length_append _ _ _ (by simp)
  simp only [List.append_assoc]
  rw [hd1, hd1, indexBytes]
  simp only [List.append_assoc]
  rw [hzone]

theorem tiAddAll_files (terms : List (ByteSeq × ByteSeq × TermInfo)) :
    ∀ (w w' : TermIndexWriter), tiAddAll w terms = some w' →
      w'.base.file = w.base.file
        ++ recordsCat (tiCodedAux w.fieldmap w.fieldcounter terms) ∧
      w'.base.hashes = w.base.hashes
        ++ entriesAt w.base.file.length (tiCodedAux w.fieldmap w.fieldcounter terms) ∧
      w'.base.index = w.base.index
        ++ offsetsAt w.base.file.length (tiCodedAux w.fieldmap w.fieldcounter terms) := by
  induction terms with
  | nil =>
    intro w w' h
    have heq := Option.some.inj h
    rw [← heq]
    refine ⟨?_, ?_, ?_⟩ <;> simp [tiCodedAux, recordsCat, entriesAt, offsetsAt]
  | cons t rest ih =>
    intro w w' h
    rw [tiAddAll] at h
    obtain ⟨w1, hw1, hrest⟩ := Option.bind_eq_some.mp h
    cases hfk : assocFind w.fieldmap t.1 with
    | some fnum =>
      simp only [TermIndexWriter.add, tiKeycoder, hfk] at hw1
      cases hres : OrderedHashWriter.add_all w.base
          [(pack_ushort fnum ++ t.2.1, TermInfo.to_string t.2.2)] with
      | ok b =>
        rw [hres] at hw1
        have hw1e := Option.some.inj hw1
        obtain ⟨hbf, hbh, hbi⟩ := orderedAddLoop_ok_parts _ _ _ _ hres
        rw [← hw1e] at hrest
        obtain ⟨h1, h2, h3⟩ := ih _ _ hrest
        rw [show tiCodedAux w.fieldmap w.fieldcounter (t :: rest)
            = (pack_ushort fnum ++ t.2.1, TermInfo.to_string t.2.2)
              :: tiCodedAux w.fieldmap w.fieldcounter rest from by
          rw [tiCodedAux, hfk]]
        have hblen : b.file.length = w.base.file.length
            + (lengths_size + (pack_ushort fnum ++ t.2.1).length
              + (TermInfo.to_string t.2.2).length) := by
          rw [hbf]
          show (w.base.file ++ (recordBytes _ _ ++ [])).length = _
          rw [List.append_nil, List.length_append, recordBytes_length]
        refine ⟨?_, ?_, ?_⟩
        · rw [h1]
          show b.file ++ recordsCat (tiCodedAux w.fieldmap w.fieldcounter rest) = _
          rw [hbf, recordsCat_cons]
          show w.base.file ++ (recordBytes _ _ ++ []) ++ _ = _
          rw [List.append_nil, List.append_assoc, recordsCat_cons]
        · rw [h2]
          show b.hashes ++ entriesAt b.file.length
              (tiCodedAux w.fieldmap w.fieldcounter rest) = _
          rw [hbh, hblen, entriesAt]
          show w.base.hashes ++ ((cdb_hash _, w.base.file.length) :: entriesAt _ []) ++ _
            = _
          rw [show entriesAt (w.base.file.length + lengths_size
              + (pack_ushort fnum ++ t.2.1).length
              + (TermInfo.to_string t.2.2).length) ([] : List (ByteSeq × ByteSeq))
            = [] from rfl]
          rw [entriesAt, List.append_assoc]
          refine congrArg _ ?_
          rw [List.cons_append, List.nil_append]
          refine congrArg₂ List.cons rfl (congrArg₂ _ (by dsimp only; omega) rfl)
        · rw [h3]
          show b.index ++ offsetsAt b.file.length
              (tiCodedAux w.fieldmap w.fieldcounter rest) = _
          rw [hbi, hblen, offsetsAt]
          show w.base.index ++ (w.base.file.length :: offsetsAt _ []) ++ _ = _
          rw [show offsetsAt (w.base.file.length + lengths_size
              + (pack_ushort fnum ++ t.2.1).length
              + (TermInfo.to_string t.2.2).length) ([] : List (ByteSeq × ByteSeq))
            = [] from rfl]
          rw [offsetsAt, List.append_assoc]
          refine congrArg _ ?_
          rw [List.cons_append, List.nil_append]
          refine congrArg₂ List.cons rfl (congrArg₂ _ (by dsimp only; omega) rfl)
      | keysOutOfOrder b =>
        rw [hres] at hw1
        exact Option.noConfusion hw1
    | none =>
      simp only [TermIndexWriter.add, tiKeycoder, hfk] at hw1
      cases hres : OrderedHashWriter.add_all w.base
          [(pack_ushort w.fieldcounter ++ t.2.1, TermInfo.to_string t.2.2)] with
      | ok b =>
        rw [hres] at hw1
        have hw1e := Option.some.inj hw1
        obtain ⟨hbf, hbh, hbi⟩ := orderedAddLoop_ok_parts _ _ _ _ hres
        rw [← hw1e] at hrest
        obtain ⟨h1, h2, h3⟩ := ih _ _ hrest
        rw [show tiCodedAux w.fieldmap w.fieldcounter (t :: rest)
            = (pack_ushort w.fieldcounter ++ t.2.1, TermInfo.to_string t.2.2)
              :: tiCodedAux (w.fieldmap ++ [(t.1, w.fieldcounter)]) (w.fieldcounter + 1)
                rest from by
          rw [tiCodedAux, hfk]]
        have hblen : b.file.length = w.base.file.length
            + (lengths_size + (pack_ushort w.fieldcounter ++ t.2.1).length
              + (TermInfo.to_string t.2.2).length) := by
          rw [hbf]
          show (w.base.file ++ (recordBytes _ _ ++ [])).length = _
          rw [List.append_nil, List.length_append, recordBytes_length]
        refine ⟨?_, ?_, ?_⟩
        · rw [h1]
          show b.file ++ recordsCat (tiCodedAux (w.fieldmap ++ [(t.1, w.fieldcounter)])
              (w.fieldcounter + 1) rest) = _
          rw [hbf, recordsCat_cons]
          show w.base.file ++ (recordBytes _ _ ++ []) ++ _ = _
          rw [List.append_nil, List.append_assoc, recordsCat_cons]
        · rw [h2]
          show b.hashes ++ entriesAt b.file.length
              (tiCodedAux (w.fieldmap ++ [(t.1, w.fieldcounter)]) (w.fieldcounter + 1)
                rest) = _
          rw [hbh, hblen, entriesAt]
          show w.base.hashes ++ ((cdb_hash _, w.base.file.length) :: entriesAt _ []) ++ _
            = _
          rw [show entriesAt (w.base.file.length + lengths_size
              + (pack_ushort w.fieldcounter ++ t.2.1).length
              + (TermInfo.to_string t.2.2).length) ([] : List (ByteSeq × ByteSeq))
            = [] from rfl]
          rw [entriesAt, List.append_assoc]
          refine congrArg _ ?_
          rw [List.cons_append, List.nil_append]
          refine congrArg₂ List.cons rfl (congrArg₂ _ (by dsimp only; omega) rfl)
        · rw [h3]
          show b.index ++ offsetsAt b.file.length
              (tiCodedAux (w.fieldmap ++ [(t.1, w.fieldcounter)]) (w.fieldcounter + 1)
                rest) = _
          rw [hbi, hblen, offsetsAt]
          show w.base.index ++ (w.base.file.length :: offsetsAt _ []) ++ _ = _
          rw [show offsetsAt (w.base.file.length + lengths_size
              + (pack_ushort w.fieldcounter ++ t.2.1).length
              + (TermInfo.to_string t.2.2).length) ([] : List (ByteSeq × ByteSeq))
            = [] from rfl]
          rw [offsetsAt, List.append_assoc]
          refine congrArg _ ?_
          rw [List.cons_append, List.nil_append]
          refine congrArg₂ List.cons rfl (congrArg₂ _ (by dsimp only; omega) rfl)
      | keysOutOfOrder b =>
        rw [hres] at hw1
        exact Option.noConfusion hw1

theorem tiCodedAux_keys (terms : List (ByteSeq × ByteSeq × TermInfo)) :
    ∀ (fm : List (ByteSeq × Nat)) (fc : Nat), (∀ e ∈ fm, e.2 < fc) →
      ∀ kv ∈ tiCodedAux fm fc terms,
        ∃ fnum text, fnum < fc + terms.length ∧ kv.1 = pack_ushort fnum ++ text := by
  induction terms with
  | nil => intro fm fc _ kv hkv; exact absurd hkv (List.not_mem_nil kv)
  | cons t rest ih =>
    intro fm fc hfm kv hkv
    cases hfk : assocFind fm t.1 with
    | some fnum =>
      rw [tiCodedAux, hfk] at hkv
      rcases List.mem_cons.mp hkv with h | h
      · obtain ⟨e, hfe, he2⟩ : ∃ e ∈ fm, e.2 = fnum := by
          rw [assocFind] at hfk
          obtain ⟨e, hee⟩ := Option.map_eq_some'.mp hfk
          exact ⟨e, List.mem_of_find?_eq_some hee.1, hee.2⟩
        refine ⟨fnum, t.2.1, ?_, by rw [h]⟩
        have := hfm e hfe
        rw [List.length_cons]
        omega
      · obtain ⟨fnum2, text, hlt, heq⟩ := ih fm fc hfm kv h
        refine ⟨fnum2, text, ?_, heq⟩
        rw [List.length_cons]
        omega
    | none =>
      rw [tiCodedAux, hfk] at hkv
      rcases List.mem_cons.mp hkv with h | h
      · refine ⟨fc, t.2.1, ?_, by rw [h]⟩
        rw [List.length_cons]
        omega
      · have hfm2 : ∀ e ∈ fm ++ [(t.1, fc)], e.2 < fc + 1 := by
          intro e he
          rcases List.mem_append.mp he with h2 | h2
          · have := hfm e h2
            omega
          · have he2 : e = (t.1, fc) := by simpa using h2
            rw [he2]
            omega
        obtain ⟨fnum2, text, hlt, heq⟩ := ih (fm ++ [(t.1, fc)]) (fc + 1) hfm2 kv h
        refine ⟨fnum2, text, ?_, heq⟩
        rw [List.length_cons]
        omega

theorem containsOf_closedFile_false (items : List (ByteSeq × ByteSeq)) (tail : ByteSeq)
    (hvalid : ValidItems items) (key : ByteSeq) (hnone : ∀ kv ∈ items, kv.1 ≠ key) :
    containsOf (closedFile items tail) key = false := by
  have hall := allOf_closedFile items tail hvalid key
  have hempty : valuesForKey items key = [] := by
    rw [valuesForKey]
    have hfil : items.filter (fun kv => kv.1 == key) = [] := by
      rw [List.filter_eq_nil]
      intro kv hkv hbeq
      exact hnone kv hkv (by simpa using hbeq)
    rw [hfil]
    rfl
  rw [allOf, hempty] at hall
  have hranges : ranges_for_key (closedFile items tail) key = [] := List.map_eq_nil.mp hall
  rw [containsOf, hranges]
  rfl

theorem beBytes_inj {w n m : Nat} (hn : n < 256 ^ w) (hm : m < 256 ^ w)
    (h : beBytes w n = beBytes w m) : n = m := by
  have := congrArg decBE h
  rwa [decBE_beBytes_of_lt hn, decBE_beBytes_of_lt hm] at this

/-- C7: on a file written by `TermIndexWriter` (with fewer than 65536
fields), membership testing with a key whose field name is not in the
reader's field map returns `False` rather than raising: the
`TermIndexReader` keycoder maps the unknown name to the sentinel field
number 65535, whose coded key matches no stored record, and the
`TermVectorReader` side of `__contains__` turns the keycoder's `KeyError`
into `False`. -/
theorem codedReader_unknown_field (terms : List (ByteSeq × ByteSeq × TermInfo))
    (w' : TermIndexWriter) (hadd : tiAddAll TermIndexWriter.init terms = some w')
    (hfew : terms.length ≤ 65535)
    (hvalid : ValidItems (tiCodedAux [] 0 terms))
    (fieldmap : List (ByteSeq × Nat)) (fieldname text : ByteSeq) (docnum : Nat)
    (hunknown : assocFind fieldmap fieldname = none) :
    tiReaderKeycoder fieldmap fieldname text = pack_ushort 65535 ++ text ∧
    (∃ F, w'.close = some F) ∧
    (∀ F, w'.close = some F →
      tiContains fieldmap F fieldname text = false ∧
      tvContains fieldmap F docnum fieldname = false) := by
  have hkc : tiReaderKeycoder fieldmap fieldname text = pack_ushort 65535 ++ text := by
    rw [tiReaderKeycoder, hunknown]
    rfl
  obtain ⟨h1, h2, h3⟩ := tiAddAll_files terms TermIndexWriter.init w' hadd
  have hclose_eq : w'.close
      = some (closedFile (tiCodedAux [] 0 terms)
          (indexBytes (tiCodedAux [] 0 terms) ++ dictPickle w'.fieldmap)) := by
    rw [TermIndexWriter.close]
    have hinitlen : (TermIndexWriter.init.base.file).length = header_size := by
      simp [TermIndexWriter.init, OrderedHashWriter.init]
    rw [← codedClose_eq (tiCodedAux [] 0 terms) w'.base.hashes w'.base.file w'.base.index
      (dictPickle w'.fieldmap) (by rw [h1]; rfl) (by rw [h2, hinitlen]; rfl)
      (by rw [h3, hinitlen]; rfl)]
  refine ⟨hkc, ⟨_, hclose_eq⟩, ?_⟩
  intro F hF
  rw [hF] at hclose_eq
  have hFval := Option.some.inj hclose_eq
  subst hFval
  constructor
  · rw [tiContains, hkc]
    apply containsOf_closedFile_false _ _ hvalid
    intro kv hkv hc
    obtain ⟨fnum, text2, hlt, heq⟩ := tiCodedAux_keys terms [] 0 (by simp) kv hkv
    rw [heq] at hc
    have hpre : pack_ushort fnum = pack_ushort 65535 := by
      have hlen2 : (pack_ushort fnum).length = (pack_ushort 65535).length := by
        rw [pack_ushort, pack_ushort, beBytes_length, beBytes_length]
      exact (List.append_inj hc hlen2).1
    rw [pack_ushort, pack_ushort] at hpre
    have := beBytes_inj (by norm_num; omega) (by norm_num) hpre
    omega
  · rw [tvContains, tvReaderKeycoder, hunknown]
    rfl

theorem codedReader_unknown_field_witness :
    tiReaderKeycoder [([102], 0)] [103] [116] = pack_ushort 65535 ++ [116] ∧
    tiContains [([102], 0)]
      (((tiAddAll TermIndexWriter.init
          [([102], [116], ⟨0, 0, 0, 0, 0, 0, Postings.poffset 0⟩)]).bind
        TermIndexWriter.close).getD []) [103] [116] = false ∧
    tvContains [([102], 0)]
      (((tiAddAll TermIndexWriter.init
          [([102], [116], ⟨0, 0, 0, 0, 0, 0, Postings.poffset 0⟩)]).bind
        TermIndexWriter.close).getD []) 0 [103] = false := by
  obtain ⟨w', hw'⟩ := Option.isSome_iff_exists.mp
    (show (tiAddAll TermIndexWriter.init
      [([102], [116], ⟨0, 0, 0, 0, 0, 0, Postings.poffset 0⟩)]).isSome from by decide)
  have h := codedReader_unknown_field
    [([102], [116], ⟨0, 0, 0, 0, 0, 0, Postings.poffset 0⟩)] w' hw' (by decide)
    (by unfold ValidItems; decide) [([102], 0)] [103] [116] 0 (by decide)
  obtain ⟨F, hF⟩ := h.2.1
  have hgetd : ((tiAddAll TermIndexWriter.init
      [([102], [116], ⟨0, 0, 0, 0, 0, 0, Postings.poffset 0⟩)]).bind
        TermIndexWriter.close).getD [] = F := by
    rw [hw', Option.some_bind, hF]
    rfl
  rw [hgetd]
  exact ⟨h.1, (h.2.2 F hF).1, (h.2.2 F hF).2⟩

theorem recsLen_append (a b : List (ByteSeq × ByteSeq)) :
    recsLen (a ++ b) = recsLen a + recsLen b := by
  rw [recsLen, recsLen, recsLen, List.map_append, List.sum_append]

theorem offsetsAt_length : ∀ (items : List (ByteSeq × ByteSeq)) (base : Nat),
    (offsetsAt base items).length = items.length := by
  intro items
  induction items with
  | nil => intro base; rfl
  | cons kv rest ih =>
    intro base
    rw [offsetsAt, List.length_cons, List.length_cons, ih]

theorem offsetsAt_getD : ∀ (items : List (ByteSeq × ByteSeq)) (base i : Nat),
    i < items.length →
    (offsetsAt base items).getD i 0 = base + recsLen (items.take i) := by
  intro items
  induction items with
  | nil => intro base i hi; simp at hi
  | cons kv rest ih =>
    intro base i hi
    match i with
    | 0 =>
      rw [offsetsAt, List.getD_cons_zero]
      simp [recsLen]
    | i + 1 =>
      rw [offsetsAt, List.getD_cons_succ, ih _ i (by simpa using hi),
        List.take_succ_cons, recsLen_cons]
      omega

theorem drop_recordsCat (F : ByteSeq) :
    ∀ (items : List (ByteSeq × ByteSeq)) (base : Nat) (rest2 : ByteSeq) (i : Nat),
      F.drop base = recordsCat items ++ rest2 → i ≤ items.length →
      F.drop (base + recsLen (items.take i)) = recordsCat (items.drop i) ++ rest2 := by
  intro items
  induction items with
  | nil =>
    intro base rest2 i h hi
    have hi0 : i = 0 := Nat.le_zero.mp hi
    subst hi0
    simpa [recsLen] using h
  | cons kv rest ih =>
    intro base rest2 i h hi
    match i with
    | 0 => simpa [recsLen] using h
    | i + 1 =>
      rw [recordsCat_cons, List.append_assoc] at h
      have h' := drop_shift h
      rw [recordBytes_length] at h'
      have hres := ih (base + (lengths_size + kv.1.length + kv.2.length)) rest2 i h'
        (by simpa using hi)
      rw [List.take_succ_cons, recsLen_cons, List.drop_succ_cons]
      rw [show base + (lengths_size + kv.1.length + kv.2.length + recsLen (rest.take i))
          = base + (lengths_size + kv.1.length + kv.2.length) + recsLen (rest.take i)
        from by omega]
      exact hres

theorem key_at_recOffset (items : List (ByteSeq × ByteSeq)) (tail : ByteSeq)
    (hlens : ∀ kv ∈ items, kv.1.length < 2 ^ 32 ∧ kv.2.length < 2 ^ 32)
    (i : Nat) (hi : i < items.length) :
    key_at (closedFile items tail) (recOffset items i) = (items.getD i ([], [])).1 := by
  have hdrop := drop_recordsCat (closedFile items tail) items header_size
    (hashZone items ++ tail) i (closedFile_drop_header items tail) (le_of_lt hi)
  have hgd : items.getD i ([], []) = items[i] := List.getD_eq_getElem _ _ hi
  have hsplit : items.drop i = items[i] :: items.drop (i + 1) :=
    List.drop_eq_getElem_cons hi
  rw [hsplit, recordsCat_cons, List.append_assoc] at hdrop
  have hmem : items[i] ∈ items := List.getElem_mem _
  obtain ⟨hklen, _, hkread, _, _⟩ := record_reads (closedFile items tail) items[i]
    (header_size + recsLen (items.take i)) _ hdrop (hlens _ hmem).1 (hlens _ hmem).2
  rw [recOffset, key_at, hklen, hkread, hgd]

theorem closedFile_index (items : List (ByteSeq × ByteSeq)) (hvalid : ValidItems items) :
    indexLength (closedFile items (indexBytes items)) = items.length ∧
    ∀ i, i < items.length →
      getU64 (closedFile items (indexBytes items))
          (indexbase (closedFile items (indexBytes items)) + i * 8)
        = recOffset items i := by
  have heoh := closedFile_eoh items (indexBytes items) hvalid
  have hdropEoh : (closedFile items (indexBytes items)).drop (hashEoh items)
      = indexBytes items := by
    have h := drop_shift (closedFile_recbase items (indexBytes items))
    rw [show header_size + recsLen items
        + (slotRegion (writerHashes items) (List.range 256)).length = hashEoh items
      from rfl] at h
    exact h
  have hcount32 : (offsetsAt header_size items).length < 2 ^ 32 := by
    rw [offsetsAt_length]
    have := hvalid.2.1
    omega
  have hdropEoh' : (closedFile items (indexBytes items)).drop (hashEoh items)
      = beBytes 4 (offsetsAt header_size items).length
        ++ ((offsetsAt header_size items).map (beBytes 8)).flatten := by
    rw [hdropEoh, indexBytes]
  have hlenF : indexLength (closedFile items (indexBytes items)) = items.length := by
    rw [indexLength, heoh, getU32_of_drop' hdropEoh' hcount32, offsetsAt_length]
  refine ⟨hlenF, ?_⟩
  intro i hi
  have hdropIdx : (closedFile items (indexBytes items)).drop (hashEoh items + 4)
      = ((offsetsAt header_size items).map (beBytes 8)).flatten ++ [] := by
    have h := drop_shift hdropEoh'
    rw [beBytes_length] at h
    rw [h, List.append_nil]
  have hc8 : ∀ x ∈ (offsetsAt header_size items).map (beBytes 8), x.length = 8 := by
    intro x hx
    obtain ⟨y, _, rfl⟩ := List.mem_map.mp hx
    exact beBytes_length 8 y
  have hilen : i < ((offsetsAt header_size items).map (beBytes 8)).length := by
    rw [List.length_map, offsetsAt_length]
    exact hi
  have hchunk := drop_flatten_uniform hc8 hdropIdx hilen
  have hgdm : ((offsetsAt header_size items).map (beBytes 8)).getD i []
      = beBytes 8 ((offsetsAt header_size items).getD i 0) := by
    rw [List.getD_eq_getElem _ _ hilen, List.getElem_map,
      List.getD_eq_getElem _ _ (by rw [offsetsAt_length]; exact hi)]
  rw [hgdm] at hchunk
  have hoff : (offsetsAt header_size items).getD i 0
      = header_size + recsLen (items.take i) := offsetsAt_getD items header_size i hi
  have hoffbound : (offsetsAt header_size items).getD i 0 < 2 ^ 64 := by
    rw [hoff]
    have hsplit : recsLen (items.take i) ≤ recsLen items := by
      conv_rhs => rw [show items = items.take i ++ items.drop i
        from (List.take_append_drop _ _).symm]
      rw [recsLen_append]
      omega
    have := hvalid.2.2
    omega
  have hget := getU64_of_drop' hchunk hoffbound
  rw [indexbase, heoh]
  rw [show hashEoh items + 4 + i * 8 = hashEoh items + 4 + 8 * i from by omega]
  rw [hget, hoff, recOffset]

theorem closedFile_items (items : List (ByteSeq × ByteSeq)) (tail : ByteSeq)
    (hvalid : ValidItems items) :
    start_of_hashes (closedFile items tail) = header_size + recsLen items ∧
    ranges (closedFile items tail) = rangesModel header_size items ∧
    itemsOf (closedFile items tail) = items := by
  obtain ⟨pos, t', hbuck, _, hdir⟩ := closedFile_bucket items tail hvalid 0 (by omega)
  have hpos : pos = header_size + recsLen items := by
    have h0 := hashDir_head items
    rw [hdir] at h0
    exact (Prod.mk.injEq _ _ _ _).mp h0 |>.1
  have hstart : start_of_hashes (closedFile items tail) = header_size + recsLen items := by
    rw [start_of_hashes, hbuck, hpos]
  have hlens : ∀ kv ∈ items, kv.1.length < 2 ^ 32 ∧ kv.2.length < 2 ^ 32 :=
    fun kv hkv => ⟨(hvalid.1 kv hkv).2.1, (hvalid.1 kv hkv).2.2⟩
  have hranges : ranges (closedFile items tail) = rangesModel header_size items := by
    rw [ranges, hstart]
    exact rangesAux_walk (closedFile items tail) items header_size (hashZone items ++ tail)
      (closedFile_drop_header items tail) hlens
  refine ⟨hstart, hranges, ?_⟩
  rw [itemsOf, hranges]
  exact rangesModel_read (closedFile items tail) items header_size (hashZone items ++ tail)
    (closedFile_drop_header items tail) hlens

theorem orderedClose_eq (items : List (ByteSeq × ByteSeq)) (w : OrderedHashWriter)
    (hfile : w.file = List.replicate header_size 0 ++ recordsCat items)
    (hhashes : w.hashes = writerHashes items)
    (hindex : w.index = offsetsAt header_size items) :
    w.close = some (closedFile items (indexBytes items)) := by
  have h := codedClose_eq items w.hashes w.file w.index [] hfile hhashes hindex
  have hfun : (fun st : ByteSeq × List (Nat × Nat) =>
        write_directory (st.1 ++ beBytes 4 w.index.length
          ++ (w.index.map (beBytes 8)).flatten) st.1.length st.2)
      = (fun st : ByteSeq × List (Nat × Nat) =>
        write_directory (st.1 ++ beBytes 4 w.index.length
          ++ (w.index.map (beBytes 8)).flatten ++ []) st.1.length st.2) := by
    funext st
    rw [List.append_nil]
  rw [OrderedHashWriter.close, hfun, h, List.append_nil]

theorem lexLt_trans : ∀ (a b c : ByteSeq), lexLt a b = true → lexLt b c = true →
    lexLt a c = true := by
  intro a
  induction a with
  | nil =>
    intro b c hab hbc
    cases b with
    | nil => simp [lexLt] at hab
    | cons b0 bs =>
      cases c with
      | nil => simp [lexLt] at hbc
      | cons c0 cs => rfl
  | cons a0 as ih =>
    intro b c hab hbc
    cases b with
    | nil => simp [lexLt] at hab
    | cons b0 bs =>
      cases c with
      | nil => simp [lexLt] at hbc
      | cons c0 cs =>
        rw [lexLt] at hab hbc ⊢
        by_cases h1 : a0 < b0
        · by_cases h2 : b0 < c0
          · rw [if_pos (show a0 < c0 by omega)]
          · rw [if_neg h2] at hbc
            by_cases h3 : c0 < b0
            · rw [if_pos h3] at hbc
              exact absurd hbc (by decide)
            · rw [if_pos (show a0 < c0 by omega)]
        · rw [if_neg h1] at hab
          by_cases h2 : b0 < a0
          · rw [if_pos h2] at hab
            exact absurd hab (by decide)
          · rw [if_neg h2] at hab
            have heq : a0 = b0 := by omega
            subst heq
            by_cases h3 : a0 < c0
            · rw [if_pos h3]
            · rw [if_neg h3] at hbc ⊢
              by_cases h4 : c0 < a0
              · rw [if_pos h4] at hbc
                exact absurd hbc (by decide)
              · rw [if_neg h4] at hbc ⊢
                exact ih bs cs hab hbc

theorem chain_head_lt : ∀ (ks : List ByteSeq) (k : ByteSeq),
    chainIncreasing (some k) ks = true →
    ∀ j, j < ks.length → lexLt k (ks.getD j []) = true := by
  intro ks
  induction ks with
  | nil => intro k _ j hj; simp at hj
  | cons k1 ksr ih =>
    intro k hch j hj
    simp only [chainIncreasing, Bool.and_eq_true] at hch
    have hk1 : lexLt k k1 = true := by
      have h1 := hch.1
      simp only [leLastkey] at h1
      rwa [Bool.not_not] at h1
    cases j with
    | zero => rw [List.getD_cons_zero]; exact hk1
    | succ j =>
      rw [List.getD_cons_succ]
      exact lexLt_trans k k1 _ hk1 (ih k1 hch.2 j (by simpa using hj))

theorem chain_pairwise : ∀ (ks : List ByteSeq) (lk : Option ByteSeq),
    chainIncreasing lk ks = true →
    ∀ i j, i < j → j < ks.length →
      lexLt (ks.getD i []) (ks.getD j []) = true := by
  intro ks
  induction ks with
  | nil => intro lk _ i j _ hj; simp at hj
  | cons k ksr ih =>
    intro lk hch i j hij hj
    simp only [chainIncreasing, Bool.and_eq_true] at hch
    cases j with
    | zero => exact absurd hij (Nat.not_lt_zero i)
    | succ j =>
      cases i with
      | zero =>
        rw [List.getD_cons_zero, List.getD_cons_succ]
        exact chain_head_lt ksr k hch.2 j (by simpa using hj)
      | succ i =>
        rw [List.getD_cons_succ, List.getD_cons_succ]
        exact ih (some k) hch.2 i j (by omega) (by simpa using hj)

theorem getD_map_fst (items : List (ByteSeq × ByteSeq)) (i : Nat) (hi : i < items.length) :
    (items.map (·.1)).getD i [] = (items.getD i ([], [])).1 := by
  rw [List.getD_eq_getElem _ _ (by rw [List.length_map]; exact hi),
    List.getElem_map, List.getD_eq_getElem _ _ hi]

theorem takeWhile_getD_true {α : Type} (p : α → Bool) (d : α) :
    ∀ (l : List α) (i : Nat), i < (l.takeWhile p).length → p (l.getD i d) = true := by
  intro l
  induction l with
  | nil => intro i hi; simp at hi
  | cons x xs ih =>
    intro i hi
    cases hp : p x with
    | true =>
      rw [List.takeWhile_cons, if_pos hp, List.length_cons] at hi
      match i with
      | 0 => exact hp
      | i + 1 =>
        rw [List.getD_cons_succ]
        exact ih i (by omega)
    | false =>
      rw [List.takeWhile_cons, if_neg (by simp [hp])] at hi
      simp at hi

theorem takeWhile_length_le {α : Type} (p : α → Bool) :
    ∀ l : List α, (l.takeWhile p).length ≤ l.length := by
  intro l
  induction l with
  | nil => exact Nat.le_refl 0
  | cons x xs ih =>
    cases hp : p x with
    | true =>
      rw [List.takeWhile_cons, if_pos hp, List.length_cons, List.length_cons]
      omega
    | false =>
      rw [List.takeWhile_cons, if_neg (by simp [hp])]
      simp

theorem takeWhile_getD_false {α : Type} (p : α → Bool) (d : α) :
    ∀ l : List α, (l.takeWhile p).length < l.length →
      p (l.getD (l.takeWhile p).length d) = false := by
  intro l
  induction l with
  | nil => intro h; simp at h
  | cons x xs ih =>
    intro h
    cases hp : p x with
    | true =>
      rw [List.takeWhile_cons, if_pos hp] at h ⊢
      simp only [List.length_cons] at h ⊢
      rw [List.getD_cons_succ]
      exact ih (by omega)
    | false =>
      rw [List.takeWhile_cons, if_neg (by simp [hp])]
      exact hp

theorem takeWhile_length_eq_iff {α : Type} (p : α → Bool) :
    ∀ l : List α, ((l.takeWhile p).length = l.length ↔ ∀ x ∈ l, p x = true) := by
  intro l
  induction l with
  | nil => simp
  | cons x xs ih =>
    cases hp : p x with
    | true =>
      rw [List.takeWhile_cons, if_pos hp]
      simp only [List.length_cons, List.mem_cons]
      constructor
      · intro h y hy
        rcases hy with rfl | hy
        · exact hp
        · exact ih.mp (by omega) y hy
      · intro h
        have := ih.mpr (fun y hy => h y (Or.inr hy))
        omega
    | false =>
      rw [List.takeWhile_cons, if_neg (by simp [hp])]
      simp only [List.length_nil, List.length_cons, List.mem_cons]
      constructor
      · intro h
        omega
      · intro h
        have hx := h x (Or.inl rfl)
        rw [hp] at hx
        exact absurd hx (by decide)

theorem dropWhile_eq_drop {α : Type} (p : α → Bool) (l : List α) :
    l.dropWhile p = l.drop (l.takeWhile p).length := by
  have h2 : (l.takeWhile p ++ l.dropWhile p).drop (l.takeWhile p).length = l.dropWhile p :=
    List.drop_left _ _
  rw [List.takeWhile_append_dropWhile] at h2
  exact h2.symm

theorem closestKeyLoop_spec (f q : ByteSeq) (n m : Nat)
    (hlt : ∀ i, i < m → lexLt (key_at f (getU64 f (indexbase f + i * 8))) q = true)
    (hge : ∀ i, m ≤ i → i < n →
      lexLt (key_at f (getU64 f (indexbase f + i * 8))) q = false) :
    ∀ (fuel lo hi : Nat), hi - lo ≤ fuel → lo ≤ m → m ≤ hi → hi ≤ n →
      closestKeyLoop f q lo hi = m := by
  intro fuel
  induction fuel with
  | zero =>
    intro lo hi hf h1 h2 h3
    rw [closestKeyLoop, if_neg (by omega)]
    omega
  | succ fuel ih =>
    intro lo hi hf h1 h2 h3
    by_cases hlh : lo < hi
    · rw [closestKeyLoop, if_pos hlh]
      show (if lexLt (key_at f (getU64 f (indexbase f + (lo + hi) / 2 * 8))) q = true then
            closestKeyLoop f q ((lo + hi) / 2 + 1) hi
          else closestKeyLoop f q lo ((lo + hi) / 2)) = m
      have hmidlo : lo ≤ (lo + hi) / 2 := by omega
      have hmidhi : (lo + hi) / 2 < hi := by omega
      by_cases hmid : (lo + hi) / 2 < m
      · rw [if_pos (hlt _ hmid)]
        exact ih ((lo + hi) / 2 + 1) hi (by omega) (by omega) h2 h3
      · have hgef := hge ((lo + hi) / 2) (by omega) (by omega)
        rw [if_neg (by rw [hgef]; exact Bool.false_ne_true)]
        exact ih lo ((lo + hi) / 2) (by omega) h1 (by omega) (by omega)
    · rw [closestKeyLoop, if_neg hlh]
      omega

/-- C2: for every strictly increasing key sequence accepted by
`OrderedHashWriter.add_all` and closed, `OrderedHashReader.items()` yields
exactly the input sequence in order; for every probe key `q`,
`items_from(q)` yields exactly the suffix of the input whose keys are
byte-lexicographically `≥ q`; the binary search `_closest_key` returns
`None` exactly when no stored key is `≥ q`, and otherwise returns the
smallest indexed offset, the file position of the first record whose key
is `≥ q`. -/
theorem orderedHashReader_items_from (items : List (ByteSeq × ByteSeq))
    (hvalid : ValidItems items) (w' : OrderedHashWriter)
    (hadd : OrderedHashWriter.init.add_all items = AddAllResult.ok w') (q : ByteSeq) :
    (∃ F, w'.close = some F) ∧
    ∀ F, w'.close = some F →
      itemsOf F = items ∧
      itemsFrom F q = items.dropWhile (fun kv => lexLt kv.1 q) ∧
      (closest_key_pos F q = none ↔ ∀ kv ∈ items, lexLt kv.1 q = true) ∧
      ∀ pos, closest_key_pos F q = some pos →
        pos = recOffset items ((items.takeWhile (fun kv => lexLt kv.1 q)).length) := by
  have hadd' : orderedAddLoop OrderedHashWriter.init none items = AddAllResult.ok w' :=
    hadd
  obtain ⟨hf, hh, hx⟩ := orderedAddLoop_ok_parts items OrderedHashWriter.init none w' hadd'
  have hclose := orderedClose_eq items w'
    (by rw [hf]; simp [OrderedHashWriter.init])
    (by rw [hh]; simp [OrderedHashWriter.init, writerHashes])
    (by rw [hx]; simp [OrderedHashWriter.init])
  refine ⟨⟨_, hclose⟩, ?_⟩
  intro F hF
  have hFeq : F = closedFile items (indexBytes items) := by
    rw [hF] at hclose
    exact Option.some.inj hclose
  subst hFeq
  obtain ⟨hstart, hranges, hitems⟩ := closedFile_items items (indexBytes items) hvalid
  obtain ⟨hlenF, hoffs⟩ := closedFile_index items hvalid
  have hlens : ∀ kv ∈ items, kv.1.length < 2 ^ 32 ∧ kv.2.length < 2 ^ 32 :=
    fun kv hkv => ⟨(hvalid.1 kv hkv).2.1, (hvalid.1 kv hkv).2.2⟩
  have hchain : chainIncreasing none (items.map (·.1)) = true := by
    cases hc : chainIncreasing none (items.map (·.1)) with
    | true => rfl
    | false =>
      obtain ⟨w'', hw''⟩ := ((orderedAddLoop_spec items OrderedHashWriter.init none).1).2 hc
      rw [hw''] at hadd'
      exact AddAllResult.noConfusion hadd'
  have hkeyi : ∀ i, i < items.length →
      key_at (closedFile items (indexBytes items))
          (getU64 (closedFile items (indexBytes items))
            (indexbase (closedFile items (indexBytes items)) + i * 8))
        = (items.getD i ([], [])).1 := by
    intro i hi
    rw [hoffs i hi]
    exact key_at_recOffset items (indexBytes items) hlens i hi
  have hsorted : ∀ i j, i < j → j < items.length →
      lexLt (items.getD i ([], [])).1 (items.getD j ([], [])).1 = true := by
    intro i j hij hj
    have h := chain_pairwise (items.map (·.1)) none hchain i j hij
      (by rw [List.length_map]; exact hj)
    rw [getD_map_fst items i (by omega), getD_map_fst items j hj] at h
    exact h
  have hmle : (items.takeWhile (fun kv => lexLt kv.1 q)).length ≤ items.length :=
    takeWhile_length_le _ items
  have hgem : ∀ i, (items.takeWhile (fun kv => lexLt kv.1 q)).length ≤ i →
      i < items.length → lexLt (items.getD i ([], [])).1 q = false := by
    intro i hmi hi
    rcases Nat.eq_or_lt_of_le hmi with heq | hlt2
    · have hml : (items.takeWhile (fun kv => lexLt kv.1 q)).length < items.length := by
        omega
      have hmf : lexLt (items.getD
            (items.takeWhile (fun kv => lexLt kv.1 q)).length ([], [])).1 q = false :=
        takeWhile_getD_false _ ([], []) items hml
      rw [heq] at hmf
      exact hmf
    · cases hc : lexLt (items.getD i ([], [])).1 q with
      | false => rfl
      | true =>
        exfalso
        have hml : (items.takeWhile (fun kv => lexLt kv.1 q)).length < items.length := by
          omega
        have hmf : lexLt (items.getD
            (items.takeWhile (fun kv => lexLt kv.1 q)).length ([], [])).1 q = false :=
          takeWhile_getD_false _ ([], []) items hml
        have hsort := hsorted _ i hlt2 hi
        have htr := lexLt_trans _ _ _ hsort hc
        rw [htr] at hmf
        exact Bool.noConfusion hmf
  have hltK : ∀ i, i < (items.takeWhile (fun kv => lexLt kv.1 q)).length →
      lexLt (key_at (closedFile items (indexBytes items))
        (getU64 (closedFile items (indexBytes items))
          (indexbase (closedFile items (indexBytes items)) + i * 8))) q = true := by
    intro i hi
    rw [hkeyi i (by omega)]
    exact takeWhile_getD_true _ ([], []) items i hi
  have hgeK : ∀ i, (items.takeWhile (fun kv => lexLt kv.1 q)).length ≤ i →
      i < items.length →
      lexLt (key_at (closedFile items (indexBytes items))
        (getU64 (closedFile items (indexBytes items))
          (indexbase (closedFile items (indexBytes items)) + i * 8))) q = false := by
    intro i hmi hi
    rw [hkeyi i hi]
    exact hgem i hmi hi
  have hloop := closestKeyLoop_spec (closedFile items (indexBytes items)) q items.length
    (items.takeWhile (fun kv => lexLt kv.1 q)).length hltK hgeK items.length 0
    items.length (by omega) (Nat.zero_le _) hmle (Nat.le_refl _)
  have hckp : closest_key_pos (closedFile items (indexBytes items)) q
      = (if (items.takeWhile (fun kv => lexLt kv.1 q)).length = items.length then none
        else some (getU64 (closedFile items (indexBytes items))
          (indexbase (closedFile items (indexBytes items))
            + (items.takeWhile (fun kv => lexLt kv.1 q)).length * 8))) := by
    rw [closest_key_pos]
    show (if closestKeyLoop (closedFile items (indexBytes items)) q 0
          (indexLength (closedFile items (indexBytes items)))
          = indexLength (closedFile items (indexBytes items)) then none
        else some (getU64 (closedFile items (indexBytes items))
          (indexbase (closedFile items (indexBytes items))
            + closestKeyLoop (closedFile items (indexBytes items)) q 0
                (indexLength (closedFile items (indexBytes items))) * 8))) = _
    rw [hlenF, hloop]
  by_cases hm : (items.takeWhile (fun kv => lexLt kv.1 q)).length = items.length
  · refine ⟨hitems, ?_, ?_, ?_⟩
    · rw [itemsFrom, rangesFrom, hckp, if_pos hm, dropWhile_eq_drop, hm, List.drop_length]
      rfl
    · constructor
      · intro _
        exact fun kv hkv => (takeWhile_length_eq_iff _ items).mp hm kv hkv
      · intro _
        rw [hckp, if_pos hm]
    · intro pos hpos
      rw [hckp, if_pos hm] at hpos
      exact Option.noConfusion hpos
  · have hmn : (items.takeWhile (fun kv => lexLt kv.1 q)).length < items.length :=
      Nat.lt_of_le_of_ne hmle hm
    have hdropm := drop_recordsCat (closedFile items (indexBytes items)) items header_size
      (hashZone items ++ indexBytes items)
      ((items.takeWhile (fun kv => lexLt kv.1 q)).length)
      (closedFile_drop_header items (indexBytes items)) (le_of_lt hmn)
    refine ⟨hitems, ?_, ?_, ?_⟩
    · have hsplitLen : header_size + recsLen items
          = recOffset items (items.takeWhile (fun kv => lexLt kv.1 q)).length
            + recsLen (items.drop (items.takeWhile (fun kv => lexLt kv.1 q)).length) := by
        rw [recOffset]
        conv_lhs => rw [show items
            = items.take (items.takeWhile (fun kv => lexLt kv.1 q)).length
              ++ items.drop (items.takeWhile (fun kv => lexLt kv.1 q)).length
          from (List.take_append_drop _ _).symm]
        rw [recsLen_append]
        omega
      rw [itemsFrom, rangesFrom, hckp, if_neg hm]
      show (rangesAux (closedFile items (indexBytes items))
            (start_of_hashes (closedFile items (indexBytes items)))
            (getU64 (closedFile items (indexBytes items))
              (indexbase (closedFile items (indexBytes items))
                + (items.takeWhile (fun kv => lexLt kv.1 q)).length * 8))).map
          (fun r => (readAt (closedFile items (indexBytes items)) r.1 r.2.1,
            readAt (closedFile items (indexBytes items)) r.2.2.1 r.2.2.2))
        = items.dropWhile (fun kv => lexLt kv.1 q)
      rw [hoffs _ hmn, hstart, hsplitLen]
      rw [rangesAux_walk (closedFile items (indexBytes items))
        (items.drop (items.takeWhile (fun kv => lexLt kv.1 q)).length)
        (recOffset items (items.takeWhile (fun kv => lexLt kv.1 q)).length)
        (hashZone items ++ indexBytes items)
        (by rw [recOffset]; exact hdropm)
        (fun kv hkv => hlens kv (List.mem_of_mem_drop hkv))]
      rw [rangesModel_read (closedFile items (indexBytes items))
        (items.drop (items.takeWhile (fun kv => lexLt kv.1 q)).length)
        (recOffset items (items.takeWhile (fun kv => lexLt kv.1 q)).length)
        (hashZone items ++ indexBytes items)
        (by rw [recOffset]; exact hdropm)
        (fun kv hkv => hlens kv (List.mem_of_mem_drop hkv))]
      rw [dropWhile_eq_drop]
    · constructor
      · intro h
        rw [hckp, if_neg hm] at h
        exact Option.noConfusion h
      · intro hall
        exact absurd ((takeWhile_length_eq_iff _ items).mpr hall) hm
    · intro pos hpos
      rw [hckp, if_neg hm, hoffs _ hmn] at hpos
      exact (Option.some.inj hpos).symm

theorem orderedHashReader_items_from_witness :
    itemsOf ((((OrderedHashWriter.init.add_all [([97], [1]), ([98], [2])]).getOk
        OrderedHashWriter.init).close).getD []) = [([97], [1]), ([98], [2])] ∧
    itemsFrom ((((OrderedHashWriter.init.add_all [([97], [1]), ([98], [2])]).getOk
        OrderedHashWriter.init).close).getD []) [98] = [([98], [2])] := by
  obtain ⟨w', hw'⟩ : ∃ w'', OrderedHashWriter.init.add_all [([97], [1]), ([98], [2])]
      = AddAllResult.ok w'' := by
    cases hres : OrderedHashWriter.init.add_all [([97], [1]), ([98], [2])] with
    | ok w => exact ⟨w, rfl⟩
    | keysOutOfOrder w =>
      have hc := ((orderedAddLoop_spec [([97], [1]), ([98], [2])]
        OrderedHashWriter.init none).1).1 ⟨w, hres⟩
      exact absurd hc (by decide)
  have h := orderedHashReader_items_from [([97], [1]), ([98], [2])]
    (by unfold ValidItems; decide) w' hw' [98]
  obtain ⟨F, hF⟩ := h.1
  have h2 := h.2 F hF
  have hgo : (OrderedHashWriter.init.add_all [([97], [1]), ([98], [2])]).getOk
      OrderedHashWriter.init = w' := by
    rw [hw']
    rfl
  have hfile : (((OrderedHashWriter.init.add_all [([97], [1]), ([98], [2])]).getOk
      OrderedHashWriter.init).close).getD [] = F := by
    rw [hgo, hF]
    rfl
  rw [hfile]
  refine ⟨h2.1, ?_⟩
  rw [h2.2.1]
  decide

end Whoosh
